import Mathlib

/-!
The arithmetic-expression interpreter `calc`: lexer, parser and evaluator.

A shallow embedding of `src/lexer.c` and `src/parser.c`.

* A C string is a `List Char`; every `Char` stands for one byte, and the string
  ends at its first NUL (`strlen`).
* `int` offsets are natural numbers: no wrap-around is modelled (inputs are
  shorter than `2^31` characters).
* `malloc` is taken to succeed.
* Loops and recursive calls carry a fuel argument; the bound given at each
  entry point is shown to be enough on every input without NUL
  (`lexer_next_token_at`, `parse_total`), so that the fuel never decides a
  result.
* Text written to `stderr` is kept as a list of `Diag` values.
* The C library (`atof`, `pow`) and the arithmetic of `double` are a parameter
  of the development (`Arith`).
-/

namespace Calc

/-! ## Data model (`include/lexer.h`, `include/parser.h`) -/

/-- Token types recognised by the lexer (`TokenType`). -/
inductive TokenType where
  | TOKEN_NUMBER
  | TOKEN_PLUS
  | TOKEN_MINUS
  | TOKEN_MULTIPLY
  | TOKEN_DIVIDE
  | TOKEN_POWER
  | TOKEN_LPAREN
  | TOKEN_RPAREN
  | TOKEN_EOF
  | TOKEN_ERROR
  deriving DecidableEq, Repr

open TokenType

/-- A single token (`Token_t`): its kind and its text; `value = none` is the
C `NULL`. -/
structure Token_t where
  type : TokenType
  value : Option (List Char)
  deriving DecidableEq, Repr

/-- The state of the lexer (`Lexer_t`). -/
structure Lexer_t where
  input : List Char
  pos : Nat
  length : Nat
  curr_char : Char
  deriving DecidableEq, Repr

/-- The two messages `lexer_next_token` passes to `lexer_error`. -/
inductive LexMsg where
  | invalid_number_format
  | unknown_character
  deriving DecidableEq, Repr

/-- The two messages passed to `parser_error`. -/
inductive ParseMsg where
  | expected_number_or_lparen
  | unexpected_token_after_expression
  deriving DecidableEq, Repr

/-- One line written to `stderr`. -/
inductive Diag where
  /-- `lexer_error`: "Lexical Error at position %d: %s '%c'", with the lexer's
  offset and current character at the time of the call. -/
  | lexical (pos : Nat) (msg : LexMsg) (curr : Char)
  /-- `parser_error`: the message and the current token. -/
  | parser_err (msg : ParseMsg) (tok : Token_t)
  /-- The message of `eat` before `exit(1)`. -/
  | eat_mismatch (expected got : TokenType)
  /-- `ast_eval`: "Error: NULL AST node". -/
  | null_node
  /-- `ast_eval`: "Error: Division by zero". -/
  | division_by_zero
  /-- `ast_eval`: "Error: Unknown binary operator". -/
  | unknown_binary_operator
  /-- `ast_eval`: "Error: Unknown unary operator". -/
  | unknown_unary_operator
  deriving DecidableEq, Repr

/-! ## The lexer (`src/lexer.c`) -/

/-- The terminating byte `'\0'` of a C string. -/
def NUL : Char := Char.ofNat 0

/-- C `strlen`: the number of characters before the first NUL. -/
def strlen (s : List Char) : Nat := (s.takeWhile (fun c => c ≠ NUL)).length

/-- C indexing `s[i]` of a string; the terminator is read at the end. -/
def charAt (s : List Char) (i : Nat) : Char := s.getD i NUL

/-- C `strncpy(dst, src, n)` followed by `dst[n] = 0`, read back as a string:
the first `n` characters of `src`, cut at its first NUL. -/
def strncpy (src : List Char) (n : Nat) : List Char :=
  (src.take n).takeWhile (fun c => c ≠ NUL)

/-- Source: `lexer_init`. -/
def lexer_init (input : List Char) : Lexer_t :=
  { input := input, pos := 0, length := strlen input, curr_char := charAt input 0 }

/-- Source: `is_digit`. -/
def is_digit (c : Char) : Bool := decide ('0' ≤ c) && decide (c ≤ '9')

/-- Source: `is_whitespace`: space, `\t`, `\n`, `\r`, `\v`, `\f`. -/
def is_whitespace (c : Char) : Bool :=
  c == ' ' || c == Char.ofNat 9 || c == Char.ofNat 10 || c == Char.ofNat 13
    || c == Char.ofNat 11 || c == Char.ofNat 12

/-- Source: `advance`. -/
def advance (lexer : Lexer_t) : Lexer_t :=
  if lexer.pos + 1 < lexer.length then
    { lexer with pos := lexer.pos + 1, curr_char := charAt lexer.input (lexer.pos + 1) }
  else
    { lexer with pos := lexer.pos + 1, curr_char := NUL }

/-- The `while` loop of `skip_whitespace`, at most `fuel` tests of its
condition. -/
def skip_whitespace_loop : Nat → Lexer_t → Lexer_t
  | 0, lexer => lexer
  | fuel + 1, lexer =>
    if lexer.curr_char ≠ NUL ∧ is_whitespace lexer.curr_char = true then
      skip_whitespace_loop fuel (advance lexer)
    else lexer

/-- Source: `skip_whitespace`. -/
def skip_whitespace (lexer : Lexer_t) : Lexer_t :=
  skip_whitespace_loop (lexer.length - lexer.pos + 2) lexer

/-- The `while` loop of `read_number` on the lexer and the locals `length`
and `has_decimal`, at most `fuel` tests of its condition. -/
def read_number_loop : Nat → Lexer_t → Nat → Bool → Lexer_t × Nat × Bool
  | 0, lexer, length, has_decimal => (lexer, length, has_decimal)
  | fuel + 1, lexer, length, has_decimal =>
    if (lexer.curr_char ≠ NUL ∧ is_digit lexer.curr_char = true)
        ∨ (lexer.curr_char = '.' ∧ has_decimal = false) then
      read_number_loop fuel (advance lexer) (length + 1)
        (if lexer.curr_char = '.' then true else has_decimal)
    else (lexer, length, has_decimal)

/-- Source: `read_number`: the lexer after the call and the string returned
(`none` for `NULL`). -/
def read_number (lexer : Lexer_t) : Lexer_t × Option (List Char) :=
  let start_pos := lexer.pos
  match read_number_loop (lexer.length - lexer.pos + 2) lexer 0 false with
  | (lexer1, length, has_decimal) =>
    if length = 1 ∧ has_decimal = true then
      ({ lexer1 with pos := start_pos, curr_char := charAt lexer1.input start_pos }, none)
    else
      (lexer1, some (strncpy (lexer1.input.drop start_pos) length))

/-- Source: `create_token`. -/
def create_token (type : TokenType) (value : Option (List Char)) : Token_t :=
  { type := type, value := value }

/-- Source: `create_single_char_token`. -/
def create_single_char_token (type : TokenType) (ch : Char) : Token_t :=
  create_token type (some [ch])

/-- Source: `lexer_error`: the line it prints. -/
def lexer_error (lexer : Lexer_t) (msg : LexMsg) : Diag :=
  Diag.lexical lexer.pos msg lexer.curr_char

/-- The tail of the loop body of `lexer_next_token` ("Handle single character
operation"): the token, the lexer after it and what was printed. -/
def lexer_single_char (lexer : Lexer_t) : Token_t × Lexer_t × List Diag :=
  let ch := lexer.curr_char
  let lexer1 := advance lexer
  if ch = '+' then (create_single_char_token TOKEN_PLUS ch, lexer1, [])
  else if ch = '-' then (create_single_char_token TOKEN_MINUS ch, lexer1, [])
  else if ch = '*' then (create_single_char_token TOKEN_MULTIPLY ch, lexer1, [])
  else if ch = '/' then (create_single_char_token TOKEN_DIVIDE ch, lexer1, [])
  else if ch = '^' then (create_single_char_token TOKEN_POWER ch, lexer1, [])
  else if ch = '(' then (create_single_char_token TOKEN_LPAREN ch, lexer1, [])
  else if ch = ')' then (create_single_char_token TOKEN_RPAREN ch, lexer1, [])
  else (create_single_char_token TOKEN_ERROR ch, lexer1,
          [lexer_error lexer1 LexMsg.unknown_character])

/-- The `while` loop of `lexer_next_token`, at most `fuel` passes; `none` when
the fuel is used up. -/
def lexer_next_token_loop : Nat → Lexer_t → Option (Token_t × Lexer_t × List Diag)
  | 0, _ => none
  | fuel + 1, lexer =>
    if lexer.curr_char ≠ NUL then
      if is_whitespace lexer.curr_char = true then
        lexer_next_token_loop fuel (skip_whitespace lexer)
      else if is_digit lexer.curr_char = true then
        match read_number lexer with
        | (lexer1, some number) => some (create_token TOKEN_NUMBER (some number), lexer1, [])
        | (lexer1, none) =>
          some (create_single_char_token TOKEN_ERROR lexer1.curr_char, lexer1,
                [lexer_error lexer1 LexMsg.invalid_number_format])
      else if lexer.curr_char = '.' ∧ lexer.pos + 1 < lexer.length
          ∧ is_digit (charAt lexer.input (lexer.pos + 1)) = true then
        match read_number lexer with
        | (lexer1, some number) => some (create_token TOKEN_NUMBER (some number), lexer1, [])
        | (lexer1, none) => some (lexer_single_char lexer1)
      else some (lexer_single_char lexer)
    else some (create_token TOKEN_EOF none, lexer, [])

/-- Source: `lexer_next_token`: the token returned, the lexer after the call
and the lines printed by it. -/
def lexer_next_token (lexer : Lexer_t) : Option (Token_t × Lexer_t × List Diag) :=
  lexer_next_token_loop (lexer.length - lexer.pos + 2) lexer

/-- The loop of `print_tokens`: the tokens obtained before `TOKEN_EOF`, at
most `fuel` calls of `lexer_next_token`; `none` when the fuel is used up. -/
def print_tokens_loop : Nat → Lexer_t → Option (List Token_t)
  | 0, _ => none
  | fuel + 1, lexer =>
    match lexer_next_token lexer with
    | none => none
    | some (token, lexer1, _) =>
      if token.type ≠ TOKEN_EOF then
        (print_tokens_loop fuel lexer1).map (fun ts => token :: ts)
      else some []

/-- Source: `print_tokens`: the sequence of tokens it prints for `input`. -/
def print_tokens (input : List Char) : Option (List Token_t) :=
  print_tokens_loop (input.length + 1) (lexer_init input)

/-! ## The parser (`src/parser.c`) -/

/-- The C library and `double` arithmetic used by the parser and the
evaluator: `atof`, the constant `0.0`, `+ - * /`, `pow`, unary minus and the
test `x == 0.0`. -/
structure Arith (F : Type) where
  atof : List Char → F
  zero : F
  add : F → F → F
  sub : F → F → F
  mul : F → F → F
  div : F → F → F
  pow : F → F → F
  neg : F → F
  is_zero : F → Bool

/-- A pointer to an AST node (`ASTNode_t *`): `null` is the C `NULL`, the
other constructors are the three node types with their payload. -/
inductive ASTNode_t (F : Type) where
  | null
  | number (value : F)
  | binary_op (op : TokenType) (left right : ASTNode_t F)
  | unary_op (op : TokenType) (operand : ASTNode_t F)
  deriving DecidableEq, Repr

/-- The parser state (`Parser_t`), together with what the process has written
to `stderr` so far. -/
structure Parser_t where
  lexer : Lexer_t
  curr_token : Token_t
  stderr : List Diag
  deriving DecidableEq, Repr

/-- The outcome of a parser routine: it returns `a`; or the process ends in
`exit(1)` with the given text on `stderr`; or the fuel of the model is used
up. -/
inductive Res (α : Type) where
  | ok (a : α)
  | exit (stderr : List Diag)
  | out_of_fuel
  deriving DecidableEq, Repr

/-- Sequencing of two routines. -/
def Res.bind {α β : Type} (r : Res α) (f : α → Res β) : Res β :=
  match r with
  | Res.ok a => f a
  | Res.exit e => Res.exit e
  | Res.out_of_fuel => Res.out_of_fuel

/-- Source: `parser_init`. -/
def parser_init (lexer : Lexer_t) : Res Parser_t :=
  match lexer_next_token lexer with
  | none => Res.out_of_fuel
  | some (token, lexer1, printed) =>
    Res.ok { lexer := lexer1, curr_token := token, stderr := printed }

/-- Source: `parser_error`: the parser after the line is printed. -/
def parser_error (parser : Parser_t) (msg : ParseMsg) : Parser_t :=
  { parser with stderr := parser.stderr ++ [Diag.parser_err msg parser.curr_token] }

/-- Source: `eat`. -/
def eat (parser : Parser_t) (expected : TokenType) : Res Parser_t :=
  if parser.curr_token.type = expected then
    match lexer_next_token parser.lexer with
    | none => Res.out_of_fuel
    | some (token, lexer1, printed) =>
      Res.ok { lexer := lexer1, curr_token := token, stderr := parser.stderr ++ printed }
  else
    Res.exit (parser.stderr ++ [Diag.eat_mismatch expected parser.curr_token.type])

/-- Source: `create_number_node`. -/
def create_number_node {F : Type} (value : F) : ASTNode_t F := ASTNode_t.number value

/-- Source: `create_binary_node`. -/
def create_binary_node {F : Type} (op : TokenType) (left right : ASTNode_t F) : ASTNode_t F :=
  ASTNode_t.binary_op op left right

/-- Source: `create_unary_node`. -/
def create_unary_node {F : Type} (op : TokenType) (operand : ASTNode_t F) : ASTNode_t F :=
  ASTNode_t.unary_op op operand

mutual

/-- Source: `parse_primary`. -/
def parse_primary {F : Type} (A : Arith F) : Nat → Parser_t → Res (ASTNode_t F × Parser_t)
  | 0, _ => Res.out_of_fuel
  | fuel + 1, parser =>
    if parser.curr_token.type = TOKEN_NUMBER then
      (eat parser TOKEN_NUMBER).bind fun parser1 =>
        Res.ok (create_number_node (A.atof (parser.curr_token.value.getD [])), parser1)
    else if parser.curr_token.type = TOKEN_LPAREN then
      (eat parser TOKEN_LPAREN).bind fun parser1 =>
        (parse_expression A fuel parser1).bind fun r =>
          (eat r.2 TOKEN_RPAREN).bind fun parser3 => Res.ok (r.1, parser3)
    else
      Res.ok (ASTNode_t.null, parser_error parser ParseMsg.expected_number_or_lparen)

/-- Source: `parser_power`. -/
def parser_power {F : Type} (A : Arith F) : Nat → Parser_t → Res (ASTNode_t F × Parser_t)
  | 0, _ => Res.out_of_fuel
  | fuel + 1, parser =>
    (parse_primary A fuel parser).bind fun l =>
      if l.2.curr_token.type = TOKEN_POWER then
        (eat l.2 TOKEN_POWER).bind fun parser2 =>
          (parser_power A fuel parser2).bind fun r =>
            Res.ok (create_binary_node l.2.curr_token.type l.1 r.1, r.2)
      else Res.ok l

/-- Source: `parser_factor`. -/
def parser_factor {F : Type} (A : Arith F) : Nat → Parser_t → Res (ASTNode_t F × Parser_t)
  | 0, _ => Res.out_of_fuel
  | fuel + 1, parser =>
    if parser.curr_token.type = TOKEN_MINUS then
      (eat parser TOKEN_MINUS).bind fun parser1 =>
        (parser_factor A fuel parser1).bind fun r =>
          Res.ok (create_unary_node TOKEN_MINUS r.1, r.2)
    else if parser.curr_token.type = TOKEN_PLUS then
      (eat parser TOKEN_PLUS).bind fun parser1 =>
        (parser_factor A fuel parser1).bind fun r =>
          Res.ok (create_unary_node TOKEN_PLUS r.1, r.2)
    else parser_power A fuel parser

/-- The `while` loop of `parse_term`, entered with the local `left`. -/
def parse_term_loop {F : Type} (A : Arith F) :
    Nat → ASTNode_t F → Parser_t → Res (ASTNode_t F × Parser_t)
  | 0, _, _ => Res.out_of_fuel
  | fuel + 1, left, parser =>
    if parser.curr_token.type = TOKEN_MULTIPLY ∨ parser.curr_token.type = TOKEN_DIVIDE then
      (eat parser parser.curr_token.type).bind fun parser1 =>
        (parser_factor A fuel parser1).bind fun r =>
          parse_term_loop A fuel (create_binary_node parser.curr_token.type left r.1) r.2
    else Res.ok (left, parser)

/-- Source: `parse_term`. -/
def parse_term {F : Type} (A : Arith F) : Nat → Parser_t → Res (ASTNode_t F × Parser_t)
  | 0, _ => Res.out_of_fuel
  | fuel + 1, parser =>
    (parser_factor A fuel parser).bind fun l => parse_term_loop A fuel l.1 l.2

/-- The `while` loop of `parse_expression`, entered with the local `left`. -/
def parse_expression_loop {F : Type} (A : Arith F) :
    Nat → ASTNode_t F → Parser_t → Res (ASTNode_t F × Parser_t)
  | 0, _, _ => Res.out_of_fuel
  | fuel + 1, left, parser =>
    if parser.curr_token.type = TOKEN_PLUS ∨ parser.curr_token.type = TOKEN_MINUS then
      (eat parser parser.curr_token.type).bind fun parser1 =>
        (parse_term A fuel parser1).bind fun r =>
          parse_expression_loop A fuel (create_binary_node parser.curr_token.type left r.1) r.2
    else Res.ok (left, parser)

/-- Source: `parse_expression`. -/
def parse_expression {F : Type} (A : Arith F) : Nat → Parser_t → Res (ASTNode_t F × Parser_t)
  | 0, _ => Res.out_of_fuel
  | fuel + 1, parser =>
    (parse_term A fuel parser).bind fun l => parse_expression_loop A fuel l.1 l.2

end

/-- Source: `parser_parse`; `ast_free` leaves nothing to the caller, who
receives `NULL`. -/
def parser_parse {F : Type} (A : Arith F) (fuel : Nat) (parser : Parser_t) :
    Res (ASTNode_t F × Parser_t) :=
  (parse_expression A fuel parser).bind fun r =>
    if r.2.curr_token.type ≠ TOKEN_EOF then
      Res.ok (ASTNode_t.null, parser_error r.2 ParseMsg.unexpected_token_after_expression)
    else Res.ok r

/-- The fuel given to the parser for an input: five levels of calls for each
token, and no more tokens than characters. -/
def parse_fuel (input : List Char) : Nat := 5 * input.length + 5

/-- The sequence `lexer_init`, `parser_init`, `parser_parse` of `main`,
`run_tests` and `demo_parser`: the specification's `parse(input)`. The AST
returned is `null` when the parse failed. -/
def parse {F : Type} (A : Arith F) (input : List Char) : Res (ASTNode_t F × Parser_t) :=
  (parser_init (lexer_init input)).bind fun parser => parser_parse A (parse_fuel input) parser

/-! ## The evaluator (`ast_eval`) -/

/-- Source: `ast_eval`: the value returned and the lines printed. -/
def ast_eval {F : Type} (A : Arith F) : ASTNode_t F → F × List Diag
  | ASTNode_t.null => (A.zero, [Diag.null_node])
  | ASTNode_t.number value => (value, [])
  | ASTNode_t.binary_op op left right =>
    let left_val := ast_eval A left
    let right_val := ast_eval A right
    let printed := left_val.2 ++ right_val.2
    match op with
    | TOKEN_PLUS => (A.add left_val.1 right_val.1, printed)
    | TOKEN_MINUS => (A.sub left_val.1 right_val.1, printed)
    | TOKEN_MULTIPLY => (A.mul left_val.1 right_val.1, printed)
    | TOKEN_DIVIDE =>
      if A.is_zero right_val.1 = true then (A.zero, printed ++ [Diag.division_by_zero])
      else (A.div left_val.1 right_val.1, printed)
    | TOKEN_POWER => (A.pow left_val.1 right_val.1, printed)
    | _ => (A.zero, printed ++ [Diag.unknown_binary_operator])
  | ASTNode_t.unary_op op operand =>
    let operand_val := ast_eval A operand
    match op with
    | TOKEN_MINUS => (A.neg operand_val.1, operand_val.2)
    | TOKEN_PLUS => (operand_val.1, operand_val.2)
    | _ => (A.zero, operand_val.2 ++ [Diag.unknown_unary_operator])

/-- What `main` does with the pointer returned by `parser_parse`: `if (ast)`
the tree is evaluated, else the parse has failed (`none`). -/
def eval_returned {F : Type} (A : Arith F) : ASTNode_t F → Option (F × List Diag)
  | ASTNode_t.null => none
  | ast => some (ast_eval A ast)

/-- The specification's `evaluate(parse(input))`, as `main` does it: the
input is parsed and, when an AST is returned, evaluated; `none` is "parse
failed". -/
def evaluate {F : Type} (A : Arith F) (input : List Char) : Res (Option (F × List Diag)) :=
  (parse A input).bind fun r => Res.ok (eval_returned A r.1)

/-- The AST pointer returned by `parse` and the text on `stderr` at that
moment. -/
def parse_tree {F : Type} (A : Arith F) (input : List Char) : Res (ASTNode_t F × List Diag) :=
  (parse A input).bind fun r => Res.ok (r.1, r.2.stderr)

/-! ## The token sequence of a string

A description of the lexer on lists, without offsets: what `lexer_next_token`
returns, call after call, when the lexer stands before the characters `s`.
It is proved below to agree with the lexer itself. -/

/-- The token type that the `switch` of `lexer_next_token` gives a
character. -/
def single_char_type (ch : Char) : TokenType :=
  if ch = '+' then TOKEN_PLUS
  else if ch = '-' then TOKEN_MINUS
  else if ch = '*' then TOKEN_MULTIPLY
  else if ch = '/' then TOKEN_DIVIDE
  else if ch = '^' then TOKEN_POWER
  else if ch = '(' then TOKEN_LPAREN
  else if ch = ')' then TOKEN_RPAREN
  else TOKEN_ERROR

/-- The longest run at the head of a string in which every character is a
digit or the first '.', `dec` telling that a '.' was seen before. -/
def num_run : Bool → List Char → List Char
  | _, [] => []
  | dec, c :: cs =>
    if is_digit c = true then c :: num_run dec cs
    else if c = '.' ∧ dec = false then c :: num_run true cs
    else []

/-- The string starts with a digit, or with a '.' and a digit after it. -/
def starts_number : List Char → Bool
  | [] => false
  | c :: cs => is_digit c || (decide (c = '.') && is_digit (cs.headD NUL))

/-- The tokens of a string after its first `k` characters, which belong to a
number already produced. -/
def tokens_skip : Nat → List Char → List Token_t
  | _, [] => []
  | k + 1, _ :: cs => tokens_skip k cs
  | 0, c :: cs =>
    if is_whitespace c = true then tokens_skip 0 cs
    else if starts_number (c :: cs) = true then
      ⟨TOKEN_NUMBER, some (num_run false (c :: cs))⟩
        :: tokens_skip ((num_run false (c :: cs)).length - 1) cs
    else ⟨single_char_type c, some [c]⟩ :: tokens_skip 0 cs

/-- The tokens of a string, `TOKEN_EOF` left out. -/
def tokens (s : List Char) : List Token_t := tokens_skip 0 s

/-- The lexer stands in the input `pre ++ suf` just after `pre`: the state
invariant of `Lexer_t`, for an input without NUL. -/
structure LexAt (lexer : Lexer_t) (pre suf : List Char) : Prop where
  input_eq : lexer.input = pre ++ suf
  pos_eq : lexer.pos = pre.length
  length_eq : lexer.length = pre.length + suf.length
  curr_eq : lexer.curr_char = suf.headD NUL
  no_nul : ∀ c ∈ pre ++ suf, c ≠ NUL

/-- Successive calls of `lexer_next_token` from this state return the tokens
`ts` and then `TOKEN_EOF`. -/
inductive LexStream : Lexer_t → List Token_t → Prop where
  | done (lexer lexer1 : Lexer_t) (printed : List Diag) :
      lexer_next_token lexer = some (⟨TOKEN_EOF, none⟩, lexer1, printed) →
      LexStream lexer []
  | next (lexer lexer1 : Lexer_t) (printed : List Diag) (t : Token_t) (ts : List Token_t) :
      lexer_next_token lexer = some (t, lexer1, printed) →
      t.type ≠ TOKEN_EOF → LexStream lexer1 ts →
      LexStream lexer (t :: ts)

/-! ## The parser on a token sequence

The routines of the parser read the input only through the current token and
`lexer_next_token`. The functions below are the same routines on the list of
the tokens ahead (`[]` stands for the current token `TOKEN_EOF`); they print
nothing. They are proved below to return what the parser returns. -/

/-- The type of the current token of a token sequence. -/
def tok_type : List Token_t → TokenType
  | [] => TOKEN_EOF
  | t :: _ => t.type

/-- The text of the current token of a token sequence. -/
def tok_value : List Token_t → Option (List Char)
  | [] => none
  | t :: _ => t.value

/-- The parser's current token and the tokens its lexer will return are `ts`,
followed by `TOKEN_EOF`. -/
inductive PStream : Parser_t → List Token_t → Prop where
  | eof (parser : Parser_t) : parser.curr_token = ⟨TOKEN_EOF, none⟩ → PStream parser []
  | cons (parser : Parser_t) (ts : List Token_t) :
      parser.curr_token.type ≠ TOKEN_EOF → LexStream parser.lexer ts →
      PStream parser (parser.curr_token :: ts)

/-- Two outcomes agree: both return, with related values, or both end the
process, or both are out of fuel. -/
def Res.Rel {α β : Type} (R : α → β → Prop) : Res α → Res β → Prop
  | Res.ok a, Res.ok b => R a b
  | Res.exit _, Res.exit _ => True
  | Res.out_of_fuel, Res.out_of_fuel => True
  | _, _ => False

/-- A result of a parser routine and a result on token sequences agree: the
same AST, and the parser stands before the tokens left. -/
def SameResult {F : Type} (a : ASTNode_t F × Parser_t) (b : ASTNode_t F × List Token_t) : Prop :=
  a.1 = b.1 ∧ PStream a.2 b.2

/-- `eat` on a token sequence. -/
def tk_eat (ts : List Token_t) (expected : TokenType) : Res (List Token_t) :=
  if tok_type ts = expected then Res.ok ts.tail else Res.exit []

mutual

/-- `parse_primary` on a token sequence. -/
def tk_primary {F : Type} (A : Arith F) : Nat → List Token_t → Res (ASTNode_t F × List Token_t)
  | 0, _ => Res.out_of_fuel
  | fuel + 1, ts =>
    if tok_type ts = TOKEN_NUMBER then
      (tk_eat ts TOKEN_NUMBER).bind fun ts1 =>
        Res.ok (create_number_node (A.atof ((tok_value ts).getD [])), ts1)
    else if tok_type ts = TOKEN_LPAREN then
      (tk_eat ts TOKEN_LPAREN).bind fun ts1 =>
        (tk_expression A fuel ts1).bind fun r =>
          (tk_eat r.2 TOKEN_RPAREN).bind fun ts3 => Res.ok (r.1, ts3)
    else Res.ok (ASTNode_t.null, ts)

/-- `parser_power` on a token sequence. -/
def tk_power {F : Type} (A : Arith F) : Nat → List Token_t → Res (ASTNode_t F × List Token_t)
  | 0, _ => Res.out_of_fuel
  | fuel + 1, ts =>
    (tk_primary A fuel ts).bind fun l =>
      if tok_type l.2 = TOKEN_POWER then
        (tk_eat l.2 TOKEN_POWER).bind fun ts2 =>
          (tk_power A fuel ts2).bind fun r =>
            Res.ok (create_binary_node (tok_type l.2) l.1 r.1, r.2)
      else Res.ok l

/-- `parser_factor` on a token sequence. -/
def tk_factor {F : Type} (A : Arith F) : Nat → List Token_t → Res (ASTNode_t F × List Token_t)
  | 0, _ => Res.out_of_fuel
  | fuel + 1, ts =>
    if tok_type ts = TOKEN_MINUS then
      (tk_eat ts TOKEN_MINUS).bind fun ts1 =>
        (tk_factor A fuel ts1).bind fun r =>
          Res.ok (create_unary_node TOKEN_MINUS r.1, r.2)
    else if tok_type ts = TOKEN_PLUS then
      (tk_eat ts TOKEN_PLUS).bind fun ts1 =>
        (tk_factor A fuel ts1).bind fun r =>
          Res.ok (create_unary_node TOKEN_PLUS r.1, r.2)
    else tk_power A fuel ts

/-- The loop of `parse_term` on a token sequence. -/
def tk_term_loop {F : Type} (A : Arith F) :
    Nat → ASTNode_t F → List Token_t → Res (ASTNode_t F × List Token_t)
  | 0, _, _ => Res.out_of_fuel
  | fuel + 1, left, ts =>
    if tok_type ts = TOKEN_MULTIPLY ∨ tok_type ts = TOKEN_DIVIDE then
      (tk_eat ts (tok_type ts)).bind fun ts1 =>
        (tk_factor A fuel ts1).bind fun r =>
          tk_term_loop A fuel (create_binary_node (tok_type ts) left r.1) r.2
    else Res.ok (left, ts)

/-- `parse_term` on a token sequence. -/
def tk_term {F : Type} (A : Arith F) : Nat → List Token_t → Res (ASTNode_t F × List Token_t)
  | 0, _ => Res.out_of_fuel
  | fuel + 1, ts =>
    (tk_factor A fuel ts).bind fun l => tk_term_loop A fuel l.1 l.2

/-- The loop of `parse_expression` on a token sequence. -/
def tk_expression_loop {F : Type} (A : Arith F) :
    Nat → ASTNode_t F → List Token_t → Res (ASTNode_t F × List Token_t)
  | 0, _, _ => Res.out_of_fuel
  | fuel + 1, left, ts =>
    if tok_type ts = TOKEN_PLUS ∨ tok_type ts = TOKEN_MINUS then
      (tk_eat ts (tok_type ts)).bind fun ts1 =>
        (tk_term A fuel ts1).bind fun r =>
          tk_expression_loop A fuel (create_binary_node (tok_type ts) left r.1) r.2
    else Res.ok (left, ts)

/-- `parse_expression` on a token sequence. -/
def tk_expression {F : Type} (A : Arith F) : Nat → List Token_t → Res (ASTNode_t F × List Token_t)
  | 0, _ => Res.out_of_fuel
  | fuel + 1, ts =>
    (tk_term A fuel ts).bind fun l => tk_expression_loop A fuel l.1 l.2

end

/-- `parser_parse` on a token sequence. -/
def tk_parse {F : Type} (A : Arith F) (fuel : Nat) (ts : List Token_t) :
    Res (ASTNode_t F × List Token_t) :=
  (tk_expression A fuel ts).bind fun r =>
    if tok_type r.2 ≠ TOKEN_EOF then Res.ok (ASTNode_t.null, r.2) else Res.ok r

/-- The outcome `r` is out of fuel or is the outcome `r'`: with more fuel a
routine can only go from the first to the second. -/
def Res.le {α : Type} (r r' : Res α) : Prop := r = Res.out_of_fuel ∨ r = r'

/-- The outcome is not out of fuel and, when it is a result, leaves at most
`m` tokens. -/
def Res.Within {F : Type} (m : Nat) : Res (ASTNode_t F × List Token_t) → Prop
  | Res.ok a => a.2.length ≤ m
  | Res.exit _ => True
  | Res.out_of_fuel => False

/-- With enough fuel the routine `f` returns `a`. -/
def Yields {α : Type} (f : Nat → Res α) (a : α) : Prop := ∃ n, f n = Res.ok a

/-- Whenever the first outcome is a result, the second is the same result
with the tokens `sfx` after the tokens left. -/
def ExtRel {F : Type} (sfx : List Token_t) (x y : Res (ASTNode_t F × List Token_t)) : Prop :=
  ∀ a, x = Res.ok a → y = Res.ok (a.1, a.2 ++ sfx)

/-- Some token of the sequence is an `Invalid` token (`TOKEN_ERROR`). -/
def HasError (ts : List Token_t) : Prop := ∃ x ∈ ts, x.type = TOKEN_ERROR

/-- Whenever the outcome is a result, an `Invalid` token is among the tokens
left. -/
def KeepsError {F : Type} (r : Res (ASTNode_t F × List Token_t)) : Prop :=
  ∀ a, r = Res.ok a → HasError a.2

/-! ## Inputs and trees named in the statements -/

/-- The character may stand in a number: a digit or '.'. -/
def is_num_char (c : Char) : Bool := is_digit c || c == '.'

/-- A number literal: digits and at most one '.', with at least one digit
("12", "1.5", ".5", "5."). -/
def is_number_literal (x : List Char) : Bool :=
  x.all is_num_char && decide (x.count '.' ≤ 1) && x.any is_digit

/-- The strings `a` and `b` do not meet inside a number: `a` does not end
with a digit or '.', or `b` does not begin with a digit or '.'. -/
def safe_boundary (a b : List Char) : Prop :=
  (∀ c ∈ a.getLast?, is_num_char c = false) ∨ (∀ c ∈ b.head?, is_num_char c = false)

/-- The AST pointer returned by `parse`. -/
def parse_ast {F : Type} (A : Arith F) (input : List Char) : Res (ASTNode_t F) :=
  (parse A input).bind fun r => Res.ok r.1

/-- The input "x0 ^ x1 ^ ... ^ xn". -/
def pow_chain_input (x0 : List Char) : List (List Char) → List Char
  | [] => x0
  | x1 :: xs => x0 ++ " ^ ".toList ++ pow_chain_input x1 xs

/-- The right-nested tree BinaryOp(^, x0, BinaryOp(^, x1, ... xn)). -/
def pow_chain_tree {F : Type} (A : Arith F) (x0 : List Char) : List (List Char) → ASTNode_t F
  | [] => ASTNode_t.number (A.atof x0)
  | x1 :: xs =>
    ASTNode_t.binary_op TOKEN_POWER (ASTNode_t.number (A.atof x0)) (pow_chain_tree A x1 xs)

/-- The value of a decimal digit. -/
def digit_value (c : Char) : Nat := c.toNat - '0'.toNat

/-- The number written by a string of decimal digits. -/
def decimal_value (s : List Char) : Nat := s.foldl (fun n c => 10 * n + digit_value c) 0

/-- The exact value of the decimal numeral at the head of a string: digits,
then possibly '.' and digits. -/
def atof_exact (s : List Char) : ℚ :=
  match s.dropWhile is_digit with
  | '.' :: fs =>
    (decimal_value (s.takeWhile is_digit) : ℚ)
      + (decimal_value (fs.takeWhile is_digit) : ℚ) / 10 ^ (fs.takeWhile is_digit).length
  | _ => (decimal_value (s.takeWhile is_digit) : ℚ)

/-- Modelled from the spec: the C library (`atof`, `pow`) and the arithmetic
of `double` are not part of the repository. This instance computes with exact
rationals: `atof` gives the value of the decimal numeral, `+ - * /` are exact,
`pow` is the power for a whole exponent (and `0` otherwise, where the exact
result need not be rational). It agrees with IEEE-754 `double` wherever all
the values met are whole numbers below `2^53`, as in the examples of the
specification. -/
def exact_arith : Arith ℚ where
  atof := atof_exact
  zero := 0
  add := fun x y => x + y
  sub := fun x y => x - y
  mul := fun x y => x * y
  div := fun x y => x / y
  pow := fun x y => if y.den = 1 then x ^ y.num else 0
  neg := fun x => -x
  is_zero := fun x => decide (x = 0)

/-- One of the binary operator characters `+ - * / ^`. -/
def is_operator_char (o : Char) : Bool :=
  o == '+' || o == '-' || o == '*' || o == '/' || o == '^'

/-- The input "x0 op1 x1 op2 ... opn xn", given x0 and the pairs (opi, xi). -/
def op_chain_input (x0 : List Char) : List (Char × List Char) → List Char
  | [] => x0
  | q :: qs => x0 ++ [' ', q.1, ' '] ++ op_chain_input q.2 qs

/-- The left-nested tree BinaryOp(opn, ... BinaryOp(op1, left, x1) ..., xn),
given the pairs (opi, xi). -/
def left_nested {F : Type} (A : Arith F) (left : ASTNode_t F) :
    List (Char × List Char) → ASTNode_t F
  | [] => left
  | q :: qs =>
    left_nested A
      (ASTNode_t.binary_op (single_char_type q.1) left (ASTNode_t.number (A.atof q.2))) qs

/-- The tokens of "x0 op1 x1 ... opn xn" after x0. -/
def op_chain_tokens (qs : List (Char × List Char)) : List Token_t :=
  qs.flatMap (fun q => [⟨single_char_type q.1, some [q.1]⟩, ⟨TOKEN_NUMBER, some q.2⟩])

/-- The tree UnaryOp(s1, UnaryOp(s2, ... UnaryOp(sn, t))) for the sign
characters s1 ... sn. -/
def sign_chain_tree {F : Type} (signs : List Char) (t : ASTNode_t F) : ASTNode_t F :=
  signs.foldr (fun s acc => ASTNode_t.unary_op (single_char_type s) acc) t

/-- What call number `n + 1` of `lexer_next_token` returns, counting from
the state `lexer`. -/
def lexer_nth_call : Nat → Lexer_t → Option (Token_t × Lexer_t × List Diag)
  | 0, lexer => lexer_next_token lexer
  | n + 1, lexer =>
    match lexer_next_token lexer with
    | none => none
    | some (_, lexer1, _) => lexer_nth_call n lexer1

/-- A run of a number: every character is a digit or the one '.' of the
run. -/
def is_number_run (x : List Char) : Bool :=
  x.all is_num_char && decide (x.count '.' ≤ 1)

/-- The invariant of the lexer state: the offset is within `[0, length]`, the
current character is NUL exactly at the end, and is `input[pos]` before it. -/
def lexer_invariant (lexer : Lexer_t) : Prop :=
  lexer.pos ≤ lexer.length
    ∧ (lexer.curr_char = NUL ↔ lexer.pos = lexer.length)
    ∧ (lexer.pos < lexer.length → lexer.curr_char = charAt lexer.input lexer.pos)

/-- Every `BinaryOp` node of the tree holds one of the five binary operators
and every `UnaryOp` node holds `+` or `-`. -/
def valid_operators {F : Type} : ASTNode_t F → Prop
  | ASTNode_t.null => True
  | ASTNode_t.number _ => True
  | ASTNode_t.binary_op op left right =>
    (op = TOKEN_PLUS ∨ op = TOKEN_MINUS ∨ op = TOKEN_MULTIPLY ∨ op = TOKEN_DIVIDE
        ∨ op = TOKEN_POWER)
      ∧ valid_operators left ∧ valid_operators right
  | ASTNode_t.unary_op op operand =>
    (op = TOKEN_PLUS ∨ op = TOKEN_MINUS) ∧ valid_operators operand

/-- The number of nodes of a tree; a `NULL` pointer is no node. -/
def ast_nodes {F : Type} : ASTNode_t F → Nat
  | ASTNode_t.null => 0
  | ASTNode_t.number _ => 1
  | ASTNode_t.binary_op _ left right => 1 + ast_nodes left + ast_nodes right
  | ASTNode_t.unary_op _ operand => 1 + ast_nodes operand

/-- The depth of a tree: the number of nodes on its longest branch. -/
def ast_depth {F : Type} : ASTNode_t F → Nat
  | ASTNode_t.null => 0
  | ASTNode_t.number _ => 1
  | ASTNode_t.binary_op _ left right => 1 + max (ast_depth left) (ast_depth right)
  | ASTNode_t.unary_op _ operand => 1 + ast_depth operand

/-- Whenever the outcome is a result, the result satisfies `Q`. -/
def Res.All {α : Type} (Q : α → Prop) (r : Res α) : Prop := ∀ a, r = Res.ok a → Q a

/-- One of the characters of the calculator's language: a digit, '.', a
whitespace character, one of `+ - * / ^`, or a parenthesis. -/
def is_calc_char (c : Char) : Bool :=
  is_digit c || c == '.' || is_whitespace c || is_operator_char c || c == '(' || c == ')'

/-- The values of the tokens of a sequence, concatenated in order. -/
def token_text (ts : List Token_t) : List Char := ts.flatMap fun t => t.value.getD []

/-- The string without its whitespace characters. -/
def strip_whitespace (s : List Char) : List Char := s.filter fun c => !is_whitespace c

/-- Whenever the outcome is the end of the process, the text on `stderr`
satisfies `Q`. -/
def Res.ExitAll {α : Type} (Q : List Diag → Prop) (r : Res α) : Prop :=
  ∀ e, r = Res.exit e → Q e

/-- The last line on `stderr` is the message of `eat` for an expected ')' and
another current token. -/
def rparen_mismatch (e : List Diag) : Prop :=
  ∃ pre ty, e = pre ++ [Diag.eat_mismatch TOKEN_RPAREN ty] ∧ ty ≠ TOKEN_RPAREN

/-- Somewhere in the token sequence a '(' and the expression after it are not
followed by ')': after the '(' the routine `parse_expression` (on token
sequences) returns with a current token that is not ')'. -/
def unclosed_paren {F : Type} (A : Arith F) (ts : List Token_t) : Prop :=
  ∃ (pre : List Token_t) (l : Token_t) (after : List Token_t) (t : ASTNode_t F)
    (rest : List Token_t) (n : Nat),
    ts = pre ++ l :: after ∧ l.type = TOKEN_LPAREN
      ∧ tk_expression A n after = Res.ok (t, rest) ∧ tok_type rest ≠ TOKEN_RPAREN

/-! ## Lemmas on the lexer -/

theorem is_digit_ne_NUL {c : Char} (h : is_digit c = true) : c ≠ NUL := by
  intro hc
  subst hc
  revert h
  decide

theorem is_whitespace_ne_NUL {c : Char} (h : is_whitespace c = true) : c ≠ NUL := by
  intro hc
  subst hc
  revert h
  decide

theorem strlen_of_no_nul {s : List Char} (h : ∀ c ∈ s, c ≠ NUL) : strlen s = s.length := by
  unfold strlen
  rw [List.takeWhile_eq_self_iff.mpr]
  intro x hx
  simpa using h x hx

theorem lexer_init_at {s : List Char} (h : ∀ c ∈ s, c ≠ NUL) : LexAt (lexer_init s) [] s := by
  refine ⟨rfl, rfl, ?_, ?_, by simpa using h⟩
  · simp [lexer_init, strlen_of_no_nul h]
  · cases s <;> simp [lexer_init, charAt]

theorem advance_at {lexer : Lexer_t} {pre cs : List Char} {c : Char}
    (h : LexAt lexer pre (c :: cs)) : LexAt (advance lexer) (pre ++ [c]) cs := by
  obtain ⟨hi, hp, hl, _, hn⟩ := h
  unfold advance
  split
  · rename_i hlt
    refine ⟨by simp [hi], by simp [hp], by simp [hl]; omega, ?_, by simpa using hn⟩
    simp only [charAt, hi, hp]
    rw [List.getD_append_right _ _ _ _ (by omega)]
    cases cs <;> simp
  · rename_i hlt
    have hcs : cs = [] := by
      cases cs with
      | nil => rfl
      | cons d ds => simp [hp, hl] at hlt
    subst hcs
    exact ⟨by simp [hi], by simp [hp], by simp [hl], by simp, by simpa using hn⟩

theorem skip_whitespace_loop_at (suf : List Char) :
    ∀ (pre : List Char) (lexer : Lexer_t) (fuel : Nat), LexAt lexer pre suf →
      suf.length + 1 ≤ fuel →
      LexAt (skip_whitespace_loop fuel lexer) (pre ++ suf.takeWhile is_whitespace)
        (suf.dropWhile is_whitespace) := by
  induction suf with
  | nil =>
    intro pre lexer fuel h hf
    obtain ⟨f, rfl⟩ : ∃ f, fuel = f + 1 := ⟨fuel - 1, by omega⟩
    have hc : lexer.curr_char = NUL := by simpa using h.curr_eq
    simpa [skip_whitespace_loop, hc] using h
  | cons c cs ih =>
    intro pre lexer fuel h hf
    obtain ⟨f, rfl⟩ : ∃ f, fuel = f + 1 := ⟨fuel - 1, by omega⟩
    have hc : lexer.curr_char = c := by simpa using h.curr_eq
    have hne : c ≠ NUL := h.no_nul c (by simp)
    by_cases hw : is_whitespace c = true
    · have := ih (pre ++ [c]) (advance lexer) f (advance_at h) (by simp at hf; omega)
      simpa [skip_whitespace_loop, hc, hne, hw] using this
    · simpa [skip_whitespace_loop, hc, hne, hw] using h

theorem skip_whitespace_at {lexer : Lexer_t} {pre suf : List Char} (h : LexAt lexer pre suf) :
    LexAt (skip_whitespace lexer) (pre ++ suf.takeWhile is_whitespace)
      (suf.dropWhile is_whitespace) := by
  apply skip_whitespace_loop_at suf pre lexer _ h
  rw [h.length_eq, h.pos_eq]
  omega

theorem num_run_append_drop (s : List Char) :
    ∀ dec : Bool, num_run dec s ++ s.drop (num_run dec s).length = s := by
  induction s with
  | nil => intro dec; simp [num_run]
  | cons c cs ih =>
    intro dec
    unfold num_run
    split
    · simpa using ih dec
    · split
      · simpa using ih true
      · simp

theorem num_run_take (dec : Bool) (s : List Char) :
    s.take (num_run dec s).length = num_run dec s := by
  have h := num_run_append_drop s dec
  calc s.take (num_run dec s).length
      = (num_run dec s ++ s.drop (num_run dec s).length).take (num_run dec s).length := by
        rw [h]
    _ = num_run dec s := by simp

theorem read_number_loop_at (suf : List Char) :
    ∀ (pre : List Char) (lexer : Lexer_t) (fuel length : Nat) (dec : Bool),
      LexAt lexer pre suf → suf.length + 1 ≤ fuel →
      ∃ lexer1, read_number_loop fuel lexer length dec
          = (lexer1, length + (num_run dec suf).length,
              dec || decide ('.' ∈ num_run dec suf))
        ∧ LexAt lexer1 (pre ++ num_run dec suf) (suf.drop (num_run dec suf).length) := by
  induction suf with
  | nil =>
    intro pre lexer fuel length dec h hf
    obtain ⟨f, rfl⟩ : ∃ f, fuel = f + 1 := ⟨fuel - 1, by omega⟩
    have hc : lexer.curr_char = NUL := by simpa using h.curr_eq
    have hd : ¬ (NUL = '.') := by decide
    refine ⟨lexer, ?_, by simpa [num_run] using h⟩
    simp [read_number_loop, hc, num_run, hd]
  | cons c cs ih =>
    intro pre lexer fuel length dec h hf
    obtain ⟨f, rfl⟩ : ∃ f, fuel = f + 1 := ⟨fuel - 1, by omega⟩
    have hc : lexer.curr_char = c := by simpa using h.curr_eq
    have hne : c ≠ NUL := h.no_nul c (by simp)
    have hf1 : cs.length + 1 ≤ f := by simp at hf; omega
    by_cases hdig : is_digit c = true
    · have hcd : c ≠ '.' := by
        intro hc
        subst hc
        revert hdig
        decide
      obtain ⟨l1, h1, h2⟩ := ih (pre ++ [c]) (advance lexer) f (length + 1) dec
        (advance_at h) hf1
      have hcond : (lexer.curr_char ≠ NUL ∧ is_digit lexer.curr_char = true)
          ∨ (lexer.curr_char = '.' ∧ dec = false) := Or.inl ⟨hc ▸ hne, hc ▸ hdig⟩
      refine ⟨l1, ?_, ?_⟩
      · rw [read_number_loop, if_pos hcond, hc, if_neg hcd, h1]
        simp [num_run, hdig, Ne.symm hcd]
        omega
      · simpa [num_run, hdig] using h2
    · by_cases hdot : c = '.' ∧ dec = false
      · obtain ⟨hdot1, hdec⟩ := hdot
        obtain ⟨l1, h1, h2⟩ := ih (pre ++ [c]) (advance lexer) f (length + 1) true
          (advance_at h) hf1
        have hcond : (lexer.curr_char ≠ NUL ∧ is_digit lexer.curr_char = true)
            ∨ (lexer.curr_char = '.' ∧ dec = false) := Or.inr ⟨hc ▸ hdot1, hdec⟩
        refine ⟨l1, ?_, ?_⟩
        · rw [read_number_loop, if_pos hcond, hc, if_pos hdot1, h1]
          have hdd : is_digit '.' = false := by decide
          simp [num_run, hdd, hdot1, hdec]
          omega
        · have hdd : is_digit '.' = false := by decide
          simpa [num_run, hdd, hdot1, hdec] using h2
      · have hcond : ¬ ((lexer.curr_char ≠ NUL ∧ is_digit lexer.curr_char = true)
            ∨ (lexer.curr_char = '.' ∧ dec = false)) := by
          rw [hc]
          rintro (⟨_, hd⟩ | hd)
          · exact hdig hd
          · exact hdot hd
        refine ⟨lexer, ?_, ?_⟩
        · rw [read_number_loop, if_neg hcond]
          simp [num_run, hdig, hdot]
        · simpa [num_run, hdig, hdot] using h

theorem num_run_of_starts_number {s : List Char} (h : starts_number s = true) :
    ¬ ((num_run false s).length = 1 ∧ '.' ∈ num_run false s) := by
  cases s with
  | nil => simp [starts_number] at h
  | cons c cs =>
    by_cases hdig : is_digit c = true
    · have hcd : c ≠ '.' := by
        intro hc
        subst hc
        revert hdig
        decide
      simp only [num_run, hdig, if_true, List.length_cons, List.mem_cons]
      intro ⟨h1, h2⟩
      have : num_run false cs = [] := by
        apply List.eq_nil_of_length_eq_zero
        omega
      rw [this] at h2
      simp at h2
      exact hcd h2.symm
    · simp only [starts_number, hdig, Bool.false_or, Bool.and_eq_true, decide_eq_true_eq] at h
      obtain ⟨hc, hd⟩ := h
      subst hc
      cases cs with
      | nil => revert hd; simp; decide
      | cons d ds =>
        simp only [List.headD_cons] at hd
        simp [num_run, hdig, hd]

theorem strncpy_of_no_nul {s : List Char} (n : Nat) (h : ∀ c ∈ s, c ≠ NUL) :
    strncpy s n = s.take n := by
  unfold strncpy
  rw [List.takeWhile_eq_self_iff]
  intro x hx
  simpa using h x (List.mem_of_mem_take hx)

theorem read_number_at {lexer : Lexer_t} {pre suf : List Char} (h : LexAt lexer pre suf)
    (hs : starts_number suf = true) :
    ∃ lexer1, read_number lexer = (lexer1, some (num_run false suf))
      ∧ LexAt lexer1 (pre ++ num_run false suf) (suf.drop (num_run false suf).length) := by
  obtain ⟨l1, h1, h2⟩ := read_number_loop_at suf pre lexer (lexer.length - lexer.pos + 2) 0 false h
    (by rw [h.length_eq, h.pos_eq]; omega)
  refine ⟨l1, ?_, h2⟩
  have hno := num_run_of_starts_number hs
  have hsuf : ∀ c ∈ suf, c ≠ NUL := fun c hc => h.no_nul c (by simp [hc])
  have hin : l1.input = pre ++ suf := by
    have := h2.input_eq
    rw [List.append_assoc, num_run_append_drop] at this
    exact this
  unfold read_number
  rw [h1]
  simp only [Nat.zero_add, Bool.false_or, decide_eq_true_eq]
  rw [if_neg hno, hin, h.pos_eq]
  simp [strncpy_of_no_nul _ hsuf, num_run_take]

theorem tokens_skip_eq_drop (s : List Char) :
    ∀ k : Nat, tokens_skip k s = tokens (s.drop k) := by
  induction s with
  | nil => intro k; simp [tokens, tokens_skip]
  | cons c cs ih =>
    intro k
    cases k with
    | zero => simp [tokens]
    | succ k => simpa [tokens_skip] using ih k

theorem tokens_nil : tokens [] = [] := rfl

theorem tokens_cons_whitespace {c : Char} (cs : List Char) (h : is_whitespace c = true) :
    tokens (c :: cs) = tokens cs := by
  simp [tokens, tokens_skip, h]

theorem starts_number_not_whitespace {c : Char} {cs : List Char}
    (h : starts_number (c :: cs) = true) : is_whitespace c = false := by
  by_cases hdig : is_digit c = true
  · cases hw : is_whitespace c with
    | false => rfl
    | true =>
      exfalso
      have h1 : ∀ x : Char, x = ' ' ∨ x = Char.ofNat 9 ∨ x = Char.ofNat 10 ∨ x = Char.ofNat 13
          ∨ x = Char.ofNat 11 ∨ x = Char.ofNat 12 → is_digit x = false := by
        intro x hx
        rcases hx with rfl | rfl | rfl | rfl | rfl | rfl <;> decide
      have h2 := h1 c (by simpa [is_whitespace, or_assoc] using hw)
      rw [hdig] at h2
      exact Bool.noConfusion h2
  · simp only [starts_number, hdig, Bool.false_or, Bool.and_eq_true, decide_eq_true_eq] at h
    rw [h.1]
    decide

theorem tokens_number {s : List Char} (h : starts_number s = true) :
    tokens s = ⟨TOKEN_NUMBER, some (num_run false s)⟩
      :: tokens (s.drop (num_run false s).length) := by
  cases s with
  | nil => simp [starts_number] at h
  | cons c cs =>
    have hw := starts_number_not_whitespace h
    have hpos : 0 < (num_run false (c :: cs)).length := by
      by_cases hdig : is_digit c = true
      · simp [num_run, hdig]
      · simp only [starts_number, hdig, Bool.false_or, Bool.and_eq_true,
          decide_eq_true_eq] at h
        have hdd : is_digit '.' = false := by decide
        simp [num_run, hdd, h.1]
    have hd : (c :: cs).drop (num_run false (c :: cs)).length
        = cs.drop ((num_run false (c :: cs)).length - 1) := by
      obtain ⟨k, hk⟩ : ∃ k, (num_run false (c :: cs)).length = k + 1 :=
        ⟨(num_run false (c :: cs)).length - 1, by omega⟩
      rw [hk]
      simp
    rw [hd, ← tokens_skip_eq_drop]
    simp [tokens, tokens_skip, hw, h]

theorem tokens_single {c : Char} (cs : List Char) (hw : is_whitespace c = false)
    (hn : starts_number (c :: cs) = false) :
    tokens (c :: cs) = ⟨single_char_type c, some [c]⟩ :: tokens cs := by
  simp [tokens, tokens_skip, hw, hn]

theorem tokens_dropWhile_whitespace (s : List Char) :
    tokens (s.dropWhile is_whitespace) = tokens s := by
  induction s with
  | nil => rfl
  | cons c cs ih =>
    by_cases hw : is_whitespace c = true
    · rw [List.dropWhile_cons_of_pos hw, ih, tokens_cons_whitespace cs hw]
    · rw [List.dropWhile_cons_of_neg hw]

theorem lexer_single_char_eq (lexer : Lexer_t) :
    lexer_single_char lexer
      = (⟨single_char_type lexer.curr_char, some [lexer.curr_char]⟩, advance lexer,
          if single_char_type lexer.curr_char = TOKEN_ERROR then
            [lexer_error (advance lexer) LexMsg.unknown_character] else []) := by
  unfold lexer_single_char single_char_type create_single_char_token create_token
  simp only []
  split_ifs <;> first | rfl | (exfalso; simp_all)

theorem single_char_type_ne_EOF (c : Char) : single_char_type c ≠ TOKEN_EOF := by
  unfold single_char_type
  split_ifs <;> simp

theorem charAt_next {lexer : Lexer_t} {pre cs : List Char} {c : Char}
    (h : LexAt lexer pre (c :: cs)) : charAt lexer.input (lexer.pos + 1) = cs.headD NUL := by
  simp only [charAt, h.input_eq, h.pos_eq]
  rw [List.getD_append_right _ _ _ _ (by omega)]
  cases cs <;> simp

/-- One pass of the loop of `lexer_next_token` from a state whose current
character is not whitespace. -/
theorem lexer_next_token_loop_at {lexer : Lexer_t} {pre suf : List Char}
    (h : LexAt lexer pre suf)
    (hw : ∀ c cs, suf = c :: cs → is_whitespace c = false) (n : Nat) :
    (tokens suf = [] ∧ suf = []
        ∧ lexer_next_token_loop (n + 1) lexer = some (⟨TOKEN_EOF, none⟩, lexer, []))
    ∨ (∃ t ts lexer1 d pre1 suf1, tokens suf = t :: ts
        ∧ lexer_next_token_loop (n + 1) lexer = some (t, lexer1, d)
        ∧ LexAt lexer1 pre1 suf1 ∧ tokens suf1 = ts ∧ t.type ≠ TOKEN_EOF
        ∧ suf1.length < suf.length ∧ pre1 ++ suf1 = pre ++ suf) := by
  cases suf with
  | nil =>
    left
    have hc : lexer.curr_char = NUL := by simpa using h.curr_eq
    exact ⟨rfl, rfl, by simp [lexer_next_token_loop, hc, create_token]⟩
  | cons c cs =>
    right
    have hc : lexer.curr_char = c := by simpa using h.curr_eq
    have hne : c ≠ NUL := h.no_nul c (by simp)
    have hws : is_whitespace c = false := hw c cs rfl
    by_cases hs : starts_number (c :: cs) = true
    · obtain ⟨l1, hr, hl1⟩ := read_number_at h hs
      have hpos : 0 < (num_run false (c :: cs)).length := by
        by_cases hdig : is_digit c = true
        · simp [num_run, hdig]
        · simp only [starts_number, hdig, Bool.false_or, Bool.and_eq_true,
            decide_eq_true_eq] at hs
          have hdd : is_digit '.' = false := by decide
          simp [num_run, hdd, hs.1]
      refine ⟨_, _, l1, [], _, _, tokens_number hs, ?_, hl1, rfl, by simp, ?_, ?_⟩
      · by_cases hdig : is_digit c = true
        · simp [lexer_next_token_loop, hc, hne, hws, hdig, hr, create_token]
        · simp only [starts_number, hdig, Bool.false_or, Bool.and_eq_true,
            decide_eq_true_eq] at hs
          have hcs : cs ≠ [] := by
            intro hcs
            rw [hcs] at hs
            have := hs.2
            revert this
            simp
            decide
          have hlt : lexer.pos + 1 < lexer.length := by
            rw [h.pos_eq, h.length_eq]
            cases cs with
            | nil => exact absurd rfl hcs
            | cons d ds => simp
          have hnext := charAt_next h
          have hcond : lexer.curr_char = '.' ∧ lexer.pos + 1 < lexer.length
              ∧ is_digit (charAt lexer.input (lexer.pos + 1)) = true :=
            ⟨hc.trans hs.1, hlt, by rw [hnext]; exact hs.2⟩
          have hcn : lexer.curr_char ≠ NUL := hc ▸ hne
          rw [lexer_next_token_loop, if_pos hcn, hc, if_neg (by simp [hws]),
            if_neg (by simp [hdig]), ← hc, if_pos hcond, hr]
          simp [create_token, hc]
      · simp only [List.length_drop, List.length_cons]
        omega
      · rw [List.append_assoc, num_run_append_drop]
    · have hs1 : starts_number (c :: cs) = false := by simpa using hs
      have hdig : is_digit c = false := by
        cases hd : is_digit c with
        | false => rfl
        | true => simp [starts_number, hd] at hs1
      have hdot : ¬ (lexer.curr_char = '.' ∧ lexer.pos + 1 < lexer.length
          ∧ is_digit (charAt lexer.input (lexer.pos + 1)) = true) := by
        rintro ⟨h1, _, h3⟩
        rw [charAt_next h] at h3
        rw [hc] at h1
        simp only [starts_number, hdig, Bool.false_or, Bool.and_eq_false_iff,
          decide_eq_false_iff_not] at hs1
        rcases hs1 with hs1 | hs1
        · exact hs1 h1
        · rw [h3] at hs1
          exact Bool.noConfusion hs1
      refine ⟨_, _, advance lexer,
        (if single_char_type c = TOKEN_ERROR then
          [lexer_error (advance lexer) LexMsg.unknown_character] else []),
        _, _, tokens_single cs hws hs1, ?_, advance_at h, rfl,
        single_char_type_ne_EOF c, by simp, by simp⟩
      have hcn : lexer.curr_char ≠ NUL := hc ▸ hne
      rw [lexer_next_token_loop, if_pos hcn, if_neg (by simp [hc, hws]),
        if_neg (by simp [hc, hdig]), if_neg hdot, lexer_single_char_eq, hc]

/-- What `lexer_next_token` returns from a state of the invariant, in terms of
the token sequence of the characters ahead. -/
theorem lexer_next_token_at {lexer : Lexer_t} {pre suf : List Char} (h : LexAt lexer pre suf) :
    (tokens suf = [] ∧ ∃ lexer1, lexer_next_token lexer = some (⟨TOKEN_EOF, none⟩, lexer1, [])
        ∧ LexAt lexer1 (pre ++ suf) [])
    ∨ (∃ t ts lexer1 d pre1 suf1, tokens suf = t :: ts
        ∧ lexer_next_token lexer = some (t, lexer1, d)
        ∧ LexAt lexer1 pre1 suf1 ∧ tokens suf1 = ts ∧ t.type ≠ TOKEN_EOF
        ∧ suf1.length < suf.length ∧ pre1 ++ suf1 = pre ++ suf) := by
  by_cases hw : ∀ c cs, suf = c :: cs → is_whitespace c = false
  · rcases lexer_next_token_loop_at h hw (lexer.length - lexer.pos + 1) with ⟨h1, h2, h3⟩ | h1
    · left
      subst h2
      exact ⟨h1, lexer, h3, by simpa using h⟩
    · right
      exact h1
  · push_neg at hw
    obtain ⟨c, cs, rfl, hc⟩ := hw
    have hc : is_whitespace c = true := by simpa using hc
    have hcc : lexer.curr_char = c := by simpa using h.curr_eq
    have hne : c ≠ NUL := h.no_nul c (by simp)
    have hsk := skip_whitespace_at h
    have hw2 : ∀ d ds, (c :: cs).dropWhile is_whitespace = d :: ds → is_whitespace d = false := by
      intro d ds hd
      have := List.head_dropWhile_not is_whitespace (c :: cs) (by simp [hd])
      simpa [hd] using this
    have hstep : lexer_next_token lexer
        = lexer_next_token_loop (lexer.length - lexer.pos + 1) (skip_whitespace lexer) := by
      simp [lexer_next_token, lexer_next_token_loop, hcc, hne, hc]
    have hlen : ((c :: cs).dropWhile is_whitespace).length ≤ cs.length := by
      rw [List.dropWhile_cons_of_pos hc]
      exact (List.dropWhile_sublist _).length_le
    have htk := tokens_dropWhile_whitespace (c :: cs)
    have happ : pre ++ (c :: cs).takeWhile is_whitespace ++ (c :: cs).dropWhile is_whitespace
        = pre ++ (c :: cs) := by
      rw [List.append_assoc, List.takeWhile_append_dropWhile]
    rcases lexer_next_token_loop_at hsk hw2 (lexer.length - lexer.pos) with ⟨h1, h2, h3⟩ | h1
    · left
      rw [htk] at h1
      refine ⟨h1, skip_whitespace lexer, by rw [hstep]; exact h3, ?_⟩
      rw [h2] at hsk happ
      rw [← happ]
      simpa using hsk
    · right
      obtain ⟨t, ts, l1, d, pre1, suf1, e1, e2, e3, e4, e5, e6, e7⟩ := h1
      rw [htk] at e1
      refine ⟨t, ts, l1, d, pre1, suf1, e1, by rw [hstep]; exact e2, e3, e4, e5, ?_, ?_⟩
      · simp only [List.length_cons]
        omega
      · rw [e7, happ]

theorem lexStream_at (n : Nat) :
    ∀ (lexer : Lexer_t) (pre suf : List Char), suf.length ≤ n → LexAt lexer pre suf →
      LexStream lexer (tokens suf) := by
  induction n with
  | zero =>
    intro lexer pre suf hn h
    rcases lexer_next_token_at h with ⟨h1, l1, h2, _⟩ | ⟨t, ts, l1, d, pre1, suf1, _, _, _, _, _, e6, _⟩
    · rw [h1]
      exact LexStream.done lexer l1 [] h2
    · omega
  | succ n ih =>
    intro lexer pre suf hn h
    rcases lexer_next_token_at h with ⟨h1, l1, h2, _⟩ | ⟨t, ts, l1, d, pre1, suf1, e1, e2, e3, e4, e5, e6, _⟩
    · rw [h1]
      exact LexStream.done lexer l1 [] h2
    · rw [e1, ← e4]
      exact LexStream.next lexer l1 d t _ e2 e5 (ih l1 pre1 suf1 (by omega) e3)

/-! ## The parser and the parser on token sequences -/

theorem res_rel_bind {α β α' β' : Type} {R : α → β → Prop} {S : α' → β' → Prop}
    {r : Res α} {r' : Res β} {f : α → Res α'} {g : β → Res β'}
    (h : Res.Rel R r r') (hf : ∀ a b, R a b → Res.Rel S (f a) (g b)) :
    Res.Rel S (r.bind f) (r'.bind g) := by
  cases r <;> cases r' <;> simp_all [Res.Rel, Res.bind]

theorem pstream_tok_type {parser : Parser_t} {ts : List Token_t} (h : PStream parser ts) :
    parser.curr_token.type = tok_type ts := by
  cases h with
  | eof h => simp [h, tok_type]
  | cons _ _ _ => rfl

theorem pstream_tok_value {parser : Parser_t} {ts : List Token_t} (h : PStream parser ts) :
    parser.curr_token.value = tok_value ts := by
  cases h with
  | eof h => simp [h, tok_value]
  | cons _ _ _ => rfl

theorem pstream_parser_error {parser : Parser_t} {ts : List Token_t} (h : PStream parser ts)
    (msg : ParseMsg) : PStream (parser_error parser msg) ts := by
  cases h with
  | eof h => exact PStream.eof _ h
  | cons _ h1 h2 => exact PStream.cons (parser_error parser msg) _ h1 h2

theorem lexStream_nil_inv {lexer : Lexer_t} (h : LexStream lexer []) :
    ∃ lexer1 printed, lexer_next_token lexer = some (⟨TOKEN_EOF, none⟩, lexer1, printed) := by
  cases h
  rename_i l1 d hl
  exact ⟨l1, d, hl⟩

theorem lexStream_cons_inv {lexer : Lexer_t} {t : Token_t} {ts : List Token_t}
    (h : LexStream lexer (t :: ts)) :
    ∃ lexer1 printed, lexer_next_token lexer = some (t, lexer1, printed)
      ∧ t.type ≠ TOKEN_EOF ∧ LexStream lexer1 ts := by
  cases h
  rename_i l1 d ht hl hs
  exact ⟨l1, d, hl, ht, hs⟩

theorem eat_refines {parser : Parser_t} {ts : List Token_t} (h : PStream parser ts)
    (expected : TokenType) (he : expected ≠ TOKEN_EOF) :
    Res.Rel PStream (eat parser expected) (tk_eat ts expected) := by
  cases h with
  | eof h =>
    have : ¬ (TOKEN_EOF = expected) := fun e => he e.symm
    simp [eat, tk_eat, h, tok_type, this, Res.Rel]
  | cons ts' h1 h2 =>
    by_cases hty : parser.curr_token.type = expected
    · cases ts' with
      | nil =>
        obtain ⟨l1, d, hl⟩ := lexStream_nil_inv h2
        simp only [eat, tk_eat, tok_type, hty, if_true, hl, Res.Rel, List.tail_cons]
        exact PStream.eof _ rfl
      | cons t ts'' =>
        obtain ⟨l1, d, hl, ht, hs⟩ := lexStream_cons_inv h2
        simp only [eat, tk_eat, tok_type, hty, if_true, hl, Res.Rel, List.tail_cons]
        exact PStream.cons ⟨l1, t, _⟩ ts'' ht hs
    · simp [eat, tk_eat, tok_type, hty, Res.Rel]

/-- Every routine of the parser returns what the routine on token sequences
returns. -/
theorem parser_refines {F : Type} (A : Arith F) : ∀ fuel : Nat,
    (∀ P ts, PStream P ts →
      Res.Rel SameResult (parse_primary A fuel P) (tk_primary A fuel ts))
    ∧ (∀ P ts, PStream P ts →
      Res.Rel SameResult (parser_power A fuel P) (tk_power A fuel ts))
    ∧ (∀ P ts, PStream P ts →
      Res.Rel SameResult (parser_factor A fuel P) (tk_factor A fuel ts))
    ∧ (∀ left P ts, PStream P ts →
      Res.Rel SameResult (parse_term_loop A fuel left P) (tk_term_loop A fuel left ts))
    ∧ (∀ P ts, PStream P ts →
      Res.Rel SameResult (parse_term A fuel P) (tk_term A fuel ts))
    ∧ (∀ left P ts, PStream P ts →
      Res.Rel SameResult (parse_expression_loop A fuel left P)
        (tk_expression_loop A fuel left ts))
    ∧ (∀ P ts, PStream P ts →
      Res.Rel SameResult (parse_expression A fuel P) (tk_expression A fuel ts)) := by
  intro fuel
  induction fuel with
  | zero =>
    refine ⟨?_, ?_, ?_, ?_, ?_, ?_, ?_⟩ <;> intros <;>
      simp [parse_primary, parser_power, parser_factor, parse_term_loop, parse_term,
        parse_expression_loop, parse_expression, tk_primary, tk_power, tk_factor,
        tk_term_loop, tk_term, tk_expression_loop, tk_expression, Res.Rel]
  | succ n ih =>
    obtain ⟨ihprim, ihpow, ihfac, ihtl, ihterm, ihel, ihexpr⟩ := ih
    refine ⟨?_, ?_, ?_, ?_, ?_, ?_, ?_⟩
    · intro P ts h
      rw [parse_primary, tk_primary, pstream_tok_type h, pstream_tok_value h]
      split_ifs with h1 h2
      · exact res_rel_bind (eat_refines h _ (by decide)) (fun a b hab => ⟨rfl, hab⟩)
      · refine res_rel_bind (eat_refines h _ (by decide)) (fun a b hab => ?_)
        refine res_rel_bind (ihexpr a b hab) (fun r r' hr => ?_)
        refine res_rel_bind (eat_refines hr.2 _ (by decide)) (fun c d hcd => ?_)
        exact ⟨hr.1, hcd⟩
      · exact ⟨rfl, pstream_parser_error h _⟩
    · intro P ts h
      rw [parser_power, tk_power]
      refine res_rel_bind (ihprim P ts h) (fun l l' hl => ?_)
      rw [pstream_tok_type hl.2]
      split_ifs
      · refine res_rel_bind (eat_refines hl.2 _ (by decide)) (fun a b hab => ?_)
        refine res_rel_bind (ihpow a b hab) (fun r r' hr => ?_)
        exact ⟨by rw [hl.1, hr.1], hr.2⟩
      · exact hl
    · intro P ts h
      rw [parser_factor, tk_factor, pstream_tok_type h]
      split_ifs
      · refine res_rel_bind (eat_refines h _ (by decide)) (fun a b hab => ?_)
        refine res_rel_bind (ihfac a b hab) (fun r r' hr => ?_)
        exact ⟨by rw [hr.1], hr.2⟩
      · refine res_rel_bind (eat_refines h _ (by decide)) (fun a b hab => ?_)
        refine res_rel_bind (ihfac a b hab) (fun r r' hr => ?_)
        exact ⟨by rw [hr.1], hr.2⟩
      · exact ihpow P ts h
    · intro left P ts h
      rw [parse_term_loop, tk_term_loop, pstream_tok_type h]
      split_ifs with h1
      · have hne : tok_type ts ≠ TOKEN_EOF := by
          rcases h1 with h1 | h1 <;> rw [h1] <;> decide
        refine res_rel_bind (eat_refines h _ hne) (fun a b hab => ?_)
        refine res_rel_bind (ihfac a b hab) (fun r r' hr => ?_)
        rw [hr.1]
        exact ihtl _ _ _ hr.2
      · exact ⟨rfl, h⟩
    · intro P ts h
      rw [parse_term, tk_term]
      refine res_rel_bind (ihfac P ts h) (fun l l' hl => ?_)
      rw [hl.1]
      exact ihtl _ _ _ hl.2
    · intro left P ts h
      rw [parse_expression_loop, tk_expression_loop, pstream_tok_type h]
      split_ifs with h1
      · have hne : tok_type ts ≠ TOKEN_EOF := by
          rcases h1 with h1 | h1 <;> rw [h1] <;> decide
        refine res_rel_bind (eat_refines h _ hne) (fun a b hab => ?_)
        refine res_rel_bind (ihterm a b hab) (fun r r' hr => ?_)
        rw [hr.1]
        exact ihel _ _ _ hr.2
      · exact ⟨rfl, h⟩
    · intro P ts h
      rw [parse_expression, tk_expression]
      refine res_rel_bind (ihterm P ts h) (fun l l' hl => ?_)
      rw [hl.1]
      exact ihel _ _ _ hl.2

/-! ## Fuel: more fuel changes no result, and the fuel of `parse` is enough -/

theorem res_le_refl {α : Type} (r : Res α) : Res.le r r := Or.inr rfl

theorem res_le_bind {α β : Type} {r r' : Res α} {f g : α → Res β}
    (h : Res.le r r') (hf : ∀ a, Res.le (f a) (g a)) : Res.le (r.bind f) (r'.bind g) := by
  rcases h with h | h
  · left
    rw [h]
    rfl
  · subst h
    cases r with
    | ok a => exact hf a
    | exit e => exact Or.inr rfl
    | out_of_fuel => exact Or.inl rfl

theorem tk_mono_step {F : Type} (A : Arith F) : ∀ fuel : Nat,
    (∀ ts, Res.le (tk_primary A fuel ts) (tk_primary A (fuel + 1) ts))
    ∧ (∀ ts, Res.le (tk_power A fuel ts) (tk_power A (fuel + 1) ts))
    ∧ (∀ ts, Res.le (tk_factor A fuel ts) (tk_factor A (fuel + 1) ts))
    ∧ (∀ left ts, Res.le (tk_term_loop A fuel left ts) (tk_term_loop A (fuel + 1) left ts))
    ∧ (∀ ts, Res.le (tk_term A fuel ts) (tk_term A (fuel + 1) ts))
    ∧ (∀ left ts,
        Res.le (tk_expression_loop A fuel left ts) (tk_expression_loop A (fuel + 1) left ts))
    ∧ (∀ ts, Res.le (tk_expression A fuel ts) (tk_expression A (fuel + 1) ts)) := by
  intro fuel
  induction fuel with
  | zero =>
    refine ⟨?_, ?_, ?_, ?_, ?_, ?_, ?_⟩ <;> intros <;> left <;>
      simp [tk_primary, tk_power, tk_factor, tk_term_loop, tk_term, tk_expression_loop,
        tk_expression]
  | succ n ih =>
    obtain ⟨ihprim, ihpow, ihfac, ihtl, ihterm, ihel, ihexpr⟩ := ih
    refine ⟨?_, ?_, ?_, ?_, ?_, ?_, ?_⟩
    · intro ts
      rw [tk_primary, tk_primary]
      split_ifs
      · exact res_le_refl _
      · refine res_le_bind (res_le_refl _) (fun a => ?_)
        exact res_le_bind (ihexpr a) (fun r => res_le_refl _)
      · exact res_le_refl _
    · intro ts
      rw [tk_power, tk_power]
      refine res_le_bind (ihprim ts) (fun l => ?_)
      split_ifs
      · refine res_le_bind (res_le_refl _) (fun a => ?_)
        exact res_le_bind (ihpow a) (fun r => res_le_refl _)
      · exact res_le_refl _
    · intro ts
      rw [tk_factor, tk_factor]
      split_ifs
      · refine res_le_bind (res_le_refl _) (fun a => ?_)
        exact res_le_bind (ihfac a) (fun r => res_le_refl _)
      · refine res_le_bind (res_le_refl _) (fun a => ?_)
        exact res_le_bind (ihfac a) (fun r => res_le_refl _)
      · exact ihpow ts
    · intro left ts
      rw [tk_term_loop, tk_term_loop]
      split_ifs
      · refine res_le_bind (res_le_refl _) (fun a => ?_)
        exact res_le_bind (ihfac a) (fun r => ihtl _ _)
      · exact res_le_refl _
    · intro ts
      rw [tk_term, tk_term]
      exact res_le_bind (ihfac ts) (fun l => ihtl _ _)
    · intro left ts
      rw [tk_expression_loop, tk_expression_loop]
      split_ifs
      · refine res_le_bind (res_le_refl _) (fun a => ?_)
        exact res_le_bind (ihterm a) (fun r => ihel _ _)
      · exact res_le_refl _
    · intro ts
      rw [tk_expression, tk_expression]
      exact res_le_bind (ihterm ts) (fun l => ihel _ _)

theorem res_le_of_step {α : Type} (f : Nat → Res α) (h : ∀ n, Res.le (f n) (f (n + 1)))
    {n m : Nat} (hnm : n ≤ m) : Res.le (f n) (f m) := by
  induction hnm with
  | refl => exact res_le_refl _
  | step _ ih =>
    rcases ih with ih | ih
    · exact Or.inl ih
    · rw [ih]
      exact h _

theorem res_within_bind {F : Type} {m m' : Nat} {r : Res (ASTNode_t F × List Token_t)}
    {g : ASTNode_t F × List Token_t → Res (ASTNode_t F × List Token_t)}
    (h : Res.Within m r) (hg : ∀ a, a.2.length ≤ m → Res.Within m' (g a)) :
    Res.Within m' (r.bind g) := by
  cases r with
  | ok a => exact hg a h
  | exit e => exact trivial
  | out_of_fuel => exact h.elim

theorem tk_eat_within {F : Type} (ts : List Token_t) (e : TokenType) (he : e ≠ TOKEN_EOF)
    (m : Nat) (g : List Token_t → Res (ASTNode_t F × List Token_t))
    (h : ∀ ts1, ts1.length + 1 = ts.length → Res.Within m (g ts1)) :
    Res.Within m ((tk_eat ts e).bind g) := by
  unfold tk_eat
  split_ifs with h1
  · cases ts with
    | nil => exact absurd h1.symm he
    | cons t ts1 => exact h ts1 rfl
  · exact trivial

theorem res_within_mono {F : Type} {m m' : Nat} {r : Res (ASTNode_t F × List Token_t)}
    (h : Res.Within m r) (hm : m ≤ m') : Res.Within m' r := by
  cases r with
  | ok a => exact Nat.le_trans h hm
  | exit e => exact trivial
  | out_of_fuel => exact h.elim

/-- With five units of fuel for each token ahead, and as many more as there
are levels below it, no routine runs out of fuel; and no routine returns with
more tokens ahead than it was called with. -/
theorem tk_within {F : Type} (A : Arith F) : ∀ fuel : Nat,
    (∀ ts, 5 * ts.length + 1 ≤ fuel → Res.Within ts.length (tk_primary A fuel ts))
    ∧ (∀ ts, 5 * ts.length + 2 ≤ fuel → Res.Within ts.length (tk_power A fuel ts))
    ∧ (∀ ts, 5 * ts.length + 3 ≤ fuel → Res.Within ts.length (tk_factor A fuel ts))
    ∧ (∀ left ts, 5 * ts.length + 1 ≤ fuel →
        Res.Within ts.length (tk_term_loop A fuel left ts))
    ∧ (∀ ts, 5 * ts.length + 4 ≤ fuel → Res.Within ts.length (tk_term A fuel ts))
    ∧ (∀ left ts, 5 * ts.length + 1 ≤ fuel →
        Res.Within ts.length (tk_expression_loop A fuel left ts))
    ∧ (∀ ts, 5 * ts.length + 5 ≤ fuel → Res.Within ts.length (tk_expression A fuel ts)) := by
  intro fuel
  induction fuel with
  | zero =>
    refine ⟨?_, ?_, ?_, ?_, ?_, ?_, ?_⟩ <;> intros <;> omega
  | succ n ih =>
    obtain ⟨ihprim, ihpow, ihfac, ihtl, ihterm, ihel, ihexpr⟩ := ih
    refine ⟨?_, ?_, ?_, ?_, ?_, ?_, ?_⟩
    · intro ts hf
      rw [tk_primary]
      split_ifs
      · refine tk_eat_within ts _ (by decide) _ _ (fun ts1 h1 => ?_)
        show ts1.length ≤ ts.length
        omega
      · refine tk_eat_within ts _ (by decide) _ _ (fun ts1 h1 => ?_)
        refine res_within_bind (ihexpr ts1 (by omega)) (fun r hr => ?_)
        refine tk_eat_within r.2 _ (by decide) _ _ (fun ts3 h3 => ?_)
        show ts3.length ≤ ts.length
        omega
      · exact Nat.le_refl _
    · intro ts hf
      rw [tk_power]
      refine res_within_bind (ihprim ts (by omega)) (fun l hl => ?_)
      split_ifs
      · refine tk_eat_within l.2 _ (by decide) _ _ (fun ts2 h2 => ?_)
        refine res_within_bind (ihpow ts2 (by omega)) (fun r hr => ?_)
        show r.2.length ≤ ts.length
        omega
      · exact hl
    · intro ts hf
      rw [tk_factor]
      split_ifs
      · refine tk_eat_within ts _ (by decide) _ _ (fun ts1 h1 => ?_)
        refine res_within_bind (ihfac ts1 (by omega)) (fun r hr => ?_)
        show r.2.length ≤ ts.length
        omega
      · refine tk_eat_within ts _ (by decide) _ _ (fun ts1 h1 => ?_)
        refine res_within_bind (ihfac ts1 (by omega)) (fun r hr => ?_)
        show r.2.length ≤ ts.length
        omega
      · exact ihpow ts (by omega)
    · intro left ts hf
      rw [tk_term_loop]
      split_ifs with h1
      · have hne : tok_type ts ≠ TOKEN_EOF := by
          rcases h1 with h1 | h1 <;> rw [h1] <;> decide
        refine tk_eat_within ts _ hne _ _ (fun ts1 h1 => ?_)
        refine res_within_bind (ihfac ts1 (by omega)) (fun r hr => ?_)
        exact res_within_mono (ihtl _ r.2 (by omega)) (by omega)
      · exact Nat.le_refl _
    · intro ts hf
      rw [tk_term]
      refine res_within_bind (ihfac ts (by omega)) (fun l hl => ?_)
      exact res_within_mono (ihtl _ l.2 (by omega)) hl
    · intro left ts hf
      rw [tk_expression_loop]
      split_ifs with h1
      · have hne : tok_type ts ≠ TOKEN_EOF := by
          rcases h1 with h1 | h1 <;> rw [h1] <;> decide
        refine tk_eat_within ts _ hne _ _ (fun ts1 h1 => ?_)
        refine res_within_bind (ihterm ts1 (by omega)) (fun r hr => ?_)
        exact res_within_mono (ihel _ r.2 (by omega)) (by omega)
      · exact Nat.le_refl _
    · intro ts hf
      rw [tk_expression]
      refine res_within_bind (ihterm ts (by omega)) (fun l hl => ?_)
      exact res_within_mono (ihel _ l.2 (by omega)) hl

theorem tokens_skip_length_le (s : List Char) :
    ∀ k : Nat, (tokens_skip k s).length ≤ s.length := by
  induction s with
  | nil => intro k; simp [tokens_skip]
  | cons c cs ih =>
    intro k
    cases k with
    | zero =>
      unfold tokens_skip
      split_ifs
      · exact Nat.le_succ_of_le (ih 0)
      · simpa using ih _
      · simpa using ih 0
    | succ k =>
      simp only [tokens_skip, List.length_cons]
      exact Nat.le_succ_of_le (ih k)

theorem tokens_length_le (s : List Char) : (tokens s).length ≤ s.length :=
  tokens_skip_length_le s 0

/-- More fuel than a result needed gives the same result; the fuel
`5 * length + 5` always gives a result. -/
theorem tk_expression_fuel {F : Type} (A : Arith F) (ts : List Token_t) (n : Nat)
    (r : Res (ASTNode_t F × List Token_t)) (h : tk_expression A n ts = r)
    (hr : r ≠ Res.out_of_fuel) (m : Nat) (hm : 5 * ts.length + 5 ≤ m) :
    tk_expression A m ts = r := by
  have hstep : ∀ k, Res.le (tk_expression A k ts) (tk_expression A (k + 1) ts) :=
    fun k => (tk_mono_step A k).2.2.2.2.2.2 ts
  have hw := (tk_within A m).2.2.2.2.2.2 ts hm
  rcases Nat.le_total n m with hnm | hmn
  · rcases res_le_of_step _ hstep hnm with h1 | h1
    · exact absurd (h ▸ h1) hr
    · rw [← h1, h]
  · rcases res_le_of_step _ hstep hmn with h1 | h1
    · rw [h1] at hw
      exact hw.elim
    · rw [h1, h]

theorem parser_init_at {input : List Char} (hn : ∀ c ∈ input, c ≠ NUL) :
    ∃ parser, parser_init (lexer_init input) = Res.ok parser
      ∧ PStream parser (tokens input) := by
  rcases lexer_next_token_at (lexer_init_at hn) with
    ⟨h1, l1, h2, _⟩ | ⟨t, ts, l1, d, pre1, suf1, e1, e2, e3, e4, e5, _, _⟩
  · refine ⟨⟨l1, ⟨TOKEN_EOF, none⟩, []⟩, by simp [parser_init, h2], ?_⟩
    rw [h1]
    exact PStream.eof _ rfl
  · refine ⟨⟨l1, t, d⟩, by simp [parser_init, e2], ?_⟩
    rw [e1, ← e4]
    exact PStream.cons ⟨l1, t, d⟩ _ e5 (lexStream_at _ l1 pre1 suf1 (Nat.le_refl _) e3)

theorem pstream_eq_nil_iff {parser : Parser_t} {ts : List Token_t} (h : PStream parser ts) :
    tok_type ts = TOKEN_EOF ↔ ts = [] := by
  cases h with
  | eof h => simp [tok_type]
  | cons ts' h1 h2 => simpa [tok_type] using h1

/-- The parser on an input without NUL returns what `tk_parse` returns on the
tokens of the input. -/
theorem parse_refines {F : Type} (A : Arith F) {input : List Char}
    (hn : ∀ c ∈ input, c ≠ NUL) :
    Res.Rel SameResult (parse A input) (tk_parse A (parse_fuel input) (tokens input)) := by
  obtain ⟨P, hP, hs⟩ := parser_init_at hn
  unfold parse parser_parse tk_parse
  rw [hP]
  show Res.Rel SameResult (Res.bind (parse_expression A (parse_fuel input) P) _) _
  refine res_rel_bind ((parser_refines A _).2.2.2.2.2.2 P _ hs) (fun r r' hr => ?_)
  rw [pstream_tok_type hr.2]
  split_ifs
  · exact ⟨rfl, pstream_parser_error hr.2 _⟩
  · exact hr

theorem parse_fuel_ge (input : List Char) :
    5 * (tokens input).length + 5 ≤ parse_fuel input := by
  have := tokens_length_le input
  unfold parse_fuel
  omega

/-- From a result on the tokens of the input, with any fuel, to the result of
`parse`. -/
theorem parse_of_tk {F : Type} (A : Arith F) {input : List Char}
    (hn : ∀ c ∈ input, c ≠ NUL) {n : Nat} {t : ASTNode_t F} {ts : List Token_t}
    (h : tk_expression A n (tokens input) = Res.ok (t, ts)) :
    ∃ parser, parse A input = Res.ok (if ts = [] then t else ASTNode_t.null, parser)
      ∧ PStream parser ts := by
  have h1 := tk_expression_fuel A _ n _ h (by simp) _ (parse_fuel_ge input)
  have h2 := parse_refines A hn
  unfold tk_parse at h2
  rw [h1] at h2
  simp only [Res.bind] at h2
  cases hp : parse A input with
  | ok a =>
    rw [hp] at h2
    split_ifs at h2 with h3
    · obtain ⟨e1, e2⟩ := h2
      have hne : ts ≠ [] := fun e => h3 ((pstream_eq_nil_iff e2).mpr e)
      refine ⟨a.2, ?_, e2⟩
      rw [if_neg hne]
      exact congrArg Res.ok (Prod.ext e1 rfl)
    · obtain ⟨e1, e2⟩ := h2
      have he : ts = [] := (pstream_eq_nil_iff e2).mp (by simpa using h3)
      refine ⟨a.2, ?_, e2⟩
      rw [if_pos he]
      exact congrArg Res.ok (Prod.ext e1 rfl)
  | exit e =>
    rw [hp] at h2
    split_ifs at h2 <;> exact h2.elim
  | out_of_fuel =>
    rw [hp] at h2
    split_ifs at h2 <;> exact h2.elim

theorem parse_exit_of_tk {F : Type} (A : Arith F) {input : List Char}
    (hn : ∀ c ∈ input, c ≠ NUL) {n : Nat} {e : List Diag}
    (h : tk_expression A n (tokens input) = (Res.exit e : Res (ASTNode_t F × List Token_t))) :
    ∃ e', parse A input = Res.exit e' := by
  have h1 := tk_expression_fuel A _ n _ h (by simp) _ (parse_fuel_ge input)
  have h2 := parse_refines A hn
  unfold tk_parse at h2
  rw [h1] at h2
  simp only [Res.bind] at h2
  cases hp : parse A input with
  | ok a => rw [hp] at h2; exact h2.elim
  | exit e' => exact ⟨e', rfl⟩
  | out_of_fuel => rw [hp] at h2; exact h2.elim

/-- From an AST returned by `parse` to the result on the tokens of the
input. -/
theorem tk_of_parse {F : Type} (A : Arith F) {input : List Char}
    (hn : ∀ c ∈ input, c ≠ NUL) {t : ASTNode_t F} {parser : Parser_t}
    (h : parse A input = Res.ok (t, parser)) (ht : t ≠ ASTNode_t.null) :
    tk_expression A (parse_fuel input) (tokens input) = Res.ok (t, []) := by
  have h2 := parse_refines A hn
  rw [h] at h2
  unfold tk_parse at h2
  cases hp : tk_expression A (parse_fuel input) (tokens input) with
  | ok a =>
    rw [hp] at h2
    simp only [Res.bind] at h2
    split_ifs at h2 with h3
    · exact absurd h2.1 ht
    · obtain ⟨e1, e2⟩ := h2
      have he : a.2 = [] := (pstream_eq_nil_iff e2).mp (by simpa using h3)
      exact congrArg Res.ok (Prod.ext e1.symm he)
  | exit e => rw [hp] at h2; exact h2.elim
  | out_of_fuel => rw [hp] at h2; exact h2.elim

/-! ## The grammar rules, read off the routines on token sequences -/

theorem yields_at {α : Type} {f : Nat → Res α} (hstep : ∀ k, Res.le (f k) (f (k + 1)))
    {n : Nat} {a : α} (h : f n = Res.ok a) {m : Nat} (hnm : n ≤ m) : f m = Res.ok a := by
  rcases res_le_of_step f hstep hnm with h1 | h1
  · rw [h] at h1
    exact Res.noConfusion h1
  · rw [← h1, h]

theorem yields_primary_number {F : Type} (A : Arith F) (t : Token_t) (ts : List Token_t)
    (ht : t.type = TOKEN_NUMBER) :
    Yields (fun n => tk_primary A n (t :: ts))
      (ASTNode_t.number (A.atof (t.value.getD [])), ts) :=
  ⟨1, by simp [tk_primary, tk_eat, tok_type, tok_value, ht, Res.bind, create_number_node]⟩

theorem yields_primary_null {F : Type} (A : Arith F) (ts : List Token_t)
    (h1 : tok_type ts ≠ TOKEN_NUMBER) (h2 : tok_type ts ≠ TOKEN_LPAREN) :
    Yields (fun n => tk_primary A n ts) (ASTNode_t.null, ts) :=
  ⟨1, by simp [tk_primary, h1, h2]⟩

theorem yields_primary_paren {F : Type} (A : Arith F) (l r : Token_t) (ts ts' : List Token_t)
    (t : ASTNode_t F) (hl : l.type = TOKEN_LPAREN) (hr : r.type = TOKEN_RPAREN)
    (h : Yields (fun n => tk_expression A n ts) (t, r :: ts')) :
    Yields (fun n => tk_primary A n (l :: ts)) (t, ts') := by
  obtain ⟨n, hn⟩ := h
  exact ⟨n + 1, by simp [tk_primary, tk_eat, tok_type, hl, hr, Res.bind, hn]⟩

theorem yields_power_single {F : Type} (A : Arith F) (ts ts1 : List Token_t) (l : ASTNode_t F)
    (h : Yields (fun n => tk_primary A n ts) (l, ts1)) (hp : tok_type ts1 ≠ TOKEN_POWER) :
    Yields (fun n => tk_power A n ts) (l, ts1) := by
  obtain ⟨n, hn⟩ := h
  exact ⟨n + 1, by simp [tk_power, Res.bind, hn, hp]⟩

theorem yields_power {F : Type} (A : Arith F) (ts ts2 ts3 : List Token_t) (p : Token_t)
    (l r : ASTNode_t F) (h : Yields (fun n => tk_primary A n ts) (l, p :: ts2))
    (hp : p.type = TOKEN_POWER) (h2 : Yields (fun n => tk_power A n ts2) (r, ts3)) :
    Yields (fun n => tk_power A n ts) (ASTNode_t.binary_op TOKEN_POWER l r, ts3) := by
  obtain ⟨n, hn⟩ := h
  obtain ⟨m, hm⟩ := h2
  have e1 := yields_at (fun k => (tk_mono_step A k).1 ts) hn (Nat.le_max_left n m)
  have e2 := yields_at (fun k => (tk_mono_step A k).2.1 ts2) hm (Nat.le_max_right n m)
  exact ⟨max n m + 1, by
    simp [tk_power, Res.bind, e1, e2, tok_type, hp, tk_eat, create_binary_node]⟩

theorem yields_factor_power {F : Type} (A : Arith F) (ts : List Token_t)
    (x : ASTNode_t F × List Token_t) (h1 : tok_type ts ≠ TOKEN_MINUS)
    (h2 : tok_type ts ≠ TOKEN_PLUS) (h : Yields (fun n => tk_power A n ts) x) :
    Yields (fun n => tk_factor A n ts) x := by
  obtain ⟨n, hn⟩ := h
  exact ⟨n + 1, by simp [tk_factor, h1, h2, hn]⟩

theorem yields_factor_sign {F : Type} (A : Arith F) (s : Token_t) (ts ts' : List Token_t)
    (r : ASTNode_t F) (hs : s.type = TOKEN_MINUS ∨ s.type = TOKEN_PLUS)
    (h : Yields (fun n => tk_factor A n ts) (r, ts')) :
    Yields (fun n => tk_factor A n (s :: ts)) (ASTNode_t.unary_op s.type r, ts') := by
  obtain ⟨n, hn⟩ := h
  rcases hs with hs | hs
  · exact ⟨n + 1, by simp [tk_factor, tok_type, hs, tk_eat, Res.bind, hn, create_unary_node]⟩
  · exact ⟨n + 1, by simp [tk_factor, tok_type, hs, tk_eat, Res.bind, hn, create_unary_node]⟩

theorem yields_term_loop_done {F : Type} (A : Arith F) (left : ASTNode_t F)
    (ts : List Token_t) (h1 : tok_type ts ≠ TOKEN_MULTIPLY) (h2 : tok_type ts ≠ TOKEN_DIVIDE) :
    Yields (fun n => tk_term_loop A n left ts) (left, ts) :=
  ⟨1, by simp [tk_term_loop, h1, h2]⟩

theorem yields_term_loop_step {F : Type} (A : Arith F) (left r : ASTNode_t F) (o : Token_t)
    (ts ts1 : List Token_t) (x : ASTNode_t F × List Token_t)
    (ho : o.type = TOKEN_MULTIPLY ∨ o.type = TOKEN_DIVIDE)
    (h : Yields (fun n => tk_factor A n ts) (r, ts1))
    (h2 : Yields (fun n => tk_term_loop A n (ASTNode_t.binary_op o.type left r) ts1) x) :
    Yields (fun n => tk_term_loop A n left (o :: ts)) x := by
  obtain ⟨n, hn⟩ := h
  obtain ⟨m, hm⟩ := h2
  have e1 := yields_at (fun k => (tk_mono_step A k).2.2.1 ts) hn (Nat.le_max_left n m)
  have e2 := yields_at (fun k => (tk_mono_step A k).2.2.2.1 _ ts1) hm (Nat.le_max_right n m)
  exact ⟨max n m + 1, by
    simp [tk_term_loop, Res.bind, e1, e2, tok_type, ho, tk_eat, create_binary_node]⟩

theorem yields_term {F : Type} (A : Arith F) (l : ASTNode_t F) (ts ts1 : List Token_t)
    (x : ASTNode_t F × List Token_t) (h : Yields (fun n => tk_factor A n ts) (l, ts1))
    (h2 : Yields (fun n => tk_term_loop A n l ts1) x) :
    Yields (fun n => tk_term A n ts) x := by
  obtain ⟨n, hn⟩ := h
  obtain ⟨m, hm⟩ := h2
  have e1 := yields_at (fun k => (tk_mono_step A k).2.2.1 ts) hn (Nat.le_max_left n m)
  have e2 := yields_at (fun k => (tk_mono_step A k).2.2.2.1 _ ts1) hm (Nat.le_max_right n m)
  exact ⟨max n m + 1, by simp [tk_term, Res.bind, e1, e2]⟩

theorem yields_expression_loop_done {F : Type} (A : Arith F) (left : ASTNode_t F)
    (ts : List Token_t) (h1 : tok_type ts ≠ TOKEN_PLUS) (h2 : tok_type ts ≠ TOKEN_MINUS) :
    Yields (fun n => tk_expression_loop A n left ts) (left, ts) :=
  ⟨1, by simp [tk_expression_loop, h1, h2]⟩

theorem yields_expression_loop_step {F : Type} (A : Arith F) (left r : ASTNode_t F)
    (o : Token_t) (ts ts1 : List Token_t) (x : ASTNode_t F × List Token_t)
    (ho : o.type = TOKEN_PLUS ∨ o.type = TOKEN_MINUS)
    (h : Yields (fun n => tk_term A n ts) (r, ts1))
    (h2 : Yields (fun n => tk_expression_loop A n (ASTNode_t.binary_op o.type left r) ts1) x) :
    Yields (fun n => tk_expression_loop A n left (o :: ts)) x := by
  obtain ⟨n, hn⟩ := h
  obtain ⟨m, hm⟩ := h2
  have e1 := yields_at (fun k => (tk_mono_step A k).2.2.2.2.1 ts) hn (Nat.le_max_left n m)
  have e2 := yields_at (fun k => (tk_mono_step A k).2.2.2.2.2.1 _ ts1) hm
    (Nat.le_max_right n m)
  exact ⟨max n m + 1, by
    simp [tk_expression_loop, Res.bind, e1, e2, tok_type, ho, tk_eat, create_binary_node]⟩

theorem yields_expression {F : Type} (A : Arith F) (l : ASTNode_t F) (ts ts1 : List Token_t)
    (x : ASTNode_t F × List Token_t) (h : Yields (fun n => tk_term A n ts) (l, ts1))
    (h2 : Yields (fun n => tk_expression_loop A n l ts1) x) :
    Yields (fun n => tk_expression A n ts) x := by
  obtain ⟨n, hn⟩ := h
  obtain ⟨m, hm⟩ := h2
  have e1 := yields_at (fun k => (tk_mono_step A k).2.2.2.2.1 ts) hn (Nat.le_max_left n m)
  have e2 := yields_at (fun k => (tk_mono_step A k).2.2.2.2.2.1 _ ts1) hm
    (Nat.le_max_right n m)
  exact ⟨max n m + 1, by simp [tk_expression, Res.bind, e1, e2]⟩

/-! ## Number literals and the tokens of a concatenation -/

theorem is_num_char_ne_NUL {c : Char} (h : is_num_char c = true) : c ≠ NUL := by
  intro hc
  subst hc
  revert h
  decide

theorem is_num_char_false {c : Char} (h : is_num_char c = false) :
    is_digit c = false ∧ c ≠ '.' := by
  simpa [is_num_char] using h

theorem num_run_of_head {rest : List Char} (dec : Bool)
    (hr : ∀ c ∈ rest.head?, is_num_char c = false) : num_run dec rest = [] := by
  cases rest with
  | nil => rfl
  | cons c cs =>
    obtain ⟨h1, h2⟩ := is_num_char_false (hr c (by simp))
    simp [num_run, h1, h2]

theorem num_run_literal (x : List Char) :
    ∀ (dec : Bool) (rest : List Char), x.all is_num_char = true →
      x.count '.' ≤ (if dec = true then 0 else 1) →
      (∀ c ∈ rest.head?, is_num_char c = false) → num_run dec (x ++ rest) = x := by
  induction x with
  | nil =>
    intro dec rest _ _ hr
    simpa using num_run_of_head dec hr
  | cons c cs ih =>
    intro dec rest hall hcount hr
    simp only [List.all_cons, Bool.and_eq_true] at hall
    obtain ⟨hc, hcs⟩ := hall
    by_cases hdig : is_digit c = true
    · have hcd : c ≠ '.' := by
        intro hc
        subst hc
        revert hdig
        decide
      have hcount' : cs.count '.' ≤ (if dec = true then 0 else 1) := by
        rwa [List.count_cons_of_ne (Ne.symm hcd)] at hcount
      simp [num_run, hdig, ih dec rest hcs hcount' hr]
    · have hcd : c = '.' := by
        simpa [is_num_char, hdig] using hc
      subst hcd
      rw [List.count_cons_self] at hcount
      have hdec : dec = false := by
        cases dec with
        | false => rfl
        | true => simp at hcount
      subst hdec
      have hcount' : cs.count '.' ≤ (if true = true then 0 else 1) := by
        simp at hcount ⊢
        omega
      have hdd : is_digit '.' = false := by decide
      simp [num_run, hdd, ih true rest hcs hcount' hr]

theorem starts_number_literal {x : List Char} (h : is_number_literal x = true)
    (rest : List Char) : starts_number (x ++ rest) = true := by
  simp only [is_number_literal, Bool.and_eq_true, decide_eq_true_eq] at h
  obtain ⟨⟨hall, hcount⟩, hany⟩ := h
  cases x with
  | nil => simp at hany
  | cons c cs =>
    by_cases hdig : is_digit c = true
    · simp [starts_number, hdig]
    · simp only [List.all_cons, Bool.and_eq_true] at hall
      have hcd : c = '.' := by
        simpa [is_num_char, hdig] using hall.1
      subst hcd
      rw [List.count_cons_self] at hcount
      have hdd : is_digit '.' = false := by decide
      simp only [List.any_cons, hdd, Bool.false_or] at hany
      cases cs with
      | nil => simp at hany
      | cons d ds =>
        have hd : is_num_char d = true := by
          have := hall.2
          simp only [List.all_cons, Bool.and_eq_true] at this
          exact this.1
        have hdne : d ≠ '.' := by
          intro hd'
          subst hd'
          rw [List.count_cons_self] at hcount
          omega
        have : is_digit d = true := by
          simpa [is_num_char, hdne] using hd
        simp [starts_number, this]

/-- A number literal followed by a character that is neither a digit nor '.',
or by nothing, is read as one `TOKEN_NUMBER` with the literal as its text. -/
theorem tokens_number_literal {x : List Char} (h : is_number_literal x = true)
    (rest : List Char) (hr : ∀ c ∈ rest.head?, is_num_char c = false) :
    tokens (x ++ rest) = ⟨TOKEN_NUMBER, some x⟩ :: tokens rest := by
  have hs := starts_number_literal h rest
  simp only [is_number_literal, Bool.and_eq_true, decide_eq_true_eq] at h
  have hrun := num_run_literal x false rest h.1.1 (by simpa using h.1.2) hr
  rw [tokens_number hs, hrun]
  simp

theorem number_literal_no_nul {x : List Char} (h : is_number_literal x = true) :
    ∀ c ∈ x, c ≠ NUL := by
  simp only [is_number_literal, Bool.and_eq_true, decide_eq_true_eq] at h
  intro c hc
  exact is_num_char_ne_NUL (List.all_eq_true.mp h.1.1 c hc)

theorem tokens_cons_single {c : Char} (rest : List Char) (hw : is_whitespace c = false)
    (hn : is_num_char c = false) :
    tokens (c :: rest) = ⟨single_char_type c, some [c]⟩ :: tokens rest := by
  obtain ⟨h1, h2⟩ := is_num_char_false hn
  exact tokens_single rest hw (by simp [starts_number, h1, h2])

theorem safe_boundary_tail {c : Char} {cs b : List Char} (h : safe_boundary (c :: cs) b) :
    safe_boundary cs b := by
  rcases h with h | h
  · cases cs with
    | nil => exact Or.inl (by simp)
    | cons d ds => exact Or.inl (by simpa [List.getLast?_cons_cons] using h)
  · exact Or.inr h

theorem num_run_length_le (s : List Char) : ∀ dec : Bool, (num_run dec s).length ≤ s.length := by
  induction s with
  | nil => intro dec; simp [num_run]
  | cons c cs ih =>
    intro dec
    unfold num_run
    split_ifs
    · simpa using ih dec
    · simpa using ih true
    · simp

theorem num_run_cons (dec : Bool) (c : Char) (cs : List Char) :
    num_run dec (c :: cs)
      = if is_digit c = true then c :: num_run dec cs
        else if c = '.' ∧ dec = false then c :: num_run true cs else [] := by
  rw [num_run]

theorem num_run_append (a : List Char) :
    ∀ (dec : Bool) (b : List Char), a ≠ [] → safe_boundary a b →
      num_run dec (a ++ b) = num_run dec a := by
  induction a with
  | nil => intro dec b h _; exact absurd rfl h
  | cons c cs ih =>
    intro dec b _ hs
    cases cs with
    | nil =>
      have hb : is_num_char c = true → ∀ d : Bool, num_run d b = [] := by
        intro hc d
        rcases hs with hs | hs
        · have := hs c (by simp)
          rw [hc] at this
          exact Bool.noConfusion this
        · exact num_run_of_head d hs
      by_cases hdig : is_digit c = true
      · simp [num_run, hdig, hb (by simp [is_num_char, hdig])]
      · by_cases hdot : c = '.' ∧ dec = false
        · simp [num_run, hdig, hdot, hb (by simp [is_num_char, hdot.1])]
        · simp [num_run, hdig, hdot]
    | cons d ds =>
      have h1 := ih dec b (by simp) (safe_boundary_tail hs)
      have h2 := ih true b (by simp) (safe_boundary_tail hs)
      simp only [List.cons_append] at h1 h2 ⊢
      rw [num_run_cons dec c (d :: (ds ++ b)), num_run_cons dec c (d :: ds), h1, h2]

theorem starts_number_append {a b : List Char} (ha : a ≠ []) (hs : safe_boundary a b) :
    starts_number (a ++ b) = starts_number a := by
  cases a with
  | nil => exact absurd rfl ha
  | cons c cs =>
    cases cs with
    | cons d ds => simp [starts_number]
    | nil =>
      by_cases hdig : is_digit c = true
      · simp [starts_number, hdig]
      · by_cases hdot : c = '.'
        · have hb : is_digit (b.headD NUL) = false := by
            rcases hs with hs | hs
            · have := hs c (by simp)
              rw [hdot] at this
              exact absurd this (by decide)
            · cases b with
              | nil => decide
              | cons e es => exact (is_num_char_false (hs e (by simp))).1
          have hN : is_digit NUL = false := by decide
          simp only [List.singleton_append, starts_number, hb, List.headD_nil, hN]
        · simp [starts_number, hdig, hdot]

theorem tokens_skip_append (a : List Char) :
    ∀ (k : Nat) (b : List Char), k ≤ a.length → safe_boundary a b →
      tokens_skip k (a ++ b) = tokens_skip k a ++ tokens b := by
  induction a with
  | nil =>
    intro k b hk _
    have : k = 0 := by simpa using hk
    subst this
    simp [tokens, tokens_skip]
  | cons c cs ih =>
    intro k b hk hs
    have hs' := safe_boundary_tail hs
    cases k with
    | succ k =>
      simp only [List.cons_append, tokens_skip]
      exact ih k b (by simpa using hk) hs'
    | zero =>
      have e1 := starts_number_append (by simp : c :: cs ≠ []) hs
      have e2 := num_run_append (c :: cs) false b (by simp) hs
      simp only [List.cons_append] at e1 e2 ⊢
      rw [tokens_skip, tokens_skip, e1, e2]
      have hlen := num_run_length_le (c :: cs) false
      split_ifs
      · exact ih 0 b (Nat.zero_le _) hs'
      · rw [ih _ b (by simp at hlen; omega) hs']
        simp
      · rw [ih 0 b (Nat.zero_le _) hs']
        simp

/-- The tokens of a concatenation are the tokens of its parts, when the parts
do not meet inside a number. -/
theorem tokens_append {a b : List Char} (hs : safe_boundary a b) :
    tokens (a ++ b) = tokens a ++ tokens b :=
  tokens_skip_append a 0 b (Nat.zero_le _) hs

theorem tokens_of_whitespace (w : List Char) (hw : ∀ c ∈ w, is_whitespace c = true) :
    ∀ b : List Char, tokens (w ++ b) = tokens b := by
  induction w with
  | nil => intro b; rfl
  | cons c cs ih =>
    intro b
    rw [List.cons_append, tokens_cons_whitespace _ (hw c (by simp))]
    exact ih (fun x hx => hw x (by simp [hx])) b

/-! ## A closing parenthesis after an expression

A routine that returns on a token sequence returns the same AST when the
sequence is followed by ')' and more tokens, which it leaves unread. -/

theorem ext_rel_bind {F : Type} {sfx : List Token_t} {x y : Res (ASTNode_t F × List Token_t)}
    {f g : ASTNode_t F × List Token_t → Res (ASTNode_t F × List Token_t)}
    (h : ExtRel sfx x y) (hf : ∀ a, ExtRel sfx (f a) (g (a.1, a.2 ++ sfx))) :
    ExtRel sfx (x.bind f) (y.bind g) := by
  intro b hb
  cases x with
  | ok a =>
    rw [h a rfl]
    exact hf a b hb
  | exit e => exact Res.noConfusion hb
  | out_of_fuel => exact Res.noConfusion hb

theorem tk_eat_ext {F : Type} (ts : List Token_t) (e : TokenType) (sfx : List Token_t)
    {f g : List Token_t → Res (ASTNode_t F × List Token_t)}
    (he : e ≠ TOKEN_EOF) (h : ∀ ts1, ExtRel sfx (f ts1) (g (ts1 ++ sfx))) :
    ExtRel sfx ((tk_eat ts e).bind f) ((tk_eat (ts ++ sfx) e).bind g) := by
  cases ts with
  | nil =>
    intro a ha
    have : ¬ (TOKEN_EOF = e) := fun x => he x.symm
    simp [tk_eat, tok_type, this, Res.bind] at ha
  | cons t ts1 =>
    by_cases hty : t.type = e
    · simpa [tk_eat, tok_type, hty, Res.bind] using h ts1
    · intro a ha
      simp [tk_eat, tok_type, hty, Res.bind] at ha

theorem tok_type_append_of_ne (ts sfx : List Token_t) (h : tok_type ts ≠ TOKEN_EOF) :
    tok_type (ts ++ sfx) = tok_type ts := by
  cases ts with
  | nil => exact absurd rfl h
  | cons t ts1 => rfl

theorem tok_value_append_of_ne (ts sfx : List Token_t) (h : tok_type ts ≠ TOKEN_EOF) :
    tok_value (ts ++ sfx) = tok_value ts := by
  cases ts with
  | nil => exact absurd rfl h
  | cons t ts1 => rfl

theorem tok_type_append_iff (ts : List Token_t) (r : Token_t) (rest : List Token_t)
    (hr : r.type = TOKEN_RPAREN) (ty : TokenType) (h1 : ty ≠ TOKEN_EOF)
    (h2 : ty ≠ TOKEN_RPAREN) : tok_type (ts ++ r :: rest) = ty ↔ tok_type ts = ty := by
  cases ts with
  | nil =>
    simp only [List.nil_append, tok_type, hr]
    exact ⟨fun h => absurd h.symm h2, fun h => absurd h.symm h1⟩
  | cons t ts1 => rfl

theorem tk_extend {F : Type} (A : Arith F) (r : Token_t) (rest : List Token_t)
    (hr : r.type = TOKEN_RPAREN) : ∀ fuel : Nat,
    (∀ ts, ExtRel (r :: rest) (tk_primary A fuel ts) (tk_primary A fuel (ts ++ r :: rest)))
    ∧ (∀ ts, ExtRel (r :: rest) (tk_power A fuel ts) (tk_power A fuel (ts ++ r :: rest)))
    ∧ (∀ ts, ExtRel (r :: rest) (tk_factor A fuel ts) (tk_factor A fuel (ts ++ r :: rest)))
    ∧ (∀ left ts, ExtRel (r :: rest) (tk_term_loop A fuel left ts)
        (tk_term_loop A fuel left (ts ++ r :: rest)))
    ∧ (∀ ts, ExtRel (r :: rest) (tk_term A fuel ts) (tk_term A fuel (ts ++ r :: rest)))
    ∧ (∀ left ts, ExtRel (r :: rest) (tk_expression_loop A fuel left ts)
        (tk_expression_loop A fuel left (ts ++ r :: rest)))
    ∧ (∀ ts, ExtRel (r :: rest) (tk_expression A fuel ts)
        (tk_expression A fuel (ts ++ r :: rest))) := by
  intro fuel
  have hc : ∀ (ts : List Token_t) (ty : TokenType), ty ≠ TOKEN_EOF → ty ≠ TOKEN_RPAREN →
      (tok_type (ts ++ r :: rest) = ty ↔ tok_type ts = ty) :=
    fun ts ty h1 h2 => tok_type_append_iff ts r rest hr ty h1 h2
  induction fuel with
  | zero =>
    refine ⟨?_, ?_, ?_, ?_, ?_, ?_, ?_⟩ <;> intros <;> intro a ha <;>
      simp [tk_primary, tk_power, tk_factor, tk_term_loop, tk_term, tk_expression_loop,
        tk_expression] at ha
  | succ n ih =>
    obtain ⟨ihprim, ihpow, ihfac, ihtl, ihterm, ihel, ihexpr⟩ := ih
    refine ⟨?_, ?_, ?_, ?_, ?_, ?_, ?_⟩
    · intro ts
      rw [tk_primary, tk_primary]
      simp only [hc ts TOKEN_NUMBER (by decide) (by decide),
        hc ts TOKEN_LPAREN (by decide) (by decide)]
      split_ifs with h1 h2
      · rw [tok_value_append_of_ne ts _ (by rw [h1]; decide)]
        exact tk_eat_ext ts _ _ (by decide) (fun ts1 a ha => by
          simp only [Res.ok.injEq] at ha
          rw [← ha])
      · refine tk_eat_ext ts _ _ (by decide) (fun ts1 => ?_)
        refine ext_rel_bind (ihexpr ts1) (fun a => ?_)
        exact tk_eat_ext a.2 _ _ (by decide) (fun ts3 b hb => by
          simp only [Res.ok.injEq] at hb
          rw [← hb])
      · intro a ha
        simp only [Res.ok.injEq] at ha
        rw [← ha]
    · intro ts
      rw [tk_power, tk_power]
      refine ext_rel_bind (ihprim ts) (fun l => ?_)
      simp only [hc l.2 TOKEN_POWER (by decide) (by decide)]
      split_ifs with h1
      · rw [tok_type_append_of_ne l.2 _ (by rw [h1]; decide)]
        refine tk_eat_ext l.2 _ _ (by decide) (fun ts2 => ?_)
        refine ext_rel_bind (ihpow ts2) (fun a b hb => ?_)
        simp only [Res.ok.injEq] at hb
        rw [← hb]
      · intro a ha
        simp only [Res.ok.injEq] at ha
        rw [← ha]
    · intro ts
      rw [tk_factor, tk_factor]
      simp only [hc ts TOKEN_MINUS (by decide) (by decide),
        hc ts TOKEN_PLUS (by decide) (by decide)]
      split_ifs
      · refine tk_eat_ext ts _ _ (by decide) (fun ts1 => ?_)
        refine ext_rel_bind (ihfac ts1) (fun a b hb => ?_)
        simp only [Res.ok.injEq] at hb
        rw [← hb]
      · refine tk_eat_ext ts _ _ (by decide) (fun ts1 => ?_)
        refine ext_rel_bind (ihfac ts1) (fun a b hb => ?_)
        simp only [Res.ok.injEq] at hb
        rw [← hb]
      · exact ihpow ts
    · intro left ts
      rw [tk_term_loop, tk_term_loop]
      simp only [hc ts TOKEN_MULTIPLY (by decide) (by decide),
        hc ts TOKEN_DIVIDE (by decide) (by decide)]
      split_ifs with h1
      · have hne : tok_type ts ≠ TOKEN_EOF := by
          rcases h1 with h1 | h1 <;> rw [h1] <;> decide
        rw [tok_type_append_of_ne ts _ hne]
        refine tk_eat_ext ts _ _ hne (fun ts1 => ?_)
        exact ext_rel_bind (ihfac ts1) (fun a => ihtl _ a.2)
      · intro a ha
        simp only [Res.ok.injEq] at ha
        rw [← ha]
    · intro ts
      rw [tk_term, tk_term]
      exact ext_rel_bind (ihfac ts) (fun a => ihtl _ a.2)
    · intro left ts
      rw [tk_expression_loop, tk_expression_loop]
      simp only [hc ts TOKEN_PLUS (by decide) (by decide),
        hc ts TOKEN_MINUS (by decide) (by decide)]
      split_ifs with h1
      · have hne : tok_type ts ≠ TOKEN_EOF := by
          rcases h1 with h1 | h1 <;> rw [h1] <;> decide
        rw [tok_type_append_of_ne ts _ hne]
        refine tk_eat_ext ts _ _ hne (fun ts1 => ?_)
        exact ext_rel_bind (ihterm ts1) (fun a => ihel _ a.2)
      · intro a ha
        simp only [Res.ok.injEq] at ha
        rw [← ha]
    · intro ts
      rw [tk_expression, tk_expression]
      exact ext_rel_bind (ihterm ts) (fun a => ihel _ a.2)

/-! ## From the grammar rules to `parse` -/

theorem parse_ast_of_yields {F : Type} (A : Arith F) {input : List Char}
    (hn : ∀ c ∈ input, c ≠ NUL) {t : ASTNode_t F}
    (h : Yields (fun n => tk_expression A n (tokens input)) (t, [])) :
    parse_ast A input = Res.ok t := by
  obtain ⟨n, hn'⟩ := h
  obtain ⟨P, hP, _⟩ := parse_of_tk A hn hn'
  simp [parse_ast, hP, Res.bind]

theorem evaluate_of_parse_ast {F : Type} (A : Arith F) {input : List Char} {t : ASTNode_t F}
    (h : parse_ast A input = Res.ok t) :
    evaluate A input = Res.ok (eval_returned A t) := by
  unfold parse_ast at h
  unfold evaluate
  cases hp : parse A input with
  | ok a =>
    rw [hp] at h
    simp only [Res.bind, Res.ok.injEq] at h
    simp only [Res.bind, h]
  | exit e => rw [hp] at h; exact Res.noConfusion h
  | out_of_fuel => rw [hp] at h; exact Res.noConfusion h

/-- An expression that is a single `power`: no sign before it, no operator
after it. -/
theorem yields_expression_of_power {F : Type} (A : Arith F) (ts ts' : List Token_t)
    (t : ASTNode_t F) (h : Yields (fun n => tk_power A n ts) (t, ts'))
    (h1 : tok_type ts ≠ TOKEN_MINUS) (h2 : tok_type ts ≠ TOKEN_PLUS)
    (h3 : tok_type ts' ≠ TOKEN_MULTIPLY) (h4 : tok_type ts' ≠ TOKEN_DIVIDE)
    (h5 : tok_type ts' ≠ TOKEN_PLUS) (h6 : tok_type ts' ≠ TOKEN_MINUS) :
    Yields (fun n => tk_expression A n ts) (t, ts') :=
  yields_expression A t ts ts' _
    (yields_term A t ts ts' _ (yields_factor_power A ts _ h1 h2 h)
      (yields_term_loop_done A t ts' h3 h4))
    (yields_expression_loop_done A t ts' h5 h6)

/-! ## Exponentiation chains -/

/-- The tokens of "x0 ^ x1 ^ ... ^ xn". -/
theorem tokens_pow_chain (xs : List (List Char)) :
    ∀ x0 : List Char, is_number_literal x0 = true →
      (∀ x ∈ xs, is_number_literal x = true) →
      tokens (pow_chain_input x0 xs)
        = ⟨TOKEN_NUMBER, some x0⟩
          :: xs.flatMap (fun x => [⟨TOKEN_POWER, some ['^']⟩, ⟨TOKEN_NUMBER, some x⟩]) := by
  induction xs with
  | nil =>
    intro x0 h0 _
    have := tokens_number_literal h0 [] (by simp)
    simpa [pow_chain_input, tokens_nil] using this
  | cons x1 xs ih =>
    intro x0 h0 hxs
    have h1 := ih x1 (hxs x1 (by simp)) (fun x hx => hxs x (by simp [hx]))
    have e0 := tokens_number_literal h0 (" ^ ".toList ++ pow_chain_input x1 xs)
      (by simp; decide)
    have e1 : tokens (" ^ ".toList ++ pow_chain_input x1 xs)
        = ⟨TOKEN_POWER, some ['^']⟩ :: tokens (pow_chain_input x1 xs) := by
      show tokens (' ' :: '^' :: ' ' :: pow_chain_input x1 xs) = _
      rw [tokens_cons_whitespace _ (by decide),
        tokens_cons_single _ (by decide) (by decide),
        tokens_cons_whitespace _ (by decide)]
      rfl
    simp only [pow_chain_input, List.append_assoc]
    rw [e0, e1, h1]
    simp

theorem pow_chain_no_nul (xs : List (List Char)) :
    ∀ x0 : List Char, is_number_literal x0 = true →
      (∀ x ∈ xs, is_number_literal x = true) →
      ∀ c ∈ pow_chain_input x0 xs, c ≠ NUL := by
  induction xs with
  | nil =>
    intro x0 h0 _
    exact number_literal_no_nul h0
  | cons x1 xs ih =>
    intro x0 h0 hxs c hc
    simp only [pow_chain_input, List.mem_append] at hc
    rcases hc with (hc | hc) | hc
    · exact number_literal_no_nul h0 c hc
    · have : ∀ d ∈ " ^ ".toList, d ≠ NUL := by decide
      exact this c hc
    · exact ih x1 (hxs x1 (by simp)) (fun x hx => hxs x (by simp [hx])) c hc

theorem yields_pow_chain {F : Type} (A : Arith F) (xs : List (List Char)) :
    ∀ x0 : List Char,
      Yields (fun n => tk_power A n (⟨TOKEN_NUMBER, some x0⟩
          :: xs.flatMap (fun x => [⟨TOKEN_POWER, some ['^']⟩, ⟨TOKEN_NUMBER, some x⟩])))
        (pow_chain_tree A x0 xs, []) := by
  induction xs with
  | nil =>
    intro x0
    exact yields_power_single A _ _ _ (yields_primary_number A _ _ rfl) (by decide)
  | cons x1 xs ih =>
    intro x0
    exact yields_power A _ _ _ _ _ _ (yields_primary_number A ⟨TOKEN_NUMBER, some x0⟩ _ rfl) rfl
      (ih x1)

/-! ## Chains of operators of one level -/

theorem operator_char_cases {o : Char} (h : is_operator_char o = true) :
    o = '+' ∨ o = '-' ∨ o = '*' ∨ o = '/' ∨ o = '^' := by
  simpa [is_operator_char, or_assoc] using h

theorem tokens_cons_operator {o : Char} (h : is_operator_char o = true) (rest : List Char) :
    tokens (o :: rest) = ⟨single_char_type o, some [o]⟩ :: tokens rest := by
  rcases operator_char_cases h with rfl | rfl | rfl | rfl | rfl <;>
    exact tokens_cons_single rest (by decide) (by decide)

/-- The tokens of "x0 op1 x1 op2 ... opn xn". -/
theorem tokens_op_chain (qs : List (Char × List Char)) :
    ∀ x0 : List Char, is_number_literal x0 = true →
      (∀ q ∈ qs, is_operator_char q.1 = true ∧ is_number_literal q.2 = true) →
      tokens (op_chain_input x0 qs) = ⟨TOKEN_NUMBER, some x0⟩ :: op_chain_tokens qs := by
  induction qs with
  | nil =>
    intro x0 h0 _
    have := tokens_number_literal h0 [] (by simp)
    simpa [op_chain_input, op_chain_tokens, tokens_nil] using this
  | cons q qs ih =>
    intro x0 h0 hqs
    obtain ⟨hq1, hq2⟩ := hqs q (by simp)
    have h1 := ih q.2 hq2 (fun x hx => hqs x (by simp [hx]))
    have e0 := tokens_number_literal h0 ([' ', q.1, ' '] ++ op_chain_input q.2 qs)
      (by simp; decide)
    have e1 : tokens ([' ', q.1, ' '] ++ op_chain_input q.2 qs)
        = ⟨single_char_type q.1, some [q.1]⟩ :: tokens (op_chain_input q.2 qs) := by
      show tokens (' ' :: q.1 :: ' ' :: op_chain_input q.2 qs) = _
      rw [tokens_cons_whitespace _ (by decide), tokens_cons_operator hq1,
        tokens_cons_whitespace _ (by decide)]
    simp only [op_chain_input, List.append_assoc]
    rw [e0, e1, h1]
    simp [op_chain_tokens]

theorem op_chain_no_nul (qs : List (Char × List Char)) :
    ∀ x0 : List Char, is_number_literal x0 = true →
      (∀ q ∈ qs, is_operator_char q.1 = true ∧ is_number_literal q.2 = true) →
      ∀ c ∈ op_chain_input x0 qs, c ≠ NUL := by
  induction qs with
  | nil =>
    intro x0 h0 _
    exact number_literal_no_nul h0
  | cons q qs ih =>
    intro x0 h0 hqs c hc
    obtain ⟨hq1, hq2⟩ := hqs q (by simp)
    simp only [op_chain_input, List.mem_append, List.mem_cons, List.mem_singleton,
      List.not_mem_nil, or_false] at hc
    rcases hc with (hc | hc | hc | hc) | hc
    · exact number_literal_no_nul h0 c hc
    · rw [hc]; decide
    · rw [hc]
      rcases operator_char_cases hq1 with h | h | h | h | h <;> rw [h] <;> decide
    · rw [hc]; decide
    · exact ih q.2 hq2 (fun x hx => hqs x (by simp [hx])) c hc

/-- A number followed by no '^' is a `factor`. -/
theorem yields_factor_number {F : Type} (A : Arith F) (x : List Char) (ts : List Token_t)
    (hp : tok_type ts ≠ TOKEN_POWER) :
    Yields (fun n => tk_factor A n (⟨TOKEN_NUMBER, some x⟩ :: ts))
      (ASTNode_t.number (A.atof x), ts) :=
  yields_factor_power A _ _ (by simp [tok_type]) (by simp [tok_type])
    (yields_power_single A _ _ _ (yields_primary_number A ⟨TOKEN_NUMBER, some x⟩ ts rfl) hp)

theorem op_chain_tokens_type_ne (qs : List (Char × List Char)) (ty : TokenType)
    (h : ∀ q ∈ qs, single_char_type q.1 ≠ ty) (he : ty ≠ TOKEN_EOF) :
    tok_type (op_chain_tokens qs) ≠ ty := by
  cases qs with
  | nil => exact fun e => he e.symm
  | cons q qs => exact h q (by simp)

/-- The loop of `parse_term` on a chain of `*` and `/`. -/
theorem yields_term_loop_chain {F : Type} (A : Arith F) (qs : List (Char × List Char)) :
    ∀ left : ASTNode_t F, (∀ q ∈ qs, q.1 = '*' ∨ q.1 = '/') →
      Yields (fun n => tk_term_loop A n left (op_chain_tokens qs)) (left_nested A left qs, []) := by
  induction qs with
  | nil =>
    intro left _
    exact yields_term_loop_done A left [] (by decide) (by decide)
  | cons q qs ih =>
    intro left hqs
    have hq := hqs q (by simp)
    have hrest : ∀ x ∈ qs, x.1 = '*' ∨ x.1 = '/' := fun x hx => hqs x (by simp [hx])
    have hty : single_char_type q.1 = TOKEN_MULTIPLY ∨ single_char_type q.1 = TOKEN_DIVIDE := by
      rcases hq with h | h <;> rw [h]
      · left; rfl
      · right; rfl
    have hnp : tok_type (op_chain_tokens qs) ≠ TOKEN_POWER :=
      op_chain_tokens_type_ne qs _
        (fun x hx => by rcases hrest x hx with h | h <;> rw [h] <;> decide) (by decide)
    exact yields_term_loop_step A left _ ⟨single_char_type q.1, some [q.1]⟩ _ _ _ hty
      (yields_factor_number A q.2 _ hnp) (ih _ hrest)

/-- The loop of `parse_expression` on a chain of `+` and `-`. -/
theorem yields_expression_loop_chain {F : Type} (A : Arith F) (qs : List (Char × List Char)) :
    ∀ left : ASTNode_t F, (∀ q ∈ qs, q.1 = '+' ∨ q.1 = '-') →
      Yields (fun n => tk_expression_loop A n left (op_chain_tokens qs))
        (left_nested A left qs, []) := by
  induction qs with
  | nil =>
    intro left _
    exact yields_expression_loop_done A left [] (by decide) (by decide)
  | cons q qs ih =>
    intro left hqs
    have hq := hqs q (by simp)
    have hrest : ∀ x ∈ qs, x.1 = '+' ∨ x.1 = '-' := fun x hx => hqs x (by simp [hx])
    have hty : single_char_type q.1 = TOKEN_PLUS ∨ single_char_type q.1 = TOKEN_MINUS := by
      rcases hq with h | h <;> rw [h]
      · left; rfl
      · right; rfl
    have hne : ∀ ty, ty ≠ TOKEN_EOF → ty ≠ TOKEN_PLUS → ty ≠ TOKEN_MINUS →
        tok_type (op_chain_tokens qs) ≠ ty := by
      intro ty h1 h2 h3
      refine op_chain_tokens_type_ne qs ty (fun x hx => ?_) h1
      rcases hrest x hx with h | h <;> rw [h]
      · exact fun e => h2 e.symm
      · exact fun e => h3 e.symm
    exact yields_expression_loop_step A left _ ⟨single_char_type q.1, some [q.1]⟩ _ _ _ hty
      (yields_term A _ _ _ _
        (yields_factor_number A q.2 _ (hne _ (by decide) (by decide) (by decide)))
        (yields_term_loop_done A _ _ (hne _ (by decide) (by decide) (by decide))
          (hne _ (by decide) (by decide) (by decide))))
      (ih _ hrest)

/-! ## Concrete inputs -/

/-- The value of `evaluate` on an input, from its tokens and the result of the
routines on them. -/
theorem evaluate_of_tokens {F : Type} (A : Arith F) {input : List Char}
    (hn : ∀ c ∈ input, c ≠ NUL) {ts : List Token_t} (ht : tokens input = ts) {n : Nat}
    {t : ASTNode_t F} (h : tk_expression A n ts = Res.ok (t, [])) :
    evaluate A input = Res.ok (eval_returned A t) :=
  evaluate_of_parse_ast A (parse_ast_of_yields A hn ⟨n, by rw [ht]; exact h⟩)

theorem atof_exact_values :
    atof_exact "1".toList = 1 ∧ atof_exact "2".toList = 2 ∧ atof_exact "3".toList = 3
    ∧ atof_exact "4".toList = 4 ∧ atof_exact "5".toList = 5 ∧ atof_exact "10".toList = 10
    ∧ atof_exact "100".toList = 100 ∧ atof_exact "0".toList = 0 := by
  refine ⟨?_, ?_, ?_, ?_, ?_, ?_, ?_, ?_⟩ <;>
    simp [atof_exact, decimal_value, digit_value, is_digit]

/-! ## Parenthesised expressions -/

theorem parse_of_parse_ast {F : Type} (A : Arith F) {input : List Char} {t : ASTNode_t F}
    (h : parse_ast A input = Res.ok t) : ∃ parser, parse A input = Res.ok (t, parser) := by
  unfold parse_ast at h
  cases hp : parse A input with
  | ok a =>
    rw [hp] at h
    simp only [Res.bind, Res.ok.injEq] at h
    exact ⟨a.2, by rw [← h]⟩
  | exit e => rw [hp] at h; exact Res.noConfusion h
  | out_of_fuel => rw [hp] at h; exact Res.noConfusion h

/-- The tokens of "(" e ")" followed by `rest`. -/
theorem tokens_paren (e rest : List Char) :
    tokens ('(' :: (e ++ ')' :: rest))
      = ⟨TOKEN_LPAREN, some ['(']⟩ :: (tokens e ++ ⟨TOKEN_RPAREN, some [')']⟩ :: tokens rest) := by
  rw [tokens_cons_single _ (by decide) (by decide),
    tokens_append (Or.inr (by simp; decide)),
    tokens_cons_single _ (by decide) (by decide)]
  rfl

/-- An input accepted with the tree `t`, put in parentheses and followed by
the tokens `rest`, is a `primary` with the tree `t`. -/
theorem yields_primary_group {F : Type} (A : Arith F) {e : List Char} {t : ASTNode_t F}
    (hn : ∀ x ∈ e, x ≠ NUL) (ht : t ≠ ASTNode_t.null) (he : parse_ast A e = Res.ok t)
    (rest : List Token_t) :
    Yields (fun n => tk_primary A n (⟨TOKEN_LPAREN, some ['(']⟩
        :: (tokens e ++ ⟨TOKEN_RPAREN, some [')']⟩ :: rest))) (t, rest) := by
  obtain ⟨P, hP⟩ := parse_of_parse_ast A he
  have h1 := tk_of_parse A hn hP ht
  have h2 := (tk_extend A ⟨TOKEN_RPAREN, some [')']⟩ rest rfl (parse_fuel e)).2.2.2.2.2.2
    (tokens e) _ h1
  exact yields_primary_paren A _ ⟨TOKEN_RPAREN, some [')']⟩ _ _ t rfl rfl ⟨_, h2⟩

/-! ## Chains of unary signs -/

theorem tokens_signs (signs : List Char) (hs : ∀ s ∈ signs, s = '+' ∨ s = '-')
    (rest : List Char) :
    tokens (signs ++ rest)
      = signs.map (fun s => (⟨single_char_type s, some [s]⟩ : Token_t)) ++ tokens rest := by
  induction signs with
  | nil => rfl
  | cons c cs ih =>
    have hc := hs c (by simp)
    have e1 : tokens (c :: (cs ++ rest))
        = ⟨single_char_type c, some [c]⟩ :: tokens (cs ++ rest) := by
      rcases hc with h | h <;> rw [h] <;>
        exact tokens_cons_single _ (by decide) (by decide)
    rw [List.cons_append, e1, ih (fun x hx => hs x (by simp [hx]))]
    rfl

theorem tokens_signs_sep (signs w : List Char) (hs : ∀ s ∈ signs, s = '+' ∨ s = '-')
    (hw : ∀ c ∈ w, is_whitespace c = true) (rest : List Char) :
    tokens (signs.flatMap (fun s => s :: w) ++ rest)
      = signs.map (fun s => (⟨single_char_type s, some [s]⟩ : Token_t)) ++ tokens rest := by
  induction signs with
  | nil => rfl
  | cons c cs ih =>
    have hc := hs c (by simp)
    have e1 : ∀ tl : List Char, tokens (c :: tl) = ⟨single_char_type c, some [c]⟩ :: tokens tl := by
      intro tl
      rcases hc with h | h <;> rw [h] <;>
        exact tokens_cons_single _ (by decide) (by decide)
    have e2 : (c :: cs).flatMap (fun s => s :: w) ++ rest
        = c :: (w ++ (cs.flatMap (fun s => s :: w) ++ rest)) := by
      simp
    rw [e2, e1, tokens_of_whitespace w hw, ih (fun x hx => hs x (by simp [hx]))]
    rfl

theorem yields_factor_signs {F : Type} (A : Arith F) (signs : List Char)
    (hs : ∀ s ∈ signs, s = '+' ∨ s = '-') (ts ts' : List Token_t) (t : ASTNode_t F)
    (h : Yields (fun n => tk_factor A n ts) (t, ts')) :
    Yields (fun n => tk_factor A n
        (signs.map (fun s => (⟨single_char_type s, some [s]⟩ : Token_t)) ++ ts))
      (sign_chain_tree signs t, ts') := by
  induction signs with
  | nil => exact h
  | cons c cs ih =>
    have hc : single_char_type c = TOKEN_MINUS ∨ single_char_type c = TOKEN_PLUS := by
      rcases hs c (by simp) with h1 | h1 <;> rw [h1]
      · right; rfl
      · left; rfl
    exact yields_factor_sign A ⟨single_char_type c, some [c]⟩ _ _ _ hc
      (ih (fun x hx => hs x (by simp [hx])))

/-- An expression that is a single `factor` followed by nothing. -/
theorem yields_expression_of_factor {F : Type} (A : Arith F) (ts : List Token_t)
    (t : ASTNode_t F) (h : Yields (fun n => tk_factor A n ts) (t, [])) :
    Yields (fun n => tk_expression A n ts) (t, []) :=
  yields_expression A t ts [] _
    (yields_term A t ts [] _ h (yields_term_loop_done A t [] (by decide) (by decide)))
    (yields_expression_loop_done A t [] (by decide) (by decide))

/-! ## The token sequence printed by `print_tokens` -/

theorem print_tokens_loop_at (fuel : Nat) :
    ∀ (lexer : Lexer_t) (pre suf : List Char), LexAt lexer pre suf →
      (tokens suf).length + 1 ≤ fuel → print_tokens_loop fuel lexer = some (tokens suf) := by
  induction fuel with
  | zero => intro lexer pre suf _ hf; omega
  | succ n ih =>
    intro lexer pre suf h hf
    rcases lexer_next_token_at h with
      ⟨h1, l1, h2, _⟩ | ⟨t, ts, l1, d, pre1, suf1, e1, e2, e3, e4, e5, _, _⟩
    · simp [print_tokens_loop, h2, h1]
    · rw [e1] at hf ⊢
      have := ih l1 pre1 suf1 e3 (by rw [e4]; simpa using hf)
      simp [print_tokens_loop, e2, e5, this, e4]

/-- On an input without NUL, `print_tokens` obtains the tokens `tokens input`
before `TOKEN_EOF`. -/
theorem print_tokens_eq {input : List Char} (hn : ∀ c ∈ input, c ≠ NUL) :
    print_tokens input = some (tokens input) :=
  print_tokens_loop_at _ _ [] input (lexer_init_at hn)
    (Nat.succ_le_succ (tokens_length_le input))

/-! ## Results that depend on the tokens only -/

theorem tk_expression_total {F : Type} (A : Arith F) (input : List Char) :
    tk_expression A (parse_fuel input) (tokens input) ≠ Res.out_of_fuel := by
  intro h
  have hw := (tk_within A (parse_fuel input)).2.2.2.2.2.2 (tokens input) (parse_fuel_ge input)
  rw [h] at hw
  exact hw

/-- Two inputs with the same tokens are parsed alike: the same AST is
returned, or the process exits on both. -/
theorem parse_ast_congr {F : Type} (A : Arith F) {s1 s2 : List Char}
    (h1 : ∀ c ∈ s1, c ≠ NUL) (h2 : ∀ c ∈ s2, c ≠ NUL) (ht : tokens s1 = tokens s2) :
    Res.Rel (fun x y => x = y) (parse_ast A s1) (parse_ast A s2) := by
  cases hr : tk_expression A (parse_fuel s1) (tokens s1) with
  | ok a =>
    have hr1 : tk_expression A (parse_fuel s1) (tokens s1) = Res.ok (a.1, a.2) := hr
    have hr2 : tk_expression A (parse_fuel s1) (tokens s2) = Res.ok (a.1, a.2) := ht ▸ hr
    obtain ⟨P1, e1, _⟩ := parse_of_tk A h1 hr1
    obtain ⟨P2, e2, _⟩ := parse_of_tk A h2 hr2
    simp only [parse_ast, e1, e2, Res.bind, Res.Rel]
  | exit e =>
    obtain ⟨e1, h1'⟩ := parse_exit_of_tk A h1 hr
    obtain ⟨e2, h2'⟩ := parse_exit_of_tk A h2 (ht ▸ hr)
    simp only [parse_ast, h1', h2', Res.bind, Res.Rel]
  | out_of_fuel => exact absurd hr (tk_expression_total A s1)

theorem evaluate_eq_bind {F : Type} (A : Arith F) (input : List Char) :
    evaluate A input = (parse_ast A input).bind fun t => Res.ok (eval_returned A t) := by
  unfold evaluate parse_ast
  cases parse A input <;> rfl

theorem evaluate_congr {F : Type} (A : Arith F) {s1 s2 : List Char}
    (h1 : ∀ c ∈ s1, c ≠ NUL) (h2 : ∀ c ∈ s2, c ≠ NUL) (ht : tokens s1 = tokens s2) :
    Res.Rel (fun x y => x = y) (evaluate A s1) (evaluate A s2) := by
  rw [evaluate_eq_bind, evaluate_eq_bind]
  refine res_rel_bind (parse_ast_congr A h1 h2 ht) (fun a b hab => ?_)
  show eval_returned A a = eval_returned A b
  rw [hab]

/-- On an input without NUL the fuel of `parse` is never used up: `parse`
returns or the process exits. -/
theorem parse_total {F : Type} (A : Arith F) {input : List Char}
    (hn : ∀ c ∈ input, c ≠ NUL) : parse A input ≠ Res.out_of_fuel := by
  intro h
  have h2 := parse_refines A hn
  rw [h] at h2
  unfold tk_parse at h2
  cases hr : tk_expression A (parse_fuel input) (tokens input) with
  | ok a =>
    rw [hr] at h2
    simp only [Res.bind] at h2
    split_ifs at h2 <;> exact h2
  | exit e => rw [hr] at h2; exact h2
  | out_of_fuel => exact tk_expression_total A input hr

/-! ## Invalid tokens are never consumed -/

theorem keeps_error_bind {F : Type} {r : Res (ASTNode_t F × List Token_t)}
    {f : ASTNode_t F × List Token_t → Res (ASTNode_t F × List Token_t)}
    (h : KeepsError r) (hf : ∀ a, HasError a.2 → KeepsError (f a)) :
    KeepsError (r.bind f) := by
  intro b hb
  cases r with
  | ok a => exact hf a (h a rfl) b hb
  | exit e => exact Res.noConfusion hb
  | out_of_fuel => exact Res.noConfusion hb

theorem tk_eat_keeps_error {F : Type} (ts : List Token_t) (e : TokenType)
    {f : List Token_t → Res (ASTNode_t F × List Token_t)} (hts : HasError ts)
    (he : e ≠ TOKEN_ERROR) (hf : ∀ ts1, HasError ts1 → KeepsError (f ts1)) :
    KeepsError ((tk_eat ts e).bind f) := by
  cases ts with
  | nil =>
    obtain ⟨x, hx, _⟩ := hts
    simp at hx
  | cons t ts1 =>
    by_cases hty : t.type = e
    · have h1 : HasError ts1 := by
        obtain ⟨x, hx, hxe⟩ := hts
        rcases List.mem_cons.mp hx with rfl | hx
        · exact absurd (hty ▸ hxe) he
        · exact ⟨x, hx, hxe⟩
      simpa [tk_eat, tok_type, hty, Res.bind] using hf ts1 h1
    · intro a ha
      simp [tk_eat, tok_type, hty, Res.bind] at ha

/-- Every routine that is called with an `Invalid` token ahead and returns,
returns with an `Invalid` token ahead. -/
theorem tk_keeps_error {F : Type} (A : Arith F) : ∀ fuel : Nat,
    (∀ ts, HasError ts → KeepsError (tk_primary A fuel ts))
    ∧ (∀ ts, HasError ts → KeepsError (tk_power A fuel ts))
    ∧ (∀ ts, HasError ts → KeepsError (tk_factor A fuel ts))
    ∧ (∀ left ts, HasError ts → KeepsError (tk_term_loop A fuel left ts))
    ∧ (∀ ts, HasError ts → KeepsError (tk_term A fuel ts))
    ∧ (∀ left ts, HasError ts → KeepsError (tk_expression_loop A fuel left ts))
    ∧ (∀ ts, HasError ts → KeepsError (tk_expression A fuel ts)) := by
  intro fuel
  have hret : ∀ (t : ASTNode_t F) (ts : List Token_t), HasError ts →
      KeepsError (Res.ok (t, ts)) := by
    intro t ts h a ha
    simp only [Res.ok.injEq] at ha
    rw [← ha]
    exact h
  induction fuel with
  | zero =>
    refine ⟨?_, ?_, ?_, ?_, ?_, ?_, ?_⟩ <;> intros <;> intro a ha <;>
      simp [tk_primary, tk_power, tk_factor, tk_term_loop, tk_term, tk_expression_loop,
        tk_expression] at ha
  | succ n ih =>
    obtain ⟨ihprim, ihpow, ihfac, ihtl, ihterm, ihel, ihexpr⟩ := ih
    refine ⟨?_, ?_, ?_, ?_, ?_, ?_, ?_⟩
    · intro ts h
      rw [tk_primary]
      split_ifs
      · exact tk_eat_keeps_error ts _ h (by decide) (fun ts1 h1 => hret _ _ h1)
      · refine tk_eat_keeps_error ts _ h (by decide) (fun ts1 h1 => ?_)
        refine keeps_error_bind (ihexpr ts1 h1) (fun a ha => ?_)
        exact tk_eat_keeps_error a.2 _ ha (by decide) (fun ts3 h3 => hret _ _ h3)
      · exact hret _ _ h
    · intro ts h
      rw [tk_power]
      refine keeps_error_bind (ihprim ts h) (fun l hl => ?_)
      split_ifs
      · refine tk_eat_keeps_error l.2 _ hl (by decide) (fun ts2 h2 => ?_)
        exact keeps_error_bind (ihpow ts2 h2) (fun a ha => hret _ _ ha)
      · exact hret _ _ hl
    · intro ts h
      rw [tk_factor]
      split_ifs
      · refine tk_eat_keeps_error ts _ h (by decide) (fun ts1 h1 => ?_)
        exact keeps_error_bind (ihfac ts1 h1) (fun a ha => hret _ _ ha)
      · refine tk_eat_keeps_error ts _ h (by decide) (fun ts1 h1 => ?_)
        exact keeps_error_bind (ihfac ts1 h1) (fun a ha => hret _ _ ha)
      · exact ihpow ts h
    · intro left ts h
      rw [tk_term_loop]
      split_ifs with h1
      · have hne : tok_type ts ≠ TOKEN_ERROR := by
          rcases h1 with h1 | h1 <;> rw [h1] <;> decide
        refine tk_eat_keeps_error ts _ h hne (fun ts1 h1 => ?_)
        exact keeps_error_bind (ihfac ts1 h1) (fun a ha => ihtl _ a.2 ha)
      · exact hret _ _ h
    · intro ts h
      rw [tk_term]
      exact keeps_error_bind (ihfac ts h) (fun a ha => ihtl _ a.2 ha)
    · intro left ts h
      rw [tk_expression_loop]
      split_ifs with h1
      · have hne : tok_type ts ≠ TOKEN_ERROR := by
          rcases h1 with h1 | h1 <;> rw [h1] <;> decide
        refine tk_eat_keeps_error ts _ h hne (fun ts1 h1 => ?_)
        exact keeps_error_bind (ihterm ts1 h1) (fun a ha => ihel _ a.2 ha)
      · exact hret _ _ h
    · intro ts h
      rw [tk_expression]
      exact keeps_error_bind (ihterm ts h) (fun a ha => ihel _ a.2 ha)

/-- What `parse` can return: an AST with the lookahead at `TOKEN_EOF`, or
`NULL` after the message "Unexpected token after expression". -/
theorem parse_ok_cases {F : Type} (A : Arith F) {input : List Char} {ast : ASTNode_t F}
    {parser : Parser_t} (h : parse A input = Res.ok (ast, parser)) :
    parser.curr_token.type = TOKEN_EOF
    ∨ (ast = ASTNode_t.null ∧ ∃ tok,
        Diag.parser_err ParseMsg.unexpected_token_after_expression tok ∈ parser.stderr) := by
  unfold parse parser_parse at h
  cases hi : parser_init (lexer_init input) with
  | ok P0 =>
    rw [hi] at h
    simp only [Res.bind] at h
    cases he : parse_expression A (parse_fuel input) P0 with
    | ok r =>
      rw [he] at h
      simp only at h
      split_ifs at h with hc
      · right
        simp only [Res.ok.injEq, Prod.mk.injEq] at h
        refine ⟨h.1.symm, r.2.curr_token, ?_⟩
        rw [← h.2]
        simp [parser_error]
      · left
        simp only [Res.ok.injEq] at h
        rw [h] at hc
        simpa using hc
    | exit e => rw [he] at h; exact Res.noConfusion h
    | out_of_fuel => rw [he] at h; exact Res.noConfusion h
  | exit e => rw [hi] at h; exact Res.noConfusion h
  | out_of_fuel => rw [hi] at h; exact Res.noConfusion h

/-! ## One call of `lexer_next_token`, case by case -/

theorem dropWhile_whitespace_head (suf : List Char) :
    ∀ d ds, suf.dropWhile is_whitespace = d :: ds → is_whitespace d = false := by
  intro d ds hd
  have := List.head_dropWhile_not is_whitespace suf (by simp [hd])
  simpa [hd] using this

/-- A call of `lexer_next_token` is one pass of its loop from the state after
the whitespace ahead. -/
theorem lexer_next_token_skip {lexer : Lexer_t} {pre suf : List Char} (h : LexAt lexer pre suf) :
    ∃ lexer0 n, lexer_next_token lexer = lexer_next_token_loop (n + 1) lexer0
      ∧ LexAt lexer0 (pre ++ suf.takeWhile is_whitespace) (suf.dropWhile is_whitespace) := by
  cases suf with
  | nil => exact ⟨lexer, _, rfl, by simpa using h⟩
  | cons c cs =>
    by_cases hc : is_whitespace c = true
    · have hcc : lexer.curr_char = c := by simpa using h.curr_eq
      have hne : c ≠ NUL := h.no_nul c (by simp)
      refine ⟨skip_whitespace lexer, lexer.length - lexer.pos, ?_, skip_whitespace_at h⟩
      simp [lexer_next_token, lexer_next_token_loop, hcc, hne, hc]
    · refine ⟨lexer, _, rfl, ?_⟩
      simpa [List.takeWhile_cons, List.dropWhile_cons, hc] using h

/-- One pass of the loop of `lexer_next_token` from a state whose current
character is not whitespace: end of input, a number, or a single character. -/
theorem lexer_next_token_loop_spec {lexer : Lexer_t} {pre suf : List Char}
    (h : LexAt lexer pre suf)
    (hw : ∀ c cs, suf = c :: cs → is_whitespace c = false) (n : Nat) :
    (suf = [] ∧ lexer_next_token_loop (n + 1) lexer = some (⟨TOKEN_EOF, none⟩, lexer, []))
    ∨ (starts_number suf = true ∧ ∃ lexer1,
        lexer_next_token_loop (n + 1) lexer
          = some (⟨TOKEN_NUMBER, some (num_run false suf)⟩, lexer1, [])
        ∧ LexAt lexer1 (pre ++ num_run false suf) (suf.drop (num_run false suf).length))
    ∨ (∃ c cs, suf = c :: cs ∧ starts_number suf = false
        ∧ lexer_next_token_loop (n + 1) lexer
          = some (⟨single_char_type c, some [c]⟩, advance lexer,
              if single_char_type c = TOKEN_ERROR then
                [Diag.lexical (pre.length + 1) LexMsg.unknown_character (cs.headD NUL)]
              else [])
        ∧ LexAt (advance lexer) (pre ++ [c]) cs) := by
  cases suf with
  | nil =>
    left
    have hc : lexer.curr_char = NUL := by simpa using h.curr_eq
    exact ⟨rfl, by simp [lexer_next_token_loop, hc, create_token]⟩
  | cons c cs =>
    right
    have hc : lexer.curr_char = c := by simpa using h.curr_eq
    have hne : c ≠ NUL := h.no_nul c (by simp)
    have hws : is_whitespace c = false := hw c cs rfl
    have hcn : lexer.curr_char ≠ NUL := hc ▸ hne
    by_cases hs : starts_number (c :: cs) = true
    · left
      obtain ⟨l1, hr, hl1⟩ := read_number_at h hs
      refine ⟨hs, l1, ?_, hl1⟩
      by_cases hdig : is_digit c = true
      · simp [lexer_next_token_loop, hc, hne, hws, hdig, hr, create_token]
      · have hs' := hs
        simp only [starts_number, hdig, Bool.false_or, Bool.and_eq_true,
          decide_eq_true_eq] at hs'
        have hlt : lexer.pos + 1 < lexer.length := by
          rw [h.pos_eq, h.length_eq]
          cases cs with
          | nil =>
            exfalso
            have := hs'.2
            revert this
            simp
            decide
          | cons d ds => simp
        have hcond : lexer.curr_char = '.' ∧ lexer.pos + 1 < lexer.length
            ∧ is_digit (charAt lexer.input (lexer.pos + 1)) = true :=
          ⟨hc.trans hs'.1, hlt, by rw [charAt_next h]; exact hs'.2⟩
        rw [lexer_next_token_loop, if_pos hcn, hc, if_neg (by simp [hws]),
          if_neg (by simp [hdig]), ← hc, if_pos hcond, hr]
        simp [create_token, hc]
    · right
      have hs1 : starts_number (c :: cs) = false := by simpa using hs
      have hdig : is_digit c = false := by
        cases hd : is_digit c with
        | false => rfl
        | true => simp [starts_number, hd] at hs1
      have hdot : ¬ (lexer.curr_char = '.' ∧ lexer.pos + 1 < lexer.length
          ∧ is_digit (charAt lexer.input (lexer.pos + 1)) = true) := by
        rintro ⟨h1, _, h3⟩
        rw [charAt_next h] at h3
        rw [hc] at h1
        simp only [starts_number, hdig, Bool.false_or, Bool.and_eq_false_iff,
          decide_eq_false_iff_not] at hs1
        rcases hs1 with hs1 | hs1
        · exact hs1 h1
        · rw [h3] at hs1
          exact Bool.noConfusion hs1
      have hadv := advance_at h
      have herr : lexer_error (advance lexer) LexMsg.unknown_character
          = Diag.lexical (pre.length + 1) LexMsg.unknown_character (cs.headD NUL) := by
        unfold lexer_error
        rw [hadv.pos_eq, hadv.curr_eq]
        simp
      refine ⟨c, cs, rfl, hs1, ?_, hadv⟩
      rw [lexer_next_token_loop, if_pos hcn, if_neg (by simp [hc, hws]),
        if_neg (by simp [hc, hdig]), if_neg hdot, lexer_single_char_eq, hc, herr]

/-- When only whitespace, or nothing, is ahead, `lexer_next_token` returns
`TOKEN_EOF` without a value, prints nothing and stops at the end. -/
theorem lexer_next_token_eof {lexer : Lexer_t} {pre suf : List Char} (h : LexAt lexer pre suf)
    (hs : suf.dropWhile is_whitespace = []) :
    ∃ lexer1, lexer_next_token lexer = some (⟨TOKEN_EOF, none⟩, lexer1, [])
      ∧ LexAt lexer1 (pre ++ suf) [] := by
  obtain ⟨l0, n, e0, h0⟩ := lexer_next_token_skip h
  have hpre : suf.takeWhile is_whitespace = suf := by
    have := List.takeWhile_append_dropWhile is_whitespace suf
    rw [hs, List.append_nil] at this
    exact this
  rw [hs, hpre] at h0
  rcases lexer_next_token_loop_spec h0 (by simp) n with
    ⟨_, e1⟩ | ⟨e1, _⟩ | ⟨c, cs, e1, _⟩
  · exact ⟨l0, by rw [e0, e1], h0⟩
  · simp [starts_number] at e1
  · simp at e1

/-- When a number starts after the whitespace ahead, `lexer_next_token`
returns it as a `TOKEN_NUMBER`, prints nothing and stops just after it. -/
theorem lexer_next_token_number {lexer : Lexer_t} {pre suf : List Char}
    (h : LexAt lexer pre suf) (hs : starts_number (suf.dropWhile is_whitespace) = true) :
    ∃ lexer1, lexer_next_token lexer
        = some (⟨TOKEN_NUMBER, some (num_run false (suf.dropWhile is_whitespace))⟩, lexer1, [])
      ∧ LexAt lexer1
          (pre ++ suf.takeWhile is_whitespace ++ num_run false (suf.dropWhile is_whitespace))
          ((suf.dropWhile is_whitespace).drop
            (num_run false (suf.dropWhile is_whitespace)).length) := by
  obtain ⟨l0, n, e0, h0⟩ := lexer_next_token_skip h
  rcases lexer_next_token_loop_spec h0 (dropWhile_whitespace_head suf) n with
    ⟨e1, _⟩ | ⟨_, l1, e1, e2⟩ | ⟨c, cs, _, e1, _⟩
  · rw [e1] at hs
    simp [starts_number] at hs
  · exact ⟨l1, by rw [e0, e1], e2⟩
  · rw [e1] at hs
    exact Bool.noConfusion hs

/-- When the first character `c` after the whitespace ahead starts no number,
`lexer_next_token` returns the token of that one character and stops just
after it; for an `Invalid` token it prints one line, with the offset and the
character after `c`. -/
theorem lexer_next_token_single {lexer : Lexer_t} {pre suf cs : List Char} {c : Char}
    (h : LexAt lexer pre suf) (hs : suf.dropWhile is_whitespace = c :: cs)
    (hn : starts_number (c :: cs) = false) :
    ∃ lexer1, lexer_next_token lexer
        = some (⟨single_char_type c, some [c]⟩, lexer1,
            if single_char_type c = TOKEN_ERROR then
              [Diag.lexical (pre.length + (suf.takeWhile is_whitespace).length + 1)
                LexMsg.unknown_character (cs.headD NUL)]
            else [])
      ∧ LexAt lexer1 (pre ++ suf.takeWhile is_whitespace ++ [c]) cs := by
  obtain ⟨l0, n, e0, h0⟩ := lexer_next_token_skip h
  rcases lexer_next_token_loop_spec h0 (dropWhile_whitespace_head suf) n with
    ⟨e1, _⟩ | ⟨e1, _⟩ | ⟨c', cs', e1, _, e2, e3⟩
  · rw [hs] at e1
    simp at e1
  · rw [hs, hn] at e1
    exact Bool.noConfusion e1
  · rw [hs] at e1
    simp only [List.cons.injEq] at e1
    obtain ⟨rfl, rfl⟩ := e1
    refine ⟨advance l0, ?_, e3⟩
    rw [e0, e2]
    simp

/-! ## The end of the input -/

/-- A pass of the loop that returns `TOKEN_EOF` returns it without value,
prints nothing and leaves a state whose current character is NUL. -/
theorem lexer_next_token_loop_eof (n : Nat) :
    ∀ (lexer lexer1 : Lexer_t) (tok : Token_t) (d : List Diag),
      lexer_next_token_loop n lexer = some (tok, lexer1, d) → tok.type = TOKEN_EOF →
      tok = ⟨TOKEN_EOF, none⟩ ∧ d = [] ∧ lexer1.curr_char = NUL := by
  induction n with
  | zero =>
    intro lexer lexer1 tok d h _
    simp [lexer_next_token_loop] at h
  | succ n ih =>
    intro lexer lexer1 tok d h ht
    rw [lexer_next_token_loop] at h
    split_ifs at h with h1 h2 h3 h4
    · exact ih _ _ _ _ h ht
    · cases hr : read_number lexer with
      | mk l1 num =>
        rw [hr] at h
        cases num with
        | some x =>
          simp only [Option.some.injEq, Prod.mk.injEq] at h
          rw [← h.1] at ht
          exact absurd ht (by simp [create_token])
        | none =>
          simp only [Option.some.injEq, Prod.mk.injEq] at h
          rw [← h.1] at ht
          exact absurd ht (by simp [create_single_char_token, create_token])
    · cases hr : read_number lexer with
      | mk l1 num =>
        rw [hr] at h
        cases num with
        | some x =>
          simp only [Option.some.injEq, Prod.mk.injEq] at h
          rw [← h.1] at ht
          exact absurd ht (by simp [create_token])
        | none =>
          simp only [lexer_single_char_eq, Option.some.injEq, Prod.mk.injEq] at h
          rw [← h.1] at ht
          exact absurd ht (single_char_type_ne_EOF _)
    · simp only [lexer_single_char_eq, Option.some.injEq, Prod.mk.injEq] at h
      rw [← h.1] at ht
      exact absurd ht (single_char_type_ne_EOF _)
    · simp only [Option.some.injEq, Prod.mk.injEq] at h
      obtain ⟨e1, e2, e3⟩ := h
      refine ⟨by rw [← e1]; rfl, e3.symm, ?_⟩
      rw [← e2]
      simpa using h1

/-- From a state whose current character is NUL every call returns
`TOKEN_EOF` and leaves the state as it is. -/
theorem lexer_nth_call_at_end {lexer : Lexer_t} (h : lexer.curr_char = NUL) :
    ∀ n : Nat, lexer_nth_call n lexer = some (⟨TOKEN_EOF, none⟩, lexer, []) := by
  have h0 : lexer_next_token lexer = some (⟨TOKEN_EOF, none⟩, lexer, []) := by
    simp [lexer_next_token, lexer_next_token_loop, h, create_token]
  intro n
  induction n with
  | zero => exact h0
  | succ n ih => simp [lexer_nth_call, h0, ih]

/-! ## Numbers -/

theorem num_run_valid (s : List Char) :
    ∀ dec : Bool, (num_run dec s).all is_num_char = true
      ∧ (num_run dec s).count '.' ≤ (if dec = true then 0 else 1) := by
  induction s with
  | nil => intro dec; simp [num_run]
  | cons c cs ih =>
    intro dec
    rw [num_run_cons]
    by_cases h1 : is_digit c = true
    · have hcd : c ≠ '.' := by
        intro hc
        subst hc
        revert h1
        decide
      obtain ⟨e1, e2⟩ := ih dec
      rw [if_pos h1]
      refine ⟨by simp [e1, is_num_char, h1], ?_⟩
      rw [List.count_cons_of_ne (Ne.symm hcd)]
      exact e2
    · rw [if_neg h1]
      by_cases h2 : c = '.' ∧ dec = false
      · obtain ⟨e1, e2⟩ := ih true
        obtain ⟨hc, hd⟩ := h2
        subst hc
        subst hd
        rw [if_pos ⟨rfl, rfl⟩]
        refine ⟨by simp [e1, is_num_char], ?_⟩
        rw [List.count_cons_self]
        simp at e2 ⊢
        exact e2
      · rw [if_neg h2]
        simp

theorem num_run_has_digit {s : List Char} (h : starts_number s = true) :
    (num_run false s).any is_digit = true := by
  cases s with
  | nil => simp [starts_number] at h
  | cons c cs =>
    by_cases hdig : is_digit c = true
    · simp [num_run, hdig]
    · simp only [starts_number, hdig, Bool.false_or, Bool.and_eq_true, decide_eq_true_eq] at h
      obtain ⟨hc, hd⟩ := h
      subst hc
      cases cs with
      | nil =>
        exfalso
        revert hd
        simp
        decide
      | cons d ds =>
        simp only [List.headD_cons] at hd
        have hdd : is_digit '.' = false := by decide
        simp [num_run, hdd, hd]

theorem num_run_is_literal {s : List Char} (h : starts_number s = true) :
    is_number_literal (num_run false s) = true := by
  obtain ⟨e1, e2⟩ := num_run_valid s false
  simp only [is_number_literal, Bool.and_eq_true, decide_eq_true_eq]
  exact ⟨⟨e1, by simpa using e2⟩, num_run_has_digit h⟩

/-- No run at the head of `s` is longer than `num_run`. -/
theorem num_run_longest (s : List Char) :
    ∀ (dec : Bool) (y : List Char), y <+: s → y.all is_num_char = true →
      y.count '.' ≤ (if dec = true then 0 else 1) → y.length ≤ (num_run dec s).length := by
  induction s with
  | nil =>
    intro dec y hy _ _
    simp [List.prefix_nil.mp hy]
  | cons c cs ih =>
    intro dec y hy hall hcount
    cases y with
    | nil => simp
    | cons d ds =>
      obtain ⟨hdc, hds⟩ := List.cons_prefix_cons.mp hy
      subst hdc
      simp only [List.all_cons, Bool.and_eq_true] at hall
      rw [num_run_cons]
      by_cases hdig : is_digit d = true
      · have hcd : d ≠ '.' := by
          intro hc
          subst hc
          revert hdig
          decide
        rw [List.count_cons_of_ne (Ne.symm hcd)] at hcount
        rw [if_pos hdig]
        simpa using ih dec ds hds hall.2 hcount
      · have hcd : d = '.' := by
          simpa [is_num_char, hdig] using hall.1
        subst hcd
        rw [List.count_cons_self] at hcount
        have hdec : dec = false := by
          cases dec with
          | false => rfl
          | true => simp at hcount
        subst hdec
        rw [if_neg hdig, if_pos ⟨rfl, rfl⟩]
        have hcount' : ds.count '.' ≤ (if true = true then 0 else 1) := by
          simp at hcount ⊢
          omega
        simpa using ih true ds hds hall.2 hcount'

theorem single_char_type_ne_NUMBER (c : Char) : single_char_type c ≠ TOKEN_NUMBER := by
  unfold single_char_type
  split_ifs <;> simp

/-! ## Single characters -/

theorem single_char_type_table (c : Char) :
    (c = '+' ∧ single_char_type c = TOKEN_PLUS)
    ∨ (c = '-' ∧ single_char_type c = TOKEN_MINUS)
    ∨ (c = '*' ∧ single_char_type c = TOKEN_MULTIPLY)
    ∨ (c = '/' ∧ single_char_type c = TOKEN_DIVIDE)
    ∨ (c = '^' ∧ single_char_type c = TOKEN_POWER)
    ∨ (c = '(' ∧ single_char_type c = TOKEN_LPAREN)
    ∨ (c = ')' ∧ single_char_type c = TOKEN_RPAREN)
    ∨ (c ∉ "+-*/^()".toList ∧ single_char_type c = TOKEN_ERROR) := by
  by_cases h1 : c = '+'
  · exact Or.inl ⟨h1, by rw [h1]; rfl⟩
  by_cases h2 : c = '-'
  · exact Or.inr (Or.inl ⟨h2, by rw [h2]; rfl⟩)
  by_cases h3 : c = '*'
  · exact Or.inr (Or.inr (Or.inl ⟨h3, by rw [h3]; rfl⟩))
  by_cases h4 : c = '/'
  · exact Or.inr (Or.inr (Or.inr (Or.inl ⟨h4, by rw [h4]; rfl⟩)))
  by_cases h5 : c = '^'
  · exact Or.inr (Or.inr (Or.inr (Or.inr (Or.inl ⟨h5, by rw [h5]; rfl⟩))))
  by_cases h6 : c = '('
  · exact Or.inr (Or.inr (Or.inr (Or.inr (Or.inr (Or.inl ⟨h6, by rw [h6]; rfl⟩)))))
  by_cases h7 : c = ')'
  · exact Or.inr (Or.inr (Or.inr (Or.inr (Or.inr (Or.inr (Or.inl ⟨h7, by rw [h7]; rfl⟩))))))
  · refine Or.inr (Or.inr (Or.inr (Or.inr (Or.inr (Or.inr (Or.inr ⟨?_, ?_⟩))))))
    · simp [h1, h2, h3, h4, h5, h6, h7]
    · simp [single_char_type, h1, h2, h3, h4, h5, h6, h7]

theorem starts_number_of_symbol {c : Char} (cs : List Char) (h : c ∈ "+-*/^()".toList) :
    starts_number (c :: cs) = false := by
  have h1 : ∀ x ∈ "+-*/^()".toList, is_digit x = false ∧ x ≠ '.' := by decide
  obtain ⟨e1, e2⟩ := h1 c h
  simp [starts_number, e1, e2]

/-! ## The invariant of the lexer state -/

theorem lexer_invariant_of_at {lexer : Lexer_t} {pre suf : List Char}
    (h : LexAt lexer pre suf) : lexer_invariant lexer := by
  refine ⟨by rw [h.pos_eq, h.length_eq]; omega, ?_, ?_⟩
  · cases suf with
    | nil =>
      have hc : lexer.curr_char = NUL := by simpa using h.curr_eq
      simp [hc, h.pos_eq, h.length_eq]
    | cons c cs =>
      have hc : lexer.curr_char = c := by simpa using h.curr_eq
      have hne : c ≠ NUL := h.no_nul c (by simp)
      simp [hc, hne, h.pos_eq, h.length_eq]
  · intro _
    rw [h.curr_eq, h.input_eq, h.pos_eq, charAt,
      List.getD_append_right _ _ _ _ (Nat.le_refl _)]
    cases suf <;> simp

theorem read_number_at_any {lexer : Lexer_t} {pre suf : List Char} (h : LexAt lexer pre suf) :
    ∃ pre1 suf1, LexAt (read_number lexer).1 pre1 suf1 ∧ pre1 ++ suf1 = pre ++ suf := by
  obtain ⟨l1, h1, h2⟩ := read_number_loop_at suf pre lexer (lexer.length - lexer.pos + 2) 0 false h
    (by rw [h.length_eq, h.pos_eq]; omega)
  have hin : l1.input = pre ++ suf := by
    have := h2.input_eq
    rw [List.append_assoc, num_run_append_drop] at this
    exact this
  have hlen : l1.length = pre.length + suf.length := by
    have e := h2.length_eq
    have e2 := congrArg List.length (num_run_append_drop suf false)
    simp only [List.length_append] at e e2
    omega
  unfold read_number
  rw [h1]
  simp only
  split_ifs
  · refine ⟨pre, suf, ⟨hin, h.pos_eq, hlen, ?_, h.no_nul⟩, rfl⟩
    show charAt l1.input lexer.pos = suf.headD NUL
    rw [hin, h.pos_eq, charAt, List.getD_append_right _ _ _ _ (Nat.le_refl _)]
    cases suf <;> simp
  · exact ⟨_, _, h2, by rw [List.append_assoc, num_run_append_drop]⟩

/-- Every call of `lexer_next_token` from a state of the invariant returns,
and leaves a state of the invariant on the same input. -/
theorem lexer_nth_call_at (n : Nat) :
    ∀ (lexer : Lexer_t) (pre suf : List Char), LexAt lexer pre suf →
      ∃ tok lexer1 d pre1 suf1, lexer_nth_call n lexer = some (tok, lexer1, d)
        ∧ LexAt lexer1 pre1 suf1 ∧ pre1 ++ suf1 = pre ++ suf := by
  induction n with
  | zero =>
    intro lexer pre suf h
    rcases lexer_next_token_at h with
      ⟨_, l1, e1, e2⟩ | ⟨t, ts, l1, d, pre1, suf1, _, e2, e3, _, _, _, e7⟩
    · exact ⟨_, l1, [], _, _, e1, e2, by simp⟩
    · exact ⟨t, l1, d, pre1, suf1, e2, e3, e7⟩
  | succ n ih =>
    intro lexer pre suf h
    rcases lexer_next_token_at h with
      ⟨_, l1, e1, e2⟩ | ⟨t, ts, l1, d, pre1, suf1, _, e2, e3, _, _, _, e7⟩
    · obtain ⟨tok, l2, d2, pre2, suf2, f1, f2, f3⟩ := ih l1 _ _ e2
      exact ⟨tok, l2, d2, pre2, suf2, by simp [lexer_nth_call, e1, f1], f2, by simpa using f3⟩
    · obtain ⟨tok, l2, d2, pre2, suf2, f1, f2, f3⟩ := ih l1 _ _ e3
      exact ⟨tok, l2, d2, pre2, suf2, by simp [lexer_nth_call, e2, f1], f2, by rw [f3, e7]⟩

/-! ## The operators stored in the tree -/

theorem res_all_bind {α β : Type} {Q' : α → Prop} {Q : β → Prop} {r : Res α}
    {f : α → Res β} (h : Res.All Q' r) (hf : ∀ a, Q' a → Res.All Q (f a)) :
    Res.All Q (r.bind f) := by
  intro b hb
  cases r with
  | ok a => exact hf a (h a rfl) b hb
  | exit e => exact Res.noConfusion hb
  | out_of_fuel => exact Res.noConfusion hb

theorem res_all_ok {α : Type} {Q : α → Prop} {a : α} (h : Q a) : Res.All Q (Res.ok a) := by
  intro b hb
  simp only [Res.ok.injEq] at hb
  rw [← hb]
  exact h

theorem res_all_true {α : Type} (r : Res α) : Res.All (fun _ => True) r :=
  fun _ _ => trivial

/-- Every routine of the parser returns a tree with valid operators. -/
theorem parser_valid_operators {F : Type} (A : Arith F) : ∀ fuel : Nat,
    (∀ P, Res.All (fun a => valid_operators a.1) (parse_primary A fuel P))
    ∧ (∀ P, Res.All (fun a => valid_operators a.1) (parser_power A fuel P))
    ∧ (∀ P, Res.All (fun a => valid_operators a.1) (parser_factor A fuel P))
    ∧ (∀ left P, valid_operators left →
        Res.All (fun a => valid_operators a.1) (parse_term_loop A fuel left P))
    ∧ (∀ P, Res.All (fun a => valid_operators a.1) (parse_term A fuel P))
    ∧ (∀ left P, valid_operators left →
        Res.All (fun a => valid_operators a.1) (parse_expression_loop A fuel left P))
    ∧ (∀ P, Res.All (fun a => valid_operators a.1) (parse_expression A fuel P)) := by
  intro fuel
  induction fuel with
  | zero =>
    refine ⟨?_, ?_, ?_, ?_, ?_, ?_, ?_⟩ <;> intros <;> intro a ha <;>
      simp [parse_primary, parser_power, parser_factor, parse_term_loop, parse_term,
        parse_expression_loop, parse_expression] at ha
  | succ n ih =>
    obtain ⟨ihprim, ihpow, ihfac, ihtl, ihterm, ihel, ihexpr⟩ := ih
    refine ⟨?_, ?_, ?_, ?_, ?_, ?_, ?_⟩
    · intro P
      rw [parse_primary]
      split_ifs
      · exact res_all_bind (res_all_true _) (fun a _ => res_all_ok trivial)
      · refine res_all_bind (res_all_true _) (fun a _ => ?_)
        refine res_all_bind (ihexpr a) (fun r hr => ?_)
        exact res_all_bind (res_all_true _) (fun b _ => res_all_ok hr)
      · exact res_all_ok trivial
    · intro P
      rw [parser_power]
      refine res_all_bind (ihprim P) (fun l hl => ?_)
      split_ifs with h1
      · refine res_all_bind (res_all_true _) (fun a _ => ?_)
        refine res_all_bind (ihpow a) (fun r hr => res_all_ok ?_)
        exact ⟨Or.inr (Or.inr (Or.inr (Or.inr h1))), hl, hr⟩
      · exact res_all_ok hl
    · intro P
      rw [parser_factor]
      split_ifs
      · refine res_all_bind (res_all_true _) (fun a _ => ?_)
        exact res_all_bind (ihfac a) (fun r hr => res_all_ok ⟨Or.inr rfl, hr⟩)
      · refine res_all_bind (res_all_true _) (fun a _ => ?_)
        exact res_all_bind (ihfac a) (fun r hr => res_all_ok ⟨Or.inl rfl, hr⟩)
      · exact ihpow P
    · intro left P hleft
      rw [parse_term_loop]
      split_ifs with h1
      · refine res_all_bind (res_all_true _) (fun a _ => ?_)
        refine res_all_bind (ihfac a) (fun r hr => ?_)
        refine ihtl _ _ ⟨?_, hleft, hr⟩
        rcases h1 with h1 | h1
        · exact Or.inr (Or.inr (Or.inl h1))
        · exact Or.inr (Or.inr (Or.inr (Or.inl h1)))
      · exact res_all_ok hleft
    · intro P
      rw [parse_term]
      exact res_all_bind (ihfac P) (fun l hl => ihtl _ _ hl)
    · intro left P hleft
      rw [parse_expression_loop]
      split_ifs with h1
      · refine res_all_bind (res_all_true _) (fun a _ => ?_)
        refine res_all_bind (ihterm a) (fun r hr => ?_)
        refine ihel _ _ ⟨?_, hleft, hr⟩
        rcases h1 with h1 | h1
        · exact Or.inl h1
        · exact Or.inr (Or.inl h1)
      · exact res_all_ok hleft
    · intro P
      rw [parse_expression]
      exact res_all_bind (ihterm P) (fun l hl => ihel _ _ hl)

theorem parse_valid_operators {F : Type} (A : Arith F) (input : List Char) :
    Res.All (fun a => valid_operators a.1) (parse A input) := by
  unfold parse parser_parse
  refine res_all_bind (res_all_true _) (fun P _ => ?_)
  refine res_all_bind ((parser_valid_operators A _).2.2.2.2.2.2 P) (fun r hr => ?_)
  split_ifs
  · exact res_all_ok trivial
  · exact res_all_ok hr

theorem ast_eval_known_operators {F : Type} (A : Arith F) (t : ASTNode_t F)
    (h : valid_operators t) :
    Diag.unknown_binary_operator ∉ (ast_eval A t).2
      ∧ Diag.unknown_unary_operator ∉ (ast_eval A t).2 := by
  induction t with
  | null => simp [ast_eval]
  | number v => simp [ast_eval]
  | binary_op op l r ihl ihr =>
    obtain ⟨hop, hl, hr⟩ := h
    obtain ⟨l1, l2⟩ := ihl hl
    obtain ⟨r1, r2⟩ := ihr hr
    rcases hop with rfl | rfl | rfl | rfl | rfl
    · simp [ast_eval, l1, l2, r1, r2]
    · simp [ast_eval, l1, l2, r1, r2]
    · simp [ast_eval, l1, l2, r1, r2]
    · rw [ast_eval]
      split_ifs <;> simp [l1, l2, r1, r2]
    · simp [ast_eval, l1, l2, r1, r2]
  | unary_op op x ih =>
    obtain ⟨hop, hx⟩ := h
    obtain ⟨x1, x2⟩ := ih hx
    rcases hop with rfl | rfl <;> simp [ast_eval, x1, x2]

/-! ## The size of the tree -/

theorem ast_depth_le_nodes {F : Type} (t : ASTNode_t F) : ast_depth t ≤ ast_nodes t := by
  induction t with
  | null => simp [ast_depth, ast_nodes]
  | number v => simp [ast_depth, ast_nodes]
  | binary_op op l r ihl ihr =>
    simp only [ast_depth, ast_nodes]
    have := max_le (Nat.le_trans ihl (Nat.le_add_right _ (ast_nodes r)))
      (Nat.le_trans ihr (Nat.le_add_left _ (ast_nodes l)))
    omega
  | unary_op op x ih =>
    simp only [ast_depth, ast_nodes]
    omega

theorem tk_eat_length (ts : List Token_t) (e : TokenType) (he : e ≠ TOKEN_EOF) :
    Res.All (fun ts1 => ts1.length + 1 = ts.length) (tk_eat ts e) := by
  intro a ha
  unfold tk_eat at ha
  split_ifs at ha with h1
  cases ts with
  | nil => exact absurd h1.symm he
  | cons t ts1 =>
    simp only [Res.ok.injEq, List.tail_cons] at ha
    rw [← ha]
    rfl

/-- Every routine creates at most one node for each token it consumes: the
nodes of the tree returned and the tokens left are together no more than the
tokens the routine was called with (for the loops: and the nodes of the tree
they were entered with). -/
theorem tk_nodes_le {F : Type} (A : Arith F) : ∀ fuel : Nat,
    (∀ ts, Res.All (fun a => ast_nodes a.1 + a.2.length ≤ ts.length) (tk_primary A fuel ts))
    ∧ (∀ ts, Res.All (fun a => ast_nodes a.1 + a.2.length ≤ ts.length) (tk_power A fuel ts))
    ∧ (∀ ts, Res.All (fun a => ast_nodes a.1 + a.2.length ≤ ts.length) (tk_factor A fuel ts))
    ∧ (∀ left ts, Res.All (fun a => ast_nodes a.1 + a.2.length ≤ ast_nodes left + ts.length)
        (tk_term_loop A fuel left ts))
    ∧ (∀ ts, Res.All (fun a => ast_nodes a.1 + a.2.length ≤ ts.length) (tk_term A fuel ts))
    ∧ (∀ left ts, Res.All (fun a => ast_nodes a.1 + a.2.length ≤ ast_nodes left + ts.length)
        (tk_expression_loop A fuel left ts))
    ∧ (∀ ts, Res.All (fun a => ast_nodes a.1 + a.2.length ≤ ts.length)
        (tk_expression A fuel ts)) := by
  intro fuel
  induction fuel with
  | zero =>
    refine ⟨?_, ?_, ?_, ?_, ?_, ?_, ?_⟩ <;> intros <;> intro a ha <;>
      simp [tk_primary, tk_power, tk_factor, tk_term_loop, tk_term, tk_expression_loop,
        tk_expression] at ha
  | succ n ih =>
    obtain ⟨ihprim, ihpow, ihfac, ihtl, ihterm, ihel, ihexpr⟩ := ih
    refine ⟨?_, ?_, ?_, ?_, ?_, ?_, ?_⟩
    · intro ts
      rw [tk_primary]
      split_ifs
      · refine res_all_bind (tk_eat_length ts _ (by decide)) (fun ts1 h1 => res_all_ok ?_)
        simp only [create_number_node, ast_nodes]
        omega
      · refine res_all_bind (tk_eat_length ts _ (by decide)) (fun ts1 h1 => ?_)
        refine res_all_bind (ihexpr ts1) (fun r hr => ?_)
        refine res_all_bind (tk_eat_length r.2 _ (by decide)) (fun ts3 h3 => res_all_ok ?_)
        simp only
        omega
      · refine res_all_ok ?_
        simp only [ast_nodes]
        omega
    · intro ts
      rw [tk_power]
      refine res_all_bind (ihprim ts) (fun l hl => ?_)
      split_ifs
      · refine res_all_bind (tk_eat_length l.2 _ (by decide)) (fun ts2 h2 => ?_)
        refine res_all_bind (ihpow ts2) (fun r hr => res_all_ok ?_)
        simp only [create_binary_node, ast_nodes]
        omega
      · exact res_all_ok hl
    · intro ts
      rw [tk_factor]
      split_ifs
      · refine res_all_bind (tk_eat_length ts _ (by decide)) (fun ts1 h1 => ?_)
        refine res_all_bind (ihfac ts1) (fun r hr => res_all_ok ?_)
        simp only [create_unary_node, ast_nodes]
        omega
      · refine res_all_bind (tk_eat_length ts _ (by decide)) (fun ts1 h1 => ?_)
        refine res_all_bind (ihfac ts1) (fun r hr => res_all_ok ?_)
        simp only [create_unary_node, ast_nodes]
        omega
      · exact ihpow ts
    · intro left ts
      rw [tk_term_loop]
      split_ifs with h1
      · have hne : tok_type ts ≠ TOKEN_EOF := by
          rcases h1 with h1 | h1 <;> rw [h1] <;> decide
        refine res_all_bind (tk_eat_length ts _ hne) (fun ts1 h1 => ?_)
        refine res_all_bind (ihfac ts1) (fun r hr => ?_)
        intro a ha
        have := ihtl _ _ a ha
        simp only [create_binary_node, ast_nodes] at this
        omega
      · exact res_all_ok (Nat.le_refl _)
    · intro ts
      rw [tk_term]
      refine res_all_bind (ihfac ts) (fun l hl => ?_)
      intro a ha
      have := ihtl _ _ a ha
      omega
    · intro left ts
      rw [tk_expression_loop]
      split_ifs with h1
      · have hne : tok_type ts ≠ TOKEN_EOF := by
          rcases h1 with h1 | h1 <;> rw [h1] <;> decide
        refine res_all_bind (tk_eat_length ts _ hne) (fun ts1 h1 => ?_)
        refine res_all_bind (ihterm ts1) (fun r hr => ?_)
        intro a ha
        have := ihel _ _ a ha
        simp only [create_binary_node, ast_nodes] at this
        omega
      · exact res_all_ok (Nat.le_refl _)
    · intro ts
      rw [tk_expression]
      refine res_all_bind (ihterm ts) (fun l hl => ?_)
      intro a ha
      have := ihel _ _ a ha
      omega

/-! ## A sign before a power and before a product -/

theorem whitespace_not_num_char {c : Char} (h : is_whitespace c = true) :
    is_num_char c = false := by
  cases hc : is_num_char c with
  | false => rfl
  | true =>
    exfalso
    by_cases hdig : is_digit c = true
    · have h1 : starts_number [c] = true := by simp [starts_number, hdig]
      rw [starts_number_not_whitespace h1] at h
      exact Bool.noConfusion h
    · have h2 : c = '.' := by simpa [is_num_char, hdig] using hc
      rw [h2] at h
      exact absurd h (by decide)

theorem head_after_whitespace (w : List Char) (hw : ∀ c ∈ w, is_whitespace c = true)
    (o : Char) (ho : is_num_char o = false) (rest : List Char) :
    ∀ c ∈ (w ++ o :: rest).head?, is_num_char c = false := by
  intro c hc
  cases w with
  | nil =>
    simp only [List.nil_append, List.head?_cons, Option.mem_def, Option.some.injEq] at hc
    rw [← hc]
    exact ho
  | cons x xs =>
    simp only [List.cons_append, List.head?_cons, Option.mem_def, Option.some.injEq] at hc
    rw [← hc]
    exact whitespace_not_num_char (hw x (by simp))

/-- The tokens of "s a o b", with any whitespace (or none) at the three
gaps. -/
theorem tokens_sign_binary (s o : Char) (a b w1 w2 w3 : List Char)
    (hs : is_operator_char s = true) (ho : is_operator_char o = true)
    (ha : is_number_literal a = true) (hb : is_number_literal b = true)
    (hw1 : ∀ c ∈ w1, is_whitespace c = true) (hw2 : ∀ c ∈ w2, is_whitespace c = true)
    (hw3 : ∀ c ∈ w3, is_whitespace c = true) :
    tokens (s :: (w1 ++ (a ++ (w2 ++ o :: (w3 ++ b)))))
      = [⟨single_char_type s, some [s]⟩, ⟨TOKEN_NUMBER, some a⟩,
          ⟨single_char_type o, some [o]⟩, ⟨TOKEN_NUMBER, some b⟩] := by
  have hon : is_num_char o = false := by
    rcases operator_char_cases ho with rfl | rfl | rfl | rfl | rfl <;> decide
  have hb1 := tokens_number_literal hb [] (by simp)
  rw [List.append_nil, tokens_nil] at hb1
  rw [tokens_cons_operator hs, tokens_of_whitespace w1 hw1,
    tokens_number_literal ha _ (head_after_whitespace w2 hw2 o hon _),
    tokens_of_whitespace w2 hw2, tokens_cons_operator ho, tokens_of_whitespace w3 hw3, hb1]

theorem sign_binary_no_nul (s o : Char) (a b w1 w2 w3 : List Char)
    (hs : is_operator_char s = true) (ho : is_operator_char o = true)
    (ha : is_number_literal a = true) (hb : is_number_literal b = true)
    (hw1 : ∀ c ∈ w1, is_whitespace c = true) (hw2 : ∀ c ∈ w2, is_whitespace c = true)
    (hw3 : ∀ c ∈ w3, is_whitespace c = true) :
    ∀ c ∈ s :: (w1 ++ (a ++ (w2 ++ o :: (w3 ++ b)))), c ≠ NUL := by
  have hop : ∀ x : Char, is_operator_char x = true → x ≠ NUL := by
    intro x hx
    rcases operator_char_cases hx with rfl | rfl | rfl | rfl | rfl <;> decide
  intro c hc
  simp only [List.mem_cons, List.mem_append] at hc
  rcases hc with rfl | hc | hc | hc | rfl | hc | hc
  · exact hop _ hs
  · exact is_whitespace_ne_NUL (hw1 c hc)
  · exact number_literal_no_nul ha c hc
  · exact is_whitespace_ne_NUL (hw2 c hc)
  · exact hop _ ho
  · exact is_whitespace_ne_NUL (hw3 c hc)
  · exact number_literal_no_nul hb c hc

/-! ## Termination of the parser -/

/-- One more unit of fuel changes no result of the parser's routines. -/
theorem parser_mono_step {F : Type} (A : Arith F) : ∀ fuel : Nat,
    (∀ P, Res.le (parse_primary A fuel P) (parse_primary A (fuel + 1) P))
    ∧ (∀ P, Res.le (parser_power A fuel P) (parser_power A (fuel + 1) P))
    ∧ (∀ P, Res.le (parser_factor A fuel P) (parser_factor A (fuel + 1) P))
    ∧ (∀ left P, Res.le (parse_term_loop A fuel left P) (parse_term_loop A (fuel + 1) left P))
    ∧ (∀ P, Res.le (parse_term A fuel P) (parse_term A (fuel + 1) P))
    ∧ (∀ left P,
        Res.le (parse_expression_loop A fuel left P) (parse_expression_loop A (fuel + 1) left P))
    ∧ (∀ P, Res.le (parse_expression A fuel P) (parse_expression A (fuel + 1) P)) := by
  intro fuel
  induction fuel with
  | zero =>
    refine ⟨?_, ?_, ?_, ?_, ?_, ?_, ?_⟩ <;> intros <;> left <;>
      simp [parse_primary, parser_power, parser_factor, parse_term_loop, parse_term,
        parse_expression_loop, parse_expression]
  | succ n ih =>
    obtain ⟨ihprim, ihpow, ihfac, ihtl, ihterm, ihel, ihexpr⟩ := ih
    refine ⟨?_, ?_, ?_, ?_, ?_, ?_, ?_⟩
    · intro P
      rw [parse_primary, parse_primary]
      split_ifs
      · exact res_le_refl _
      · refine res_le_bind (res_le_refl _) (fun a => ?_)
        exact res_le_bind (ihexpr a) (fun r => res_le_refl _)
      · exact res_le_refl _
    · intro P
      rw [parser_power, parser_power]
      refine res_le_bind (ihprim P) (fun l => ?_)
      split_ifs
      · refine res_le_bind (res_le_refl _) (fun a => ?_)
        exact res_le_bind (ihpow a) (fun r => res_le_refl _)
      · exact res_le_refl _
    · intro P
      rw [parser_factor, parser_factor]
      split_ifs
      · refine res_le_bind (res_le_refl _) (fun a => ?_)
        exact res_le_bind (ihfac a) (fun r => res_le_refl _)
      · refine res_le_bind (res_le_refl _) (fun a => ?_)
        exact res_le_bind (ihfac a) (fun r => res_le_refl _)
      · exact ihpow P
    · intro left P
      rw [parse_term_loop, parse_term_loop]
      split_ifs
      · refine res_le_bind (res_le_refl _) (fun a => ?_)
        exact res_le_bind (ihfac a) (fun r => ihtl _ _)
      · exact res_le_refl _
    · intro P
      rw [parse_term, parse_term]
      exact res_le_bind (ihfac P) (fun l => ihtl _ _)
    · intro left P
      rw [parse_expression_loop, parse_expression_loop]
      split_ifs
      · refine res_le_bind (res_le_refl _) (fun a => ?_)
        exact res_le_bind (ihterm a) (fun r => ihel _ _)
      · exact res_le_refl _
    · intro P
      rw [parse_expression, parse_expression]
      exact res_le_bind (ihterm P) (fun l => ihel _ _)

/-- With five units of fuel for each token and five more, `parse_expression`
is not out of fuel. -/
theorem parse_expression_enough {F : Type} (A : Arith F) {P : Parser_t} {ts : List Token_t}
    (hs : PStream P ts) {m : Nat} (hm : 5 * ts.length + 5 ≤ m) :
    parse_expression A m P ≠ Res.out_of_fuel := by
  intro h
  have hr := (parser_refines A m).2.2.2.2.2.2 P ts hs
  have hw := (tk_within A m).2.2.2.2.2.2 ts hm
  rw [h] at hr
  cases htk : tk_expression A m ts with
  | ok a => rw [htk] at hr; exact hr
  | exit e => rw [htk] at hr; exact hr
  | out_of_fuel => rw [htk] at hw; exact hw

/-- Every fuel from `5 * tokens + 5` on gives the result of `parse`. -/
theorem parser_parse_fuel {F : Type} (A : Arith F) {input : List Char}
    (hn : ∀ c ∈ input, c ≠ NUL) {fuel : Nat} (hf : 5 * (tokens input).length + 5 ≤ fuel) :
    (parser_init (lexer_init input)).bind (parser_parse A fuel) = parse A input := by
  obtain ⟨P, hP, hs⟩ := parser_init_at hn
  have hstep : ∀ k, Res.le (parse_expression A k P) (parse_expression A (k + 1) P) :=
    fun k => (parser_mono_step A k).2.2.2.2.2.2 P
  have key : parse_expression A fuel P = parse_expression A (parse_fuel input) P := by
    rcases Nat.le_total fuel (parse_fuel input) with hle | hle
    · rcases res_le_of_step _ hstep hle with h1 | h1
      · exact absurd h1 (parse_expression_enough A hs hf)
      · exact h1
    · rcases res_le_of_step _ hstep hle with h1 | h1
      · exact absurd h1 (parse_expression_enough A hs (parse_fuel_ge input))
      · exact h1.symm
  unfold parse
  rw [hP]
  show parser_parse A fuel P = parser_parse A (parse_fuel input) P
  unfold parser_parse
  rw [key]

theorem evaluate_total {F : Type} (A : Arith F) {input : List Char}
    (hn : ∀ c ∈ input, c ≠ NUL) : evaluate A input ≠ Res.out_of_fuel := by
  have hp := parse_total A hn
  unfold evaluate
  cases hq : parse A input with
  | ok a => exact fun h => Res.noConfusion h
  | exit e => exact fun h => Res.noConfusion h
  | out_of_fuel => exact absurd hq hp

theorem calc_char_ne_NUL {c : Char} (h : is_calc_char c = true) : c ≠ NUL := by
  simp only [is_calc_char, Bool.or_eq_true, beq_iff_eq] at h
  rcases h with ((((h | h) | h) | h) | h) | h
  · exact is_digit_ne_NUL h
  · rw [h]; decide
  · exact is_whitespace_ne_NUL h
  · rcases operator_char_cases h with rfl | rfl | rfl | rfl | rfl <;> decide
  · rw [h]; decide
  · rw [h]; decide

/-- A successful `eat` consumes exactly one token. -/
theorem eat_consumes {parser parser1 : Parser_t} {ts : List Token_t} (h : PStream parser ts)
    {e : TokenType} (he : e ≠ TOKEN_EOF) (heat : eat parser e = Res.ok parser1) :
    ∃ t rest, ts = t :: rest ∧ PStream parser1 rest := by
  have hr := eat_refines h e he
  rw [heat] at hr
  unfold tk_eat at hr
  split_ifs at hr with h1
  · cases ts with
    | nil => exact absurd h1.symm he
    | cons t rest => exact ⟨t, rest, rfl, hr⟩
  · exact hr.elim

theorem rel_returns_le {F : Type} {x : Res (ASTNode_t F × Parser_t)}
    {y : Res (ASTNode_t F × List Token_t)} {m : Nat} (h : Res.Rel SameResult x y)
    (hy : Res.All (fun a => ast_nodes a.1 + a.2.length ≤ m) y) {r : ASTNode_t F × Parser_t}
    (hx : x = Res.ok r) : ∃ ts1, PStream r.2 ts1 ∧ ts1.length ≤ m := by
  subst hx
  cases y with
  | ok b => exact ⟨b.2, h.2, Nat.le_trans (Nat.le_add_left _ _) (hy b rfl)⟩
  | exit e => exact h.elim
  | out_of_fuel => exact h.elim

/-! ## The lexer loses nothing -/

theorem strip_whitespace_num_run (s : List Char) (dec : Bool) :
    strip_whitespace (num_run dec s) = num_run dec s := by
  unfold strip_whitespace
  rw [List.filter_eq_self]
  intro c hc
  have h1 := List.all_eq_true.mp (num_run_valid s dec).1 c hc
  cases hw : is_whitespace c with
  | false => rfl
  | true =>
    rw [whitespace_not_num_char hw] at h1
    exact Bool.noConfusion h1

theorem token_text_tokens (n : Nat) :
    ∀ s : List Char, s.length ≤ n → token_text (tokens s) = strip_whitespace s := by
  induction n with
  | zero =>
    intro s hs
    have : s = [] := List.length_eq_zero.mp (Nat.le_zero.mp hs)
    rw [this]
    rfl
  | succ n ih =>
    intro s hs
    cases s with
    | nil => rfl
    | cons c cs =>
      have hcs : cs.length ≤ n := by simpa using hs
      by_cases hw : is_whitespace c = true
      · rw [tokens_cons_whitespace cs hw, ih cs hcs]
        simp [strip_whitespace, hw]
      · have hw1 : is_whitespace c = false := by simpa using hw
        by_cases hnum : starts_number (c :: cs) = true
        · have hlit := num_run_is_literal hnum
          have hpos : 0 < (num_run false (c :: cs)).length := by
            cases hr : num_run false (c :: cs) with
            | nil => rw [hr] at hlit; exact absurd hlit (by decide)
            | cons x xs => simp
          have hdrop : ((c :: cs).drop (num_run false (c :: cs)).length).length ≤ n := by
            rw [List.length_drop]
            simp only [List.length_cons] at hs ⊢
            omega
          rw [tokens_number hnum]
          have e1 : token_text
              (⟨TOKEN_NUMBER, some (num_run false (c :: cs))⟩
                :: tokens ((c :: cs).drop (num_run false (c :: cs)).length))
              = num_run false (c :: cs)
                ++ token_text (tokens ((c :: cs).drop (num_run false (c :: cs)).length)) := by
            simp [token_text]
          rw [e1, ih _ hdrop]
          have e2 : strip_whitespace (c :: cs)
              = strip_whitespace (num_run false (c :: cs))
                ++ strip_whitespace ((c :: cs).drop (num_run false (c :: cs)).length) := by
            unfold strip_whitespace
            rw [← List.filter_append, num_run_append_drop]
          rw [e2, strip_whitespace_num_run]
        · have hnum1 : starts_number (c :: cs) = false := by simpa using hnum
          rw [tokens_single cs hw1 hnum1]
          have e1 : token_text (⟨single_char_type c, some [c]⟩ :: tokens cs)
              = c :: token_text (tokens cs) := by
            simp [token_text]
          rw [e1, ih cs hcs]
          simp [strip_whitespace, hw1]

/-- Every token before `TOKEN_EOF` has a value, and it is not empty. -/
theorem tokens_have_value (n : Nat) :
    ∀ s : List Char, s.length ≤ n → ∀ t ∈ tokens s, ∃ v, t.value = some v ∧ v ≠ [] := by
  induction n with
  | zero =>
    intro s hs t ht
    have : s = [] := List.length_eq_zero.mp (Nat.le_zero.mp hs)
    rw [this, tokens_nil] at ht
    simp at ht
  | succ n ih =>
    intro s hs t ht
    cases s with
    | nil => rw [tokens_nil] at ht; simp at ht
    | cons c cs =>
      have hcs : cs.length ≤ n := by simpa using hs
      by_cases hw : is_whitespace c = true
      · rw [tokens_cons_whitespace cs hw] at ht
        exact ih cs hcs t ht
      · have hw1 : is_whitespace c = false := by simpa using hw
        by_cases hnum : starts_number (c :: cs) = true
        · have hlit := num_run_is_literal hnum
          have hne : num_run false (c :: cs) ≠ [] := by
            intro hr
            rw [hr] at hlit
            exact absurd hlit (by decide)
          have hdrop : ((c :: cs).drop (num_run false (c :: cs)).length).length ≤ n := by
            have hpos : 0 < (num_run false (c :: cs)).length := List.length_pos.mpr hne
            rw [List.length_drop]
            simp only [List.length_cons] at hs ⊢
            omega
          rw [tokens_number hnum] at ht
          rcases List.mem_cons.mp ht with rfl | ht
          · exact ⟨_, rfl, hne⟩
          · exact ih _ hdrop t ht
        · have hnum1 : starts_number (c :: cs) = false := by simpa using hnum
          rw [tokens_single cs hw1 hnum1] at ht
          rcases List.mem_cons.mp ht with rfl | ht
          · exact ⟨[c], rfl, by simp⟩
          · exact ih cs hcs t ht

/-! ## The lexer makes progress -/

/-- A call of `lexer_next_token` that returns a token other than `TOKEN_EOF`
moves the offset forward, and not beyond the end of the input. -/
theorem lexer_next_token_progress {lexer lexer1 : Lexer_t} {pre suf : List Char}
    {tok : Token_t} {d : List Diag} (h : LexAt lexer pre suf)
    (hcall : lexer_next_token lexer = some (tok, lexer1, d)) (hne : tok.type ≠ TOKEN_EOF) :
    lexer.pos < lexer1.pos ∧ lexer1.pos ≤ lexer1.length
      ∧ ∃ pre1 suf1, LexAt lexer1 pre1 suf1 ∧ pre1 ++ suf1 = pre ++ suf := by
  have hsplit : suf.takeWhile is_whitespace ++ suf.dropWhile is_whitespace = suf :=
    List.takeWhile_append_dropWhile _ _
  cases hd : suf.dropWhile is_whitespace with
  | nil =>
    obtain ⟨l1, e1, _⟩ := lexer_next_token_eof h hd
    rw [e1] at hcall
    simp only [Option.some.injEq, Prod.mk.injEq] at hcall
    rw [← hcall.1] at hne
    exact absurd rfl hne
  | cons c cs =>
    by_cases hn : starts_number (c :: cs) = true
    · obtain ⟨l1, e1, e2⟩ := lexer_next_token_number h (by rw [hd]; exact hn)
      rw [e1] at hcall
      simp only [Option.some.injEq, Prod.mk.injEq] at hcall
      rw [← hcall.2.1]
      have hlit := num_run_is_literal hn
      have hpos : 0 < (num_run false (suf.dropWhile is_whitespace)).length := by
        rw [hd]
        cases hr : num_run false (c :: cs) with
        | nil => rw [hr] at hlit; exact absurd hlit (by decide)
        | cons x xs => simp
      refine ⟨?_, ?_, _, _, e2, ?_⟩
      · rw [e2.pos_eq, h.pos_eq]
        simp only [List.length_append]
        omega
      · rw [e2.pos_eq, e2.length_eq]
        omega
      · rw [List.append_assoc, List.append_assoc, num_run_append_drop, hsplit]
    · obtain ⟨l1, e1, e2⟩ := lexer_next_token_single h hd (by simpa using hn)
      rw [e1] at hcall
      simp only [Option.some.injEq, Prod.mk.injEq] at hcall
      rw [← hcall.2.1]
      refine ⟨?_, ?_, _, _, e2, ?_⟩
      · rw [e2.pos_eq, h.pos_eq]
        simp only [List.length_append, List.length_singleton]
        omega
      · rw [e2.pos_eq, e2.length_eq]
        omega
      · rw [List.append_assoc, List.append_assoc, List.singleton_append, ← hd, hsplit]

/-- The guard under which `lexer_next_token` calls `read_number` is the
condition `starts_number` on the characters ahead. -/
theorem read_number_guard {lexer : Lexer_t} {pre suf : List Char} (h : LexAt lexer pre suf)
    (hg : is_digit lexer.curr_char = true
      ∨ (lexer.curr_char = '.' ∧ lexer.pos + 1 < lexer.length
          ∧ is_digit (charAt lexer.input (lexer.pos + 1)) = true)) :
    starts_number suf = true := by
  cases suf with
  | nil =>
    have hc : lexer.curr_char = NUL := by simpa using h.curr_eq
    rw [hc] at hg
    rcases hg with hg | ⟨hg, _⟩
    · exact absurd hg (by decide)
    · exact absurd hg (by decide)
  | cons c cs =>
    have hc : lexer.curr_char = c := by simpa using h.curr_eq
    rw [hc] at hg
    rcases hg with hg | ⟨hg1, _, hg3⟩
    · simp [starts_number, hg]
    · rw [charAt_next h] at hg3
      subst hg1
      show (is_digit '.' || (decide ('.' = '.') && is_digit (cs.headD NUL))) = true
      rw [hg3]
      rfl

/-- Between two successive calls from a state of a NUL-free input the offset
grows, as long as the later call returns a token other than `TOKEN_EOF`. -/
theorem lexer_nth_call_progress (n : Nat) :
    ∀ (lexer : Lexer_t) (pre suf : List Char), LexAt lexer pre suf →
      ∀ (tokA tokB : Token_t) (lexerA lexerB : Lexer_t) (dA dB : List Diag),
        lexer_nth_call n lexer = some (tokA, lexerA, dA) →
        lexer_nth_call (n + 1) lexer = some (tokB, lexerB, dB) →
        tokB.type ≠ TOKEN_EOF → lexerA.pos < lexerB.pos := by
  induction n with
  | zero =>
    intro lexer pre suf h tokA tokB lexerA lexerB dA dB hA hB hne
    have hA1 : lexer_next_token lexer = some (tokA, lexerA, dA) := hA
    have hB1 : lexer_next_token lexerA = some (tokB, lexerB, dB) := by
      simpa [lexer_nth_call, hA1] using hB
    rcases lexer_next_token_at h with ⟨_, l1, e2, e3⟩ | ⟨t, ts, l1, d, pre1, suf1, _, e2, e3, _⟩
    · rw [e2] at hA1
      simp only [Option.some.injEq, Prod.mk.injEq] at hA1
      rw [← hA1.2.1] at hB1 ⊢
      exact (lexer_next_token_progress e3 hB1 hne).1
    · rw [e2] at hA1
      simp only [Option.some.injEq, Prod.mk.injEq] at hA1
      rw [← hA1.2.1] at hB1 ⊢
      exact (lexer_next_token_progress e3 hB1 hne).1
  | succ n ih =>
    intro lexer pre suf h tokA tokB lexerA lexerB dA dB hA hB hne
    rcases lexer_next_token_at h with ⟨_, l1, e2, e3⟩ | ⟨t, ts, l1, d, pre1, suf1, _, e2, e3, _⟩
    · have hA1 : lexer_nth_call n l1 = some (tokA, lexerA, dA) := by
        simpa [lexer_nth_call, e2] using hA
      have hB1 : lexer_nth_call (n + 1) l1 = some (tokB, lexerB, dB) := by
        rw [lexer_nth_call, e2] at hB
        exact hB
      exact ih l1 _ _ e3 _ _ _ _ _ _ hA1 hB1 hne
    · have hA1 : lexer_nth_call n l1 = some (tokA, lexerA, dA) := by
        simpa [lexer_nth_call, e2] using hA
      have hB1 : lexer_nth_call (n + 1) l1 = some (tokB, lexerB, dB) := by
        rw [lexer_nth_call, e2] at hB
        exact hB
      exact ih l1 _ _ e3 _ _ _ _ _ _ hA1 hB1 hne

/-- After as many calls as there are tokens ahead, the next call returns
`TOKEN_EOF`. -/
theorem lexer_nth_call_tokens (lexer : Lexer_t) (pre suf : List Char)
    (h : LexAt lexer pre suf) :
    ∃ lexer1, lexer_nth_call (tokens suf).length lexer = some (⟨TOKEN_EOF, none⟩, lexer1, []) := by
  have key : ∀ (n : Nat) (lexer : Lexer_t) (pre suf : List Char), LexAt lexer pre suf →
      suf.length ≤ n →
      ∃ lexer1, lexer_nth_call (tokens suf).length lexer
        = some (⟨TOKEN_EOF, none⟩, lexer1, []) := by
    intro n
    induction n with
    | zero =>
      intro lexer pre suf h hlen
      rcases lexer_next_token_at h with ⟨e1, l1, e2, _⟩ | ⟨t, ts, l1, d, pre1, suf1, _, _, _, _, _, e6, _⟩
      · rw [e1]
        exact ⟨l1, e2⟩
      · omega
    | succ n ih =>
      intro lexer pre suf h hlen
      rcases lexer_next_token_at h with ⟨e1, l1, e2, _⟩ | ⟨t, ts, l1, d, pre1, suf1, e1, e2, e3, e4, _, e6, _⟩
      · rw [e1]
        exact ⟨l1, e2⟩
      · obtain ⟨l2, hl2⟩ := ih l1 pre1 suf1 e3 (by omega)
        refine ⟨l2, ?_⟩
        rw [e1, ← e4]
        simpa [lexer_nth_call, e2] using hl2
  exact key suf.length lexer pre suf h (Nat.le_refl _)

/-! ## The exit of `eat` -/

theorem exit_all_bind {α β : Type} {Q : List Diag → Prop} {r : Res α} {f : α → Res β}
    (h : Res.ExitAll Q r) (hf : ∀ a, r = Res.ok a → Res.ExitAll Q (f a)) :
    Res.ExitAll Q (r.bind f) := by
  intro e he
  cases r with
  | ok a => exact hf a rfl e he
  | exit e1 =>
    have he1 : (Res.exit e1 : Res β) = Res.exit e := he
    exact h e (congrArg Res.exit (Res.exit.inj he1))
  | out_of_fuel => exact Res.noConfusion he

theorem exit_all_ok {α : Type} {Q : List Diag → Prop} (a : α) :
    Res.ExitAll Q (Res.ok a) :=
  fun _ he => Res.noConfusion he

/-- When the current token has the expected kind, `eat` does not end the
process. -/
theorem eat_no_exit {parser : Parser_t} {expected : TokenType}
    (h : parser.curr_token.type = expected) (e : List Diag) :
    eat parser expected ≠ Res.exit e := by
  unfold eat
  rw [if_pos h]
  cases lexer_next_token parser.lexer with
  | none => exact fun he => Res.noConfusion he
  | some x => exact fun he => Res.noConfusion he

theorem eat_exit_all_of_eq {parser : Parser_t} {expected : TokenType}
    (h : parser.curr_token.type = expected) (Q : List Diag → Prop) :
    Res.ExitAll Q (eat parser expected) :=
  fun e he => absurd he (eat_no_exit h e)

theorem eat_rparen_exit (parser : Parser_t) :
    Res.ExitAll rparen_mismatch (eat parser TOKEN_RPAREN) := by
  intro e he
  unfold eat at he
  split_ifs at he with h1
  · cases hl : lexer_next_token parser.lexer with
    | none => rw [hl] at he; exact Res.noConfusion he
    | some x => rw [hl] at he; exact Res.noConfusion he
  · simp only [Res.exit.injEq] at he
    exact ⟨parser.stderr, parser.curr_token.type, he.symm, h1⟩

/-- Every routine of the parser that ends the process does so in the `eat`
for ')' of `parse_primary`. -/
theorem parser_exit_rparen {F : Type} (A : Arith F) : ∀ fuel : Nat,
    (∀ P, Res.ExitAll rparen_mismatch (parse_primary A fuel P))
    ∧ (∀ P, Res.ExitAll rparen_mismatch (parser_power A fuel P))
    ∧ (∀ P, Res.ExitAll rparen_mismatch (parser_factor A fuel P))
    ∧ (∀ left P, Res.ExitAll rparen_mismatch (parse_term_loop A fuel left P))
    ∧ (∀ P, Res.ExitAll rparen_mismatch (parse_term A fuel P))
    ∧ (∀ left P, Res.ExitAll rparen_mismatch (parse_expression_loop A fuel left P))
    ∧ (∀ P, Res.ExitAll rparen_mismatch (parse_expression A fuel P)) := by
  intro fuel
  induction fuel with
  | zero =>
    refine ⟨?_, ?_, ?_, ?_, ?_, ?_, ?_⟩ <;> intros <;> intro e he <;>
      simp [parse_primary, parser_power, parser_factor, parse_term_loop, parse_term,
        parse_expression_loop, parse_expression] at he
  | succ n ih =>
    obtain ⟨ihprim, ihpow, ihfac, ihtl, ihterm, ihel, ihexpr⟩ := ih
    refine ⟨?_, ?_, ?_, ?_, ?_, ?_, ?_⟩
    · intro P
      rw [parse_primary]
      split_ifs with h1 h2
      · exact exit_all_bind (eat_exit_all_of_eq h1 _) (fun a _ => exit_all_ok _)
      · refine exit_all_bind (eat_exit_all_of_eq h2 _) (fun a _ => ?_)
        refine exit_all_bind (ihexpr a) (fun r _ => ?_)
        exact exit_all_bind (eat_rparen_exit r.2) (fun b _ => exit_all_ok _)
      · exact exit_all_ok _
    · intro P
      rw [parser_power]
      refine exit_all_bind (ihprim P) (fun l _ => ?_)
      split_ifs with h1
      · refine exit_all_bind (eat_exit_all_of_eq h1 _) (fun a _ => ?_)
        exact exit_all_bind (ihpow a) (fun r _ => exit_all_ok _)
      · exact exit_all_ok _
    · intro P
      rw [parser_factor]
      split_ifs with h1 h2
      · refine exit_all_bind (eat_exit_all_of_eq h1 _) (fun a _ => ?_)
        exact exit_all_bind (ihfac a) (fun r _ => exit_all_ok _)
      · refine exit_all_bind (eat_exit_all_of_eq h2 _) (fun a _ => ?_)
        exact exit_all_bind (ihfac a) (fun r _ => exit_all_ok _)
      · exact ihpow P
    · intro left P
      rw [parse_term_loop]
      split_ifs
      · refine exit_all_bind (eat_exit_all_of_eq rfl _) (fun a _ => ?_)
        exact exit_all_bind (ihfac a) (fun r _ => ihtl _ _)
      · exact exit_all_ok _
    · intro P
      rw [parse_term]
      exact exit_all_bind (ihfac P) (fun l _ => ihtl _ _)
    · intro left P
      rw [parse_expression_loop]
      split_ifs
      · refine exit_all_bind (eat_exit_all_of_eq rfl _) (fun a _ => ?_)
        exact exit_all_bind (ihterm a) (fun r _ => ihel _ _)
      · exact exit_all_ok _
    · intro P
      rw [parse_expression]
      exact exit_all_bind (ihterm P) (fun l _ => ihel _ _)

theorem parse_exit_rparen {F : Type} (A : Arith F) (input : List Char) :
    Res.ExitAll rparen_mismatch (parse A input) := by
  unfold parse parser_parse
  refine exit_all_bind ?_ (fun P _ => ?_)
  · intro e he
    unfold parser_init at he
    cases hl : lexer_next_token (lexer_init input) with
    | none => rw [hl] at he; exact Res.noConfusion he
    | some x => rw [hl] at he; exact Res.noConfusion he
  · refine exit_all_bind ((parser_exit_rparen A _).2.2.2.2.2.2 P) (fun r _ => ?_)
    split_ifs
    · exact exit_all_ok _
    · exact exit_all_ok _

/-! ## Where the parser on token sequences ends the process -/

theorem tk_eat_pos {ts : List Token_t} {e : TokenType} (h : tok_type ts = e) :
    tk_eat ts e = Res.ok ts.tail := by
  simp [tk_eat, h]

theorem unclosed_of_suffix {F : Type} (A : Arith F) {ts1 ts : List Token_t}
    (hs : ts1 <:+ ts) (h : unclosed_paren A ts1) : unclosed_paren A ts := by
  obtain ⟨p, hp⟩ := hs
  obtain ⟨pre, l, after, t, rest, n, e1, e2, e3, e4⟩ := h
  refine ⟨p ++ pre, l, after, t, rest, n, ?_, e2, e3, e4⟩
  rw [← hp, e1, List.append_assoc]

/-- The tokens left by a routine are a final part of the tokens it was called
with. -/
theorem tk_suffix {F : Type} (A : Arith F) : ∀ fuel : Nat,
    (∀ ts, Res.All (fun a => a.2 <:+ ts) (tk_primary A fuel ts))
    ∧ (∀ ts, Res.All (fun a => a.2 <:+ ts) (tk_power A fuel ts))
    ∧ (∀ ts, Res.All (fun a => a.2 <:+ ts) (tk_factor A fuel ts))
    ∧ (∀ left ts, Res.All (fun a => a.2 <:+ ts) (tk_term_loop A fuel left ts))
    ∧ (∀ ts, Res.All (fun a => a.2 <:+ ts) (tk_term A fuel ts))
    ∧ (∀ left ts, Res.All (fun a => a.2 <:+ ts) (tk_expression_loop A fuel left ts))
    ∧ (∀ ts, Res.All (fun a => a.2 <:+ ts) (tk_expression A fuel ts)) := by
  intro fuel
  have heat : ∀ (ts : List Token_t) (e : TokenType),
      Res.All (fun ts1 => ts1 <:+ ts) (tk_eat ts e) := by
    intro ts e a ha
    unfold tk_eat at ha
    split_ifs at ha
    simp only [Res.ok.injEq] at ha
    rw [← ha]
    exact List.tail_suffix ts
  induction fuel with
  | zero =>
    refine ⟨?_, ?_, ?_, ?_, ?_, ?_, ?_⟩ <;> intros <;> intro a ha <;>
      simp [tk_primary, tk_power, tk_factor, tk_term_loop, tk_term, tk_expression_loop,
        tk_expression] at ha
  | succ n ih =>
    obtain ⟨ihprim, ihpow, ihfac, ihtl, ihterm, ihel, ihexpr⟩ := ih
    refine ⟨?_, ?_, ?_, ?_, ?_, ?_, ?_⟩
    · intro ts
      rw [tk_primary]
      split_ifs
      · exact res_all_bind (heat ts _) (fun ts1 h1 => res_all_ok h1)
      · refine res_all_bind (heat ts _) (fun ts1 h1 => ?_)
        refine res_all_bind (ihexpr ts1) (fun r hr => ?_)
        refine res_all_bind (heat r.2 _) (fun ts3 h3 => res_all_ok ?_)
        exact (h3.trans hr).trans h1
      · exact res_all_ok (List.suffix_refl ts)
    · intro ts
      rw [tk_power]
      refine res_all_bind (ihprim ts) (fun l hl => ?_)
      split_ifs
      · refine res_all_bind (heat l.2 _) (fun ts2 h2 => ?_)
        refine res_all_bind (ihpow ts2) (fun r hr => res_all_ok ?_)
        exact (hr.trans h2).trans hl
      · exact res_all_ok hl
    · intro ts
      rw [tk_factor]
      split_ifs
      · refine res_all_bind (heat ts _) (fun ts1 h1 => ?_)
        exact res_all_bind (ihfac ts1) (fun r hr => res_all_ok (hr.trans h1))
      · refine res_all_bind (heat ts _) (fun ts1 h1 => ?_)
        exact res_all_bind (ihfac ts1) (fun r hr => res_all_ok (hr.trans h1))
      · exact ihpow ts
    · intro left ts
      rw [tk_term_loop]
      split_ifs
      · refine res_all_bind (heat ts _) (fun ts1 h1 => ?_)
        refine res_all_bind (ihfac ts1) (fun r hr => ?_)
        intro a ha
        exact ((ihtl _ _ a ha).trans hr).trans h1
      · exact res_all_ok (List.suffix_refl ts)
    · intro ts
      rw [tk_term]
      refine res_all_bind (ihfac ts) (fun l hl => ?_)
      intro a ha
      exact (ihtl _ _ a ha).trans hl
    · intro left ts
      rw [tk_expression_loop]
      split_ifs
      · refine res_all_bind (heat ts _) (fun ts1 h1 => ?_)
        refine res_all_bind (ihterm ts1) (fun r hr => ?_)
        intro a ha
        exact ((ihel _ _ a ha).trans hr).trans h1
      · exact res_all_ok (List.suffix_refl ts)
    · intro ts
      rw [tk_expression]
      refine res_all_bind (ihterm ts) (fun l hl => ?_)
      intro a ha
      exact (ihel _ _ a ha).trans hl

theorem tk_eat_bind_exit {F : Type} {ts : List Token_t} {e : TokenType}
    (h : tok_type ts = e) {f : List Token_t → Res (ASTNode_t F × List Token_t)}
    {x : List Diag} (hx : (tk_eat ts e).bind f = Res.exit x) : f ts.tail = Res.exit x := by
  rw [tk_eat_pos h] at hx
  exact hx

theorem bind_exit_cases {α β : Type} {r : Res α} {f : α → Res β} {e : List Diag}
    (h : r.bind f = Res.exit e) : r = Res.exit e ∨ ∃ a, r = Res.ok a ∧ f a = Res.exit e := by
  cases r with
  | ok a => exact Or.inr ⟨a, rfl, h⟩
  | exit e1 =>
    have h1 : (Res.exit e1 : Res β) = Res.exit e := h
    exact Or.inl (congrArg Res.exit (Res.exit.inj h1))
  | out_of_fuel => exact Res.noConfusion h

theorem bind_ok_exit {α β : Type} {r : Res α} {g : α → β} {e : List Diag}
    (h : (r.bind fun a => Res.ok (g a)) = Res.exit e) : r = Res.exit e := by
  rcases bind_exit_cases h with h1 | ⟨a, _, h2⟩
  · exact h1
  · exact Res.noConfusion h2

/-- A routine on token sequences ends the process only when, somewhere in
the tokens it was called with, a '(' and the expression after it are not
followed by ')'. -/
theorem tk_exit_unclosed {F : Type} (A : Arith F) : ∀ fuel : Nat,
    (∀ ts e, tk_primary A fuel ts = Res.exit e → unclosed_paren A ts)
    ∧ (∀ ts e, tk_power A fuel ts = Res.exit e → unclosed_paren A ts)
    ∧ (∀ ts e, tk_factor A fuel ts = Res.exit e → unclosed_paren A ts)
    ∧ (∀ left ts e, tk_term_loop A fuel left ts = Res.exit e → unclosed_paren A ts)
    ∧ (∀ ts e, tk_term A fuel ts = Res.exit e → unclosed_paren A ts)
    ∧ (∀ left ts e, tk_expression_loop A fuel left ts = Res.exit e → unclosed_paren A ts)
    ∧ (∀ ts e, tk_expression A fuel ts = Res.exit e → unclosed_paren A ts) := by
  intro fuel
  induction fuel with
  | zero =>
    refine ⟨?_, ?_, ?_, ?_, ?_, ?_, ?_⟩ <;> intros <;> rename_i he <;>
      simp [tk_primary, tk_power, tk_factor, tk_term_loop, tk_term, tk_expression_loop,
        tk_expression] at he
  | succ n ih =>
    obtain ⟨ihprim, ihpow, ihfac, ihtl, ihterm, ihel, ihexpr⟩ := ih
    obtain ⟨sprim, spow, sfac, stl, sterm, sel, sexpr⟩ := tk_suffix A n
    refine ⟨?_, ?_, ?_, ?_, ?_, ?_, ?_⟩
    · intro ts e he
      rw [tk_primary] at he
      split_ifs at he with h1 h2
      · exact Res.noConfusion (tk_eat_bind_exit h1 he)
      · have he1 : (tk_expression A n ts.tail).bind
            (fun r => (tk_eat r.2 TOKEN_RPAREN).bind fun ts3 => Res.ok (r.1, ts3))
            = Res.exit e := tk_eat_bind_exit h2 he
        cases ts with
        | nil => exact absurd h2 (by decide)
        | cons l ts1 =>
          rcases bind_exit_cases he1 with h | ⟨r, hr, hr'⟩
          · exact unclosed_of_suffix A (List.suffix_cons l ts1) (ihexpr _ _ h)
          · by_cases h3 : tok_type r.2 = TOKEN_RPAREN
            · exact Res.noConfusion (tk_eat_bind_exit h3 hr')
            · exact ⟨[], l, ts1, r.1, r.2, n, rfl, h2, hr, h3⟩
    · intro ts e he
      rw [tk_power] at he
      rcases bind_exit_cases he with h | ⟨l, hl, hl'⟩
      · exact ihprim _ _ h
      · split_ifs at hl' with h1
        · have he1 := bind_ok_exit (tk_eat_bind_exit h1 hl')
          exact unclosed_of_suffix A ((List.tail_suffix _).trans (sprim ts l hl)) (ihpow _ _ he1)
    · intro ts e he
      rw [tk_factor] at he
      split_ifs at he with h1 h2
      · have he1 := bind_ok_exit (tk_eat_bind_exit h1 he)
        exact unclosed_of_suffix A (List.tail_suffix ts) (ihfac _ _ he1)
      · have he1 := bind_ok_exit (tk_eat_bind_exit h2 he)
        exact unclosed_of_suffix A (List.tail_suffix ts) (ihfac _ _ he1)
      · exact ihpow _ _ he
    · intro left ts e he
      rw [tk_term_loop] at he
      split_ifs at he with h1
      · have he1 := tk_eat_bind_exit rfl he
        beta_reduce at he1
        rcases bind_exit_cases he1 with h | ⟨r, hr, hr'⟩
        · exact unclosed_of_suffix A (List.tail_suffix ts) (ihfac _ _ h)
        · exact unclosed_of_suffix A ((sfac _ r hr).trans (List.tail_suffix ts))
            (ihtl _ _ _ hr')
    · intro ts e he
      rw [tk_term] at he
      rcases bind_exit_cases he with h | ⟨l, hl, hl'⟩
      · exact ihfac _ _ h
      · exact unclosed_of_suffix A (sfac ts l hl) (ihtl _ _ _ hl')
    · intro left ts e he
      rw [tk_expression_loop] at he
      split_ifs at he with h1
      · have he1 := tk_eat_bind_exit rfl he
        beta_reduce at he1
        rcases bind_exit_cases he1 with h | ⟨r, hr, hr'⟩
        · exact unclosed_of_suffix A (List.tail_suffix ts) (ihterm _ _ h)
        · exact unclosed_of_suffix A ((sterm _ r hr).trans (List.tail_suffix ts))
            (ihel _ _ _ hr')
    · intro ts e he
      rw [tk_expression] at he
      rcases bind_exit_cases he with h | ⟨l, hl, hl'⟩
      · exact ihterm _ _ h
      · exact unclosed_of_suffix A (sterm ts l hl) (ihel _ _ _ hl')

/-- When `parse` ends the process on an input without NUL, the tokens of the
input have an unclosed parenthesis. -/
theorem parse_exit_unclosed {F : Type} (A : Arith F) {input : List Char}
    (hn : ∀ c ∈ input, c ≠ NUL) {e : List Diag} (h : parse A input = Res.exit e) :
    unclosed_paren A (tokens input) := by
  have h2 := parse_refines A hn
  rw [h] at h2
  unfold tk_parse at h2
  cases hr : tk_expression A (parse_fuel input) (tokens input) with
  | ok a =>
    rw [hr] at h2
    simp only [Res.bind] at h2
    split_ifs at h2 <;> exact h2.elim
  | exit e1 => exact (tk_exit_unclosed A _).2.2.2.2.2.2 _ e1 hr
  | out_of_fuel => rw [hr] at h2; exact h2.elim

/-! ## Trailing input -/

theorem pstream_cons_head {parser : Parser_t} {tok : Token_t} {more : List Token_t}
    (h : PStream parser (tok :: more)) :
    parser.curr_token = tok ∧ tok.type ≠ TOKEN_EOF := by
  generalize hts : tok :: more = ts at h
  cases h with
  | eof h1 => exact absurd hts (by simp)
  | cons ts1 h1 h2 =>
    simp only [List.cons.injEq] at hts
    exact ⟨hts.1.symm, by rw [hts.1]; exact h1⟩

/-- When `parse` returns with the lookahead not at `TOKEN_EOF`, it returns
`NULL` and the last line printed is "Unexpected token after expression" with
that lookahead. -/
theorem parse_null_cases {F : Type} (A : Arith F) {input : List Char} {ast : ASTNode_t F}
    {parser : Parser_t} (h : parse A input = Res.ok (ast, parser))
    (hne : parser.curr_token.type ≠ TOKEN_EOF) :
    ast = ASTNode_t.null
    ∧ ∃ log, parser.stderr
        = log ++ [Diag.parser_err ParseMsg.unexpected_token_after_expression
            parser.curr_token] := by
  unfold parse parser_parse at h
  cases hi : parser_init (lexer_init input) with
  | ok P0 =>
    rw [hi] at h
    simp only [Res.bind] at h
    cases he : parse_expression A (parse_fuel input) P0 with
    | ok r =>
      rw [he] at h
      simp only at h
      split_ifs at h with hc
      · simp only [Res.ok.injEq, Prod.mk.injEq] at h
        refine ⟨h.1.symm, r.2.stderr, ?_⟩
        rw [← h.2]
        rfl
      · simp only [Res.ok.injEq] at h
        rw [h] at hc
        exact absurd hne hc
    | exit e => rw [he] at h; exact Res.noConfusion h
    | out_of_fuel => rw [he] at h; exact Res.noConfusion h
  | exit e => rw [hi] at h; exact Res.noConfusion h
  | out_of_fuel => rw [hi] at h; exact Res.noConfusion h

/-- When `parse_expression` leaves a token of the input, `parse` returns
`NULL` after the message "Unexpected token after expression" for that
token. -/
theorem parse_tree_of_tk_trailing {F : Type} (A : Arith F) {input : List Char}
    (hn : ∀ c ∈ input, c ≠ NUL) {n : Nat} {t : ASTNode_t F} {tok : Token_t}
    {more : List Token_t} (h : tk_expression A n (tokens input) = Res.ok (t, tok :: more)) :
    ∃ log, parse_tree A input
      = Res.ok (ASTNode_t.null,
          log ++ [Diag.parser_err ParseMsg.unexpected_token_after_expression tok]) := by
  obtain ⟨P, hP, hs⟩ := parse_of_tk A hn h
  rw [if_neg (by simp)] at hP
  obtain ⟨hc, hty⟩ := pstream_cons_head hs
  obtain ⟨_, log, hlog⟩ := parse_null_cases A hP (by rw [hc]; exact hty)
  refine ⟨log, ?_⟩
  unfold parse_tree
  rw [hP]
  show Res.ok (ASTNode_t.null, P.stderr) = _
  rw [hlog, hc]

theorem tokens_then_rparen (e rest : List Char) :
    tokens (e ++ ')' :: rest) = tokens e ++ ⟨TOKEN_RPAREN, some [')']⟩ :: tokens rest := by
  rw [tokens_append (Or.inr (by simp; decide)),
    tokens_cons_single _ (by decide) (by decide)]
  rfl

/-! ## Theorems -/

/-- C1 (fails on the code): for the input "3 +" the parser prints a syntax
error at the end of input and still returns a tree, the addition node whose
right operand is `NULL`; for "2^-3" it returns a subtraction whose left operand
is a power node without exponent. Evaluation then reads the missing operand as
`0.0` after printing "NULL AST node". -/
theorem C1_partial_tree_is_returned {F : Type} (A : Arith F) :
    parse_tree A "3 +".toList =
      Res.ok (ASTNode_t.binary_op TOKEN_PLUS (ASTNode_t.number (A.atof "3".toList)) ASTNode_t.null,
        [Diag.parser_err ParseMsg.expected_number_or_lparen ⟨TOKEN_EOF, none⟩])
    ∧ parse_tree A "2^-3".toList =
      Res.ok (ASTNode_t.binary_op TOKEN_MINUS
          (ASTNode_t.binary_op TOKEN_POWER (ASTNode_t.number (A.atof "2".toList)) ASTNode_t.null)
          (ASTNode_t.number (A.atof "3".toList)),
        [Diag.parser_err ParseMsg.expected_number_or_lparen ⟨TOKEN_MINUS, some "-".toList⟩])
    ∧ evaluate A "3 +".toList =
      Res.ok (some (A.add (A.atof "3".toList) A.zero, [Diag.null_node])) := by
  refine ⟨?_, ?_, ?_⟩ <;> rfl

/-- C2: exponentiation is right-associative. For number literals x0, ..., xn
the parser returns for "x0 ^ x1 ^ ... ^ xn" the right-nested tree
BinaryOp(^, x0, BinaryOp(^, x1, ... xn)); for three literals a, b, c this is
BinaryOp(^, a, BinaryOp(^, b, c)). The input "2 ^ 3 ^ 2" evaluates to
pow(2, pow(3, 2)), which is 512 in exact arithmetic. -/
theorem C2_power_right_associative {F : Type} (A : Arith F) (x0 : List Char)
    (xs : List (List Char)) (h0 : is_number_literal x0 = true)
    (hxs : ∀ x ∈ xs, is_number_literal x = true) :
    parse_ast A (pow_chain_input x0 xs) = Res.ok (pow_chain_tree A x0 xs)
    ∧ (∀ a b c : List Char,
        pow_chain_input a [b, c] = a ++ " ^ ".toList ++ (b ++ " ^ ".toList ++ c)
        ∧ pow_chain_tree A a [b, c]
          = ASTNode_t.binary_op TOKEN_POWER (ASTNode_t.number (A.atof a))
              (ASTNode_t.binary_op TOKEN_POWER (ASTNode_t.number (A.atof b))
                (ASTNode_t.number (A.atof c))))
    ∧ evaluate A "2 ^ 3 ^ 2".toList
        = Res.ok (some (A.pow (A.atof "2".toList)
            (A.pow (A.atof "3".toList) (A.atof "2".toList)), []))
    ∧ evaluate exact_arith "2 ^ 3 ^ 2".toList = Res.ok (some (512, [])) := by
  have hmain : parse_ast A (pow_chain_input x0 xs) = Res.ok (pow_chain_tree A x0 xs) := by
    apply parse_ast_of_yields A (pow_chain_no_nul xs x0 h0 hxs)
    rw [tokens_pow_chain xs x0 h0 hxs]
    exact yields_expression_of_power A _ _ _ (yields_pow_chain A xs x0)
      (by simp [tok_type]) (by simp [tok_type]) (by decide) (by decide) (by decide)
      (by decide)
  have hwit : ∀ {G : Type} (B : Arith G), evaluate B "2 ^ 3 ^ 2".toList
      = Res.ok (some (B.pow (B.atof "2".toList)
          (B.pow (B.atof "3".toList) (B.atof "2".toList)), [])) := by
    intro G B
    have hp : parse_ast B (pow_chain_input "2".toList ["3".toList, "2".toList])
        = Res.ok (pow_chain_tree B "2".toList ["3".toList, "2".toList]) := by
      apply parse_ast_of_yields B
        (pow_chain_no_nul _ _ (by decide) (by decide))
      rw [tokens_pow_chain _ _ (by decide) (by decide)]
      exact yields_expression_of_power B _ _ _ (yields_pow_chain B _ _)
        (by decide) (by decide) (by decide) (by decide) (by decide) (by decide)
    exact evaluate_of_parse_ast B hp
  refine ⟨hmain, ?_, hwit A, ?_⟩
  · intro a b c
    exact ⟨rfl, rfl⟩
  · rw [hwit exact_arith]
    have e2 : exact_arith.atof "2".toList = 2 := by
      simp [exact_arith, atof_exact, decimal_value, digit_value, is_digit]
    have e3 : exact_arith.atof "3".toList = 3 := by
      simp [exact_arith, atof_exact, decimal_value, digit_value, is_digit]
    rw [e2, e3]
    simp [exact_arith]
    norm_num

theorem C2_power_right_associative_witness :
    parse_ast exact_arith (pow_chain_input "2".toList ["3".toList, "2".toList])
      = Res.ok (pow_chain_tree exact_arith "2".toList ["3".toList, "2".toList]) :=
  (C2_power_right_associative exact_arith "2".toList ["3".toList, "2".toList]
    (by decide) (by decide)).1


/-- C3: operators of one level are left-associative. For number literals
x0, ..., xn and operators op1, ..., opn that are all `*` or `/`, or all `+` or
`-`, the parser returns for "x0 op1 x1 op2 ... opn xn" the left-nested tree
BinaryOp(opn, ... BinaryOp(op2, BinaryOp(op1, x0, x1), x2) ..., xn), every
operator in its place. The input "100 / 4 / 5" evaluates to (100 / 4) / 5,
which is 5 in exact arithmetic. -/
theorem C3_one_level_left_associative {F : Type} (A : Arith F) (x0 : List Char)
    (qs : List (Char × List Char)) (h0 : is_number_literal x0 = true)
    (hx : ∀ q ∈ qs, is_number_literal q.2 = true)
    (hop : (∀ q ∈ qs, q.1 = '*' ∨ q.1 = '/') ∨ (∀ q ∈ qs, q.1 = '+' ∨ q.1 = '-')) :
    parse_ast A (op_chain_input x0 qs)
      = Res.ok (left_nested A (ASTNode_t.number (A.atof x0)) qs)
    ∧ (∀ (o1 o2 : Char) (a b c : List Char),
        op_chain_input a [(o1, b), (o2, c)] = a ++ [' ', o1, ' '] ++ (b ++ [' ', o2, ' '] ++ c)
        ∧ left_nested A (ASTNode_t.number (A.atof a)) [(o1, b), (o2, c)]
          = ASTNode_t.binary_op (single_char_type o2)
              (ASTNode_t.binary_op (single_char_type o1) (ASTNode_t.number (A.atof a))
                (ASTNode_t.number (A.atof b)))
              (ASTNode_t.number (A.atof c)))
    ∧ evaluate A "100 / 4 / 5".toList
        = Res.ok (some (ast_eval A
            (ASTNode_t.binary_op TOKEN_DIVIDE
              (ASTNode_t.binary_op TOKEN_DIVIDE (ASTNode_t.number (A.atof "100".toList))
                (ASTNode_t.number (A.atof "4".toList)))
              (ASTNode_t.number (A.atof "5".toList)))))
    ∧ evaluate exact_arith "100 / 4 / 5".toList = Res.ok (some (5, [])) := by
  have hgen : ∀ {G : Type} (B : Arith G) (y0 : List Char) (ps : List (Char × List Char)),
      is_number_literal y0 = true → (∀ q ∈ ps, is_number_literal q.2 = true) →
      ((∀ q ∈ ps, q.1 = '*' ∨ q.1 = '/') ∨ (∀ q ∈ ps, q.1 = '+' ∨ q.1 = '-')) →
      parse_ast B (op_chain_input y0 ps)
        = Res.ok (left_nested B (ASTNode_t.number (B.atof y0)) ps) := by
    intro G B y0 ps hy hps hops
    have hall : ∀ q ∈ ps, is_operator_char q.1 = true ∧ is_number_literal q.2 = true := by
      intro q hq
      refine ⟨?_, hps q hq⟩
      rcases hops with h | h <;> rcases h q hq with h1 | h1 <;> rw [h1] <;> decide
    apply parse_ast_of_yields B (op_chain_no_nul ps y0 hy hall)
    rw [tokens_op_chain ps y0 hy hall]
    rcases hops with h | h
    · have hnp : tok_type (op_chain_tokens ps) ≠ TOKEN_POWER :=
        op_chain_tokens_type_ne ps _
          (fun x hx => by rcases h x hx with h1 | h1 <;> rw [h1] <;> decide) (by decide)
      exact yields_expression B _ _ _ _
        (yields_term B _ _ _ _ (yields_factor_number B y0 _ hnp) (yields_term_loop_chain B ps _ h))
        (yields_expression_loop_done B _ [] (by decide) (by decide))
    · have hne : ∀ ty, ty ≠ TOKEN_EOF → ty ≠ TOKEN_PLUS → ty ≠ TOKEN_MINUS →
          tok_type (op_chain_tokens ps) ≠ ty := by
        intro ty h1 h2 h3
        refine op_chain_tokens_type_ne ps ty (fun x hx => ?_) h1
        rcases h x hx with h4 | h4 <;> rw [h4]
        · exact fun e => h2 e.symm
        · exact fun e => h3 e.symm
      exact yields_expression B _ _ _ _
        (yields_term B _ _ _ _
          (yields_factor_number B y0 _ (hne _ (by decide) (by decide) (by decide)))
          (yields_term_loop_done B _ _ (hne _ (by decide) (by decide) (by decide))
            (hne _ (by decide) (by decide) (by decide))))
        (yields_expression_loop_chain B ps _ h)
  have hwit : ∀ {G : Type} (B : Arith G), evaluate B "100 / 4 / 5".toList
      = Res.ok (some (ast_eval B
          (ASTNode_t.binary_op TOKEN_DIVIDE
            (ASTNode_t.binary_op TOKEN_DIVIDE (ASTNode_t.number (B.atof "100".toList))
              (ASTNode_t.number (B.atof "4".toList)))
            (ASTNode_t.number (B.atof "5".toList))))) := by
    intro G B
    exact evaluate_of_parse_ast B
      (hgen B "100".toList [('/', "4".toList), ('/', "5".toList)] (by decide) (by decide)
        (Or.inl (by decide)))
  refine ⟨hgen A x0 qs h0 hx hop, fun _ _ _ _ _ => ⟨rfl, rfl⟩, hwit A, ?_⟩
  rw [hwit exact_arith]
  have e1 : exact_arith.atof "100".toList = 100 := by
    simp [exact_arith, atof_exact, decimal_value, digit_value, is_digit]
  have e2 : exact_arith.atof "4".toList = 4 := by
    simp [exact_arith, atof_exact, decimal_value, digit_value, is_digit]
  have e3 : exact_arith.atof "5".toList = 5 := by
    simp [exact_arith, atof_exact, decimal_value, digit_value, is_digit]
  simp only [ast_eval, e1, e2, e3]
  simp [exact_arith]
  norm_num

theorem C3_one_level_left_associative_witness :
    parse_ast exact_arith (op_chain_input "100".toList [('/', "4".toList), ('/', "5".toList)])
      = Res.ok (left_nested exact_arith (ASTNode_t.number (exact_arith.atof "100".toList))
          [('/', "4".toList), ('/', "5".toList)]) :=
  (C3_one_level_left_associative exact_arith "100".toList
    [('/', "4".toList), ('/', "5".toList)] (by decide) (by decide) (Or.inl (by decide))).1

/-- C4: binary precedence is `^` above `* /` above `+ -`. For number literals
a, b, c, an additive operator p and a multiplicative operator m, "a p b m c"
parses to BinaryOp(p, a, BinaryOp(m, b, c)), "a m b p c" to
BinaryOp(p, BinaryOp(m, a, b), c) and "a m b ^ c" to
BinaryOp(m, a, BinaryOp(^, b, c)). The input "10 - 3 * 2" evaluates to
10 - 3 * 2 and "3 + 4 * 2^2 - (5 + 1)" to (3 + 4 * pow(2, 2)) - (5 + 1), which
are 4 and 13 in exact arithmetic. -/
theorem C4_binary_precedence {F : Type} (A : Arith F) (a b c : List Char) (p m : Char)
    (ha : is_number_literal a = true) (hb : is_number_literal b = true)
    (hc : is_number_literal c = true) (hp : p = '+' ∨ p = '-') (hm : m = '*' ∨ m = '/') :
    parse_ast A (op_chain_input a [(p, b), (m, c)])
      = Res.ok (ASTNode_t.binary_op (single_char_type p) (ASTNode_t.number (A.atof a))
          (ASTNode_t.binary_op (single_char_type m) (ASTNode_t.number (A.atof b))
            (ASTNode_t.number (A.atof c))))
    ∧ parse_ast A (op_chain_input a [(m, b), (p, c)])
      = Res.ok (ASTNode_t.binary_op (single_char_type p)
          (ASTNode_t.binary_op (single_char_type m) (ASTNode_t.number (A.atof a))
            (ASTNode_t.number (A.atof b)))
          (ASTNode_t.number (A.atof c)))
    ∧ parse_ast A (op_chain_input a [(m, b), ('^', c)])
      = Res.ok (ASTNode_t.binary_op (single_char_type m) (ASTNode_t.number (A.atof a))
          (ASTNode_t.binary_op TOKEN_POWER (ASTNode_t.number (A.atof b))
            (ASTNode_t.number (A.atof c))))
    ∧ evaluate A "10 - 3 * 2".toList
      = Res.ok (some (A.sub (A.atof "10".toList)
          (A.mul (A.atof "3".toList) (A.atof "2".toList)), []))
    ∧ evaluate exact_arith "10 - 3 * 2".toList = Res.ok (some (4, []))
    ∧ evaluate A "3 + 4 * 2^2 - (5 + 1)".toList
      = Res.ok (some (A.sub
          (A.add (A.atof "3".toList)
            (A.mul (A.atof "4".toList) (A.pow (A.atof "2".toList) (A.atof "2".toList))))
          (A.add (A.atof "5".toList) (A.atof "1".toList)), []))
    ∧ evaluate exact_arith "3 + 4 * 2^2 - (5 + 1)".toList = Res.ok (some (13, [])) := by
  have hpo : is_operator_char p = true := by rcases hp with h | h <;> rw [h] <;> decide
  have hmo : is_operator_char m = true := by rcases hm with h | h <;> rw [h] <;> decide
  have hw1 : ∀ {G : Type} (B : Arith G), evaluate B "10 - 3 * 2".toList
      = Res.ok (some (B.sub (B.atof "10".toList)
          (B.mul (B.atof "3".toList) (B.atof "2".toList)), [])) := by
    intro G B
    exact evaluate_of_tokens B (by decide)
      (by decide : tokens "10 - 3 * 2".toList
        = [⟨TOKEN_NUMBER, some "10".toList⟩, ⟨TOKEN_MINUS, some "-".toList⟩,
           ⟨TOKEN_NUMBER, some "3".toList⟩, ⟨TOKEN_MULTIPLY, some "*".toList⟩,
           ⟨TOKEN_NUMBER, some "2".toList⟩])
      (rfl : tk_expression B 12 _ = _)
  have hw2 : ∀ {G : Type} (B : Arith G), evaluate B "3 + 4 * 2^2 - (5 + 1)".toList
      = Res.ok (some (B.sub
          (B.add (B.atof "3".toList)
            (B.mul (B.atof "4".toList) (B.pow (B.atof "2".toList) (B.atof "2".toList))))
          (B.add (B.atof "5".toList) (B.atof "1".toList)), [])) := by
    intro G B
    exact evaluate_of_tokens B (by decide)
      (by decide : tokens "3 + 4 * 2^2 - (5 + 1)".toList
        = [⟨TOKEN_NUMBER, some "3".toList⟩, ⟨TOKEN_PLUS, some "+".toList⟩,
           ⟨TOKEN_NUMBER, some "4".toList⟩, ⟨TOKEN_MULTIPLY, some "*".toList⟩,
           ⟨TOKEN_NUMBER, some "2".toList⟩, ⟨TOKEN_POWER, some "^".toList⟩,
           ⟨TOKEN_NUMBER, some "2".toList⟩, ⟨TOKEN_MINUS, some "-".toList⟩,
           ⟨TOKEN_LPAREN, some "(".toList⟩, ⟨TOKEN_NUMBER, some "5".toList⟩,
           ⟨TOKEN_PLUS, some "+".toList⟩, ⟨TOKEN_NUMBER, some "1".toList⟩,
           ⟨TOKEN_RPAREN, some ")".toList⟩])
      (rfl : tk_expression B 20 _ = _)
  obtain ⟨v1, v2, v3, v4, v5, v10, _, _⟩ := atof_exact_values
  refine ⟨?_, ?_, ?_, hw1 A, ?_, hw2 A, ?_⟩
  · apply parse_ast_of_yields A
      (op_chain_no_nul _ a ha (by simp [hb, hc, hpo, hmo]))
    rw [tokens_op_chain _ a ha (by simp [hb, hc, hpo, hmo])]
    rcases hp with rfl | rfl <;> rcases hm with rfl | rfl <;> exact ⟨12, rfl⟩
  · apply parse_ast_of_yields A
      (op_chain_no_nul _ a ha (by simp [hb, hc, hpo, hmo]))
    rw [tokens_op_chain _ a ha (by simp [hb, hc, hpo, hmo])]
    rcases hp with rfl | rfl <;> rcases hm with rfl | rfl <;> exact ⟨12, rfl⟩
  · have hpow : is_operator_char '^' = true := by decide
    apply parse_ast_of_yields A
      (op_chain_no_nul _ a ha (by simp [hb, hc, hpow, hmo]))
    rw [tokens_op_chain _ a ha (by simp [hb, hc, hpow, hmo])]
    rcases hm with rfl | rfl <;> exact ⟨12, rfl⟩
  · rw [hw1 exact_arith]
    simp only [exact_arith, v10, v3, v2]
    norm_num
  · rw [hw2 exact_arith]
    simp only [exact_arith, v1, v2, v3, v4, v5]
    norm_num

theorem C4_binary_precedence_witness :
    parse_ast exact_arith (op_chain_input "10".toList [('-', "3".toList), ('*', "2".toList)])
      = Res.ok (ASTNode_t.binary_op TOKEN_MINUS
          (ASTNode_t.number (exact_arith.atof "10".toList))
          (ASTNode_t.binary_op TOKEN_MULTIPLY (ASTNode_t.number (exact_arith.atof "3".toList))
            (ASTNode_t.number (exact_arith.atof "2".toList)))) :=
  (C4_binary_precedence exact_arith "10".toList "3".toList "2".toList '-' '*'
    (by decide) (by decide) (by decide) (Or.inr rfl) (Or.inl rfl)).1

/-- C5: a parenthesised expression is one primary with the tree of the
enclosed expression. For every input e (a C string) that the parser accepts
with the tree t, "(e)" is accepted with the same tree t, and for every number
literal c the input "(e)*c" gives BinaryOp(*, t, Number c). The input
"(5 + 3) * 2" gives BinaryOp(*, BinaryOp(+, 5, 3), 2) and evaluates to
(5 + 3) * 2, which is 16 in exact arithmetic. -/
theorem C5_parentheses_group {F : Type} (A : Arith F) (e c : List Char) (t : ASTNode_t F)
    (hn : ∀ x ∈ e, x ≠ NUL) (ht : t ≠ ASTNode_t.null) (he : parse_ast A e = Res.ok t)
    (hc : is_number_literal c = true) :
    parse_ast A ("(".toList ++ e ++ ")".toList) = Res.ok t
    ∧ parse_ast A ("(".toList ++ e ++ ")*".toList ++ c)
      = Res.ok (ASTNode_t.binary_op TOKEN_MULTIPLY t (ASTNode_t.number (A.atof c)))
    ∧ parse_ast A "(5 + 3) * 2".toList
      = Res.ok (ASTNode_t.binary_op TOKEN_MULTIPLY
          (ASTNode_t.binary_op TOKEN_PLUS (ASTNode_t.number (A.atof "5".toList))
            (ASTNode_t.number (A.atof "3".toList)))
          (ASTNode_t.number (A.atof "2".toList)))
    ∧ evaluate A "(5 + 3) * 2".toList
      = Res.ok (some (A.mul (A.add (A.atof "5".toList) (A.atof "3".toList))
          (A.atof "2".toList), []))
    ∧ evaluate exact_arith "(5 + 3) * 2".toList = Res.ok (some (16, [])) := by
  have htok : tokens "(5 + 3) * 2".toList
      = [⟨TOKEN_LPAREN, some "(".toList⟩, ⟨TOKEN_NUMBER, some "5".toList⟩,
         ⟨TOKEN_PLUS, some "+".toList⟩, ⟨TOKEN_NUMBER, some "3".toList⟩,
         ⟨TOKEN_RPAREN, some ")".toList⟩, ⟨TOKEN_MULTIPLY, some "*".toList⟩,
         ⟨TOKEN_NUMBER, some "2".toList⟩] := by decide
  have hw : ∀ {G : Type} (B : Arith G), evaluate B "(5 + 3) * 2".toList
      = Res.ok (some (B.mul (B.add (B.atof "5".toList) (B.atof "3".toList))
          (B.atof "2".toList), [])) := by
    intro G B
    exact evaluate_of_tokens B (by decide) htok (rfl : tk_expression B 14 _ = _)
  obtain ⟨_, v2, v3, _, v5, _, _, _⟩ := atof_exact_values
  refine ⟨?_, ?_, ?_, hw A, ?_⟩
  · have hnn : ∀ x ∈ "(".toList ++ e ++ ")".toList, x ≠ NUL := by
      intro x hx
      simp only [List.mem_append] at hx
      rcases hx with (hx | hx) | hx
      · exact (by decide : ∀ d ∈ "(".toList, d ≠ NUL) x hx
      · exact hn x hx
      · exact (by decide : ∀ d ∈ ")".toList, d ≠ NUL) x hx
    apply parse_ast_of_yields A hnn
    have e1 : "(".toList ++ e ++ ")".toList = '(' :: (e ++ ')' :: []) := by simp
    rw [e1, tokens_paren, tokens_nil]
    exact yields_expression_of_power A _ _ _
      (yields_power_single A _ _ _ (yields_primary_group A hn ht he []) (by decide))
      (by simp [tok_type]) (by simp [tok_type]) (by decide) (by decide) (by decide)
      (by decide)
  · have hnn : ∀ x ∈ "(".toList ++ e ++ ")*".toList ++ c, x ≠ NUL := by
      intro x hx
      simp only [List.mem_append] at hx
      rcases hx with ((hx | hx) | hx) | hx
      · exact (by decide : ∀ d ∈ "(".toList, d ≠ NUL) x hx
      · exact hn x hx
      · exact (by decide : ∀ d ∈ ")*".toList, d ≠ NUL) x hx
      · exact number_literal_no_nul hc x hx
    apply parse_ast_of_yields A hnn
    have e1 : "(".toList ++ e ++ ")*".toList ++ c = '(' :: (e ++ ')' :: ('*' :: (c ++ []))) := by
      simp
    rw [e1, tokens_paren, tokens_cons_single _ (by decide) (by decide),
      tokens_number_literal hc [] (by simp), tokens_nil]
    refine yields_expression A _ _ _ _
      (yields_term A _ _ _ _
        (yields_factor_power A _ _ (by simp [tok_type]) (by simp [tok_type])
          (yields_power_single A _ _ _ (yields_primary_group A hn ht he _)
            (by simp [tok_type]; decide)))
        (yields_term_loop_step A t _ ⟨single_char_type '*', some ['*']⟩ _ _ _ (Or.inl rfl)
          (yields_factor_number A c [] (by decide))
          (yields_term_loop_done A _ [] (by decide) (by decide))))
      (yields_expression_loop_done A _ [] (by decide) (by decide))
  · exact parse_ast_of_yields A (by decide) ⟨14, by rw [htok]; rfl⟩
  · rw [hw exact_arith]
    simp only [exact_arith, v2, v3, v5]
    norm_num

theorem C5_parentheses_group_witness :
    parse_ast exact_arith ("(".toList ++ "5 + 3".toList ++ ")".toList)
      = Res.ok (ASTNode_t.binary_op TOKEN_PLUS (ASTNode_t.number (exact_arith.atof "5".toList))
          (ASTNode_t.number (exact_arith.atof "3".toList))) :=
  (C5_parentheses_group exact_arith "5 + 3".toList "2".toList
    (ASTNode_t.binary_op TOKEN_PLUS (ASTNode_t.number (exact_arith.atof "5".toList))
      (ASTNode_t.number (exact_arith.atof "3".toList)))
    (by decide) (fun h => ASTNode_t.noConfusion h)
    (by rfl) (by decide)).1

/-- C6: unary sign chains nest one node per sign. For sign characters
s1 ... sn, each '+' or '-', and a number literal p, the input "s1...sn p" gives
UnaryOp(s1, UnaryOp(s2, ... UnaryOp(sn, Number p))); for an input e (a C
string) accepted with the tree t, the input "s1...sn(e)" gives
UnaryOp(s1, ... UnaryOp(sn, t)); and for number literals a, b the input "-a+b"
gives BinaryOp(+, UnaryOp(-, a), b). The same trees are returned when every
sign is followed by the same string w of whitespace ("s1 s2 ... sn p"). The
input "-5 + 3" evaluates to (-5) + 3, "+(4 * 3)" to 4 * 3, which are -2 and 12
in exact arithmetic, and "--5" parses to UnaryOp(-, UnaryOp(-, 5)). -/
theorem C6_unary_sign_chains {F : Type} (A : Arith F) (signs p e a b w : List Char)
    (t : ASTNode_t F) (hs : ∀ s ∈ signs, s = '+' ∨ s = '-')
    (hw : ∀ c ∈ w, is_whitespace c = true)
    (hp : is_number_literal p = true)
    (hn : ∀ x ∈ e, x ≠ NUL) (ht : t ≠ ASTNode_t.null) (he : parse_ast A e = Res.ok t)
    (ha : is_number_literal a = true) (hb : is_number_literal b = true) :
    parse_ast A (signs ++ p) = Res.ok (sign_chain_tree signs (ASTNode_t.number (A.atof p)))
    ∧ parse_ast A (signs ++ ("(".toList ++ e ++ ")".toList)) = Res.ok (sign_chain_tree signs t)
    ∧ parse_ast A (signs.flatMap (fun s => s :: w) ++ p)
      = Res.ok (sign_chain_tree signs (ASTNode_t.number (A.atof p)))
    ∧ parse_ast A (signs.flatMap (fun s => s :: w) ++ ("(".toList ++ e ++ ")".toList))
      = Res.ok (sign_chain_tree signs t)
    ∧ parse_ast A ("-".toList ++ a ++ "+".toList ++ b)
      = Res.ok (ASTNode_t.binary_op TOKEN_PLUS
          (ASTNode_t.unary_op TOKEN_MINUS (ASTNode_t.number (A.atof a)))
          (ASTNode_t.number (A.atof b)))
    ∧ evaluate A "-5 + 3".toList
      = Res.ok (some (A.add (A.neg (A.atof "5".toList)) (A.atof "3".toList), []))
    ∧ evaluate exact_arith "-5 + 3".toList = Res.ok (some (-2, []))
    ∧ evaluate A "+(4 * 3)".toList
      = Res.ok (some (A.mul (A.atof "4".toList) (A.atof "3".toList), []))
    ∧ evaluate exact_arith "+(4 * 3)".toList = Res.ok (some (12, []))
    ∧ parse_ast A "--5".toList
      = Res.ok (ASTNode_t.unary_op TOKEN_MINUS
          (ASTNode_t.unary_op TOKEN_MINUS (ASTNode_t.number (A.atof "5".toList)))) := by
  have hsn : ∀ x ∈ signs, x ≠ NUL := by
    intro x hx
    rcases hs x hx with h | h <;> rw [h] <;> decide
  have hw1 : ∀ {G : Type} (B : Arith G), evaluate B "-5 + 3".toList
      = Res.ok (some (B.add (B.neg (B.atof "5".toList)) (B.atof "3".toList), [])) := by
    intro G B
    exact evaluate_of_tokens B (by decide)
      (by decide : tokens "-5 + 3".toList
        = [⟨TOKEN_MINUS, some "-".toList⟩, ⟨TOKEN_NUMBER, some "5".toList⟩,
           ⟨TOKEN_PLUS, some "+".toList⟩, ⟨TOKEN_NUMBER, some "3".toList⟩])
      (rfl : tk_expression B 12 _ = _)
  have hw2 : ∀ {G : Type} (B : Arith G), evaluate B "+(4 * 3)".toList
      = Res.ok (some (B.mul (B.atof "4".toList) (B.atof "3".toList), [])) := by
    intro G B
    exact evaluate_of_tokens B (by decide)
      (by decide : tokens "+(4 * 3)".toList
        = [⟨TOKEN_PLUS, some "+".toList⟩, ⟨TOKEN_LPAREN, some "(".toList⟩,
           ⟨TOKEN_NUMBER, some "4".toList⟩, ⟨TOKEN_MULTIPLY, some "*".toList⟩,
           ⟨TOKEN_NUMBER, some "3".toList⟩, ⟨TOKEN_RPAREN, some ")".toList⟩])
      (rfl : tk_expression B 14 _ = _)
  obtain ⟨_, _, v3, v4, v5, _, _, _⟩ := atof_exact_values
  have hwn : ∀ x ∈ signs.flatMap (fun s => s :: w), x ≠ NUL := by
    intro x hx
    obtain ⟨s0, hs0, hx0⟩ := List.mem_flatMap.mp hx
    rcases List.mem_cons.mp hx0 with h | h
    · rw [h]
      exact hsn s0 hs0
    · exact is_whitespace_ne_NUL (hw x h)
  refine ⟨?_, ?_, ?_, ?_, ?_, hw1 A, ?_, hw2 A, ?_, ?_⟩
  · have hnn : ∀ x ∈ signs ++ p, x ≠ NUL := by
      intro x hx
      rcases List.mem_append.mp hx with hx | hx
      · exact hsn x hx
      · exact number_literal_no_nul hp x hx
    apply parse_ast_of_yields A hnn
    have e1 := tokens_number_literal hp [] (by simp)
    rw [List.append_nil, tokens_nil] at e1
    rw [tokens_signs signs hs, e1]
    exact yields_expression_of_factor A _ _
      (yields_factor_signs A signs hs _ _ _ (yields_factor_number A p [] (by decide)))
  · have hnn : ∀ x ∈ signs ++ ("(".toList ++ e ++ ")".toList), x ≠ NUL := by
      intro x hx
      simp only [List.mem_append] at hx
      rcases hx with hx | (hx | hx) | hx
      · exact hsn x hx
      · exact (by decide : ∀ d ∈ "(".toList, d ≠ NUL) x hx
      · exact hn x hx
      · exact (by decide : ∀ d ∈ ")".toList, d ≠ NUL) x hx
    apply parse_ast_of_yields A hnn
    have e1 : "(".toList ++ e ++ ")".toList = '(' :: (e ++ ')' :: []) := by simp
    rw [tokens_signs signs hs, e1, tokens_paren, tokens_nil]
    exact yields_expression_of_factor A _ _
      (yields_factor_signs A signs hs _ _ _
        (yields_factor_power A _ _ (by simp [tok_type]) (by simp [tok_type])
          (yields_power_single A _ _ _ (yields_primary_group A hn ht he []) (by decide))))
  · have hnn : ∀ x ∈ signs.flatMap (fun s => s :: w) ++ p, x ≠ NUL := by
      intro x hx
      rcases List.mem_append.mp hx with hx | hx
      · exact hwn x hx
      · exact number_literal_no_nul hp x hx
    apply parse_ast_of_yields A hnn
    have e1 := tokens_number_literal hp [] (by simp)
    rw [List.append_nil, tokens_nil] at e1
    rw [tokens_signs_sep signs w hs hw, e1]
    exact yields_expression_of_factor A _ _
      (yields_factor_signs A signs hs _ _ _ (yields_factor_number A p [] (by decide)))
  · have hnn : ∀ x ∈ signs.flatMap (fun s => s :: w) ++ ("(".toList ++ e ++ ")".toList),
        x ≠ NUL := by
      intro x hx
      simp only [List.mem_append] at hx
      rcases hx with hx | (hx | hx) | hx
      · exact hwn x hx
      · exact (by decide : ∀ d ∈ "(".toList, d ≠ NUL) x hx
      · exact hn x hx
      · exact (by decide : ∀ d ∈ ")".toList, d ≠ NUL) x hx
    apply parse_ast_of_yields A hnn
    have e1 : "(".toList ++ e ++ ")".toList = '(' :: (e ++ ')' :: []) := by simp
    rw [tokens_signs_sep signs w hs hw, e1, tokens_paren, tokens_nil]
    exact yields_expression_of_factor A _ _
      (yields_factor_signs A signs hs _ _ _
        (yields_factor_power A _ _ (by simp [tok_type]) (by simp [tok_type])
          (yields_power_single A _ _ _ (yields_primary_group A hn ht he []) (by decide))))
  · have hnn : ∀ x ∈ "-".toList ++ a ++ "+".toList ++ b, x ≠ NUL := by
      intro x hx
      simp only [List.mem_append] at hx
      rcases hx with ((hx | hx) | hx) | hx
      · exact (by decide : ∀ d ∈ "-".toList, d ≠ NUL) x hx
      · exact number_literal_no_nul ha x hx
      · exact (by decide : ∀ d ∈ "+".toList, d ≠ NUL) x hx
      · exact number_literal_no_nul hb x hx
    apply parse_ast_of_yields A hnn
    have e1 : "-".toList ++ a ++ "+".toList ++ b = '-' :: (a ++ '+' :: (b ++ [])) := by simp
    rw [e1, tokens_cons_single _ (by decide) (by decide),
      tokens_number_literal ha _ (by simp; decide),
      tokens_cons_single _ (by decide) (by decide),
      tokens_number_literal hb [] (by simp), tokens_nil]
    exact ⟨12, rfl⟩
  · rw [hw1 exact_arith]
    simp only [exact_arith, v3, v5]
    norm_num
  · rw [hw2 exact_arith]
    simp only [exact_arith, v3, v4]
    norm_num
  · exact parse_ast_of_yields A (by decide)
      ⟨10, by
        rw [(by decide : tokens "--5".toList
          = [⟨TOKEN_MINUS, some "-".toList⟩, ⟨TOKEN_MINUS, some "-".toList⟩,
             ⟨TOKEN_NUMBER, some "5".toList⟩])]
        rfl⟩

theorem C6_unary_sign_chains_witness :
    parse_ast exact_arith ("-+".toList ++ "5".toList)
      = Res.ok (sign_chain_tree "-+".toList (ASTNode_t.number (exact_arith.atof "5".toList))) :=
  (C6_unary_sign_chains exact_arith "-+".toList "5".toList "4 * 3".toList "5".toList
    "3".toList " ".toList
    (ASTNode_t.binary_op TOKEN_MULTIPLY (ASTNode_t.number (exact_arith.atof "4".toList))
      (ASTNode_t.number (exact_arith.atof "3".toList)))
    (by decide) (by decide) (by decide) (by decide) (fun h => ASTNode_t.noConfusion h)
    (by rfl)
    (by decide) (by decide)).1

/-- C7: division by zero is reported and yields 0.0 without stopping the
evaluation. For every node BinaryOp(/, l, r), when the value of r is zero
`ast_eval` prints "Division by zero" (after what the operands print) and
returns 0.0 whatever the value of l, otherwise it returns the quotient of the
two values; an enclosing addition is evaluated with that 0.0. With an
arithmetic in which `atof("0")` is zero, "5/0" evaluates to 0.0 and "1+5/0" to
1 + 0.0, both with the diagnostic; these are 0 and 1 in exact arithmetic. -/
theorem C7_division_by_zero {F : Type} (A : Arith F) (l r outer : ASTNode_t F)
    (h0 : A.is_zero (A.atof "0".toList) = true) :
    ast_eval A (ASTNode_t.binary_op TOKEN_DIVIDE l r)
      = (if A.is_zero (ast_eval A r).1 = true then
          (A.zero, (ast_eval A l).2 ++ (ast_eval A r).2 ++ [Diag.division_by_zero])
        else
          (A.div (ast_eval A l).1 (ast_eval A r).1, (ast_eval A l).2 ++ (ast_eval A r).2))
    ∧ ast_eval A (ASTNode_t.binary_op TOKEN_PLUS outer (ASTNode_t.binary_op TOKEN_DIVIDE l r))
      = (if A.is_zero (ast_eval A r).1 = true then
          (A.add (ast_eval A outer).1 A.zero,
            (ast_eval A outer).2
              ++ ((ast_eval A l).2 ++ (ast_eval A r).2 ++ [Diag.division_by_zero]))
        else
          (A.add (ast_eval A outer).1 (A.div (ast_eval A l).1 (ast_eval A r).1),
            (ast_eval A outer).2 ++ ((ast_eval A l).2 ++ (ast_eval A r).2)))
    ∧ evaluate A "5/0".toList = Res.ok (some (A.zero, [Diag.division_by_zero]))
    ∧ evaluate A "1+5/0".toList
      = Res.ok (some (A.add (A.atof "1".toList) A.zero, [Diag.division_by_zero]))
    ∧ evaluate exact_arith "5/0".toList = Res.ok (some (0, [Diag.division_by_zero]))
    ∧ evaluate exact_arith "1+5/0".toList = Res.ok (some (1, [Diag.division_by_zero])) := by
  have hdiv : ∀ {G : Type} (B : Arith G) (x y : ASTNode_t G),
      ast_eval B (ASTNode_t.binary_op TOKEN_DIVIDE x y)
        = (if B.is_zero (ast_eval B y).1 = true then
            (B.zero, (ast_eval B x).2 ++ (ast_eval B y).2 ++ [Diag.division_by_zero])
          else
            (B.div (ast_eval B x).1 (ast_eval B y).1, (ast_eval B x).2 ++ (ast_eval B y).2)) := by
    intro G B x y
    rw [ast_eval]
  have hw1 : ∀ {G : Type} (B : Arith G), B.is_zero (B.atof "0".toList) = true →
      evaluate B "5/0".toList = Res.ok (some (B.zero, [Diag.division_by_zero])) := by
    intro G B hB
    have h : evaluate B "5/0".toList
        = Res.ok (eval_returned B
            (ASTNode_t.binary_op TOKEN_DIVIDE (ASTNode_t.number (B.atof "5".toList))
              (ASTNode_t.number (B.atof "0".toList)))) :=
      evaluate_of_tokens B (by decide)
        (by decide : tokens "5/0".toList
          = [⟨TOKEN_NUMBER, some "5".toList⟩, ⟨TOKEN_DIVIDE, some "/".toList⟩,
             ⟨TOKEN_NUMBER, some "0".toList⟩])
        (rfl : tk_expression B 12 _ = _)
    rw [h]
    simp only [eval_returned, ast_eval, hB, if_true, List.nil_append]
  have hw2 : ∀ {G : Type} (B : Arith G), B.is_zero (B.atof "0".toList) = true →
      evaluate B "1+5/0".toList
        = Res.ok (some (B.add (B.atof "1".toList) B.zero, [Diag.division_by_zero])) := by
    intro G B hB
    have h : evaluate B "1+5/0".toList
        = Res.ok (eval_returned B
            (ASTNode_t.binary_op TOKEN_PLUS (ASTNode_t.number (B.atof "1".toList))
              (ASTNode_t.binary_op TOKEN_DIVIDE (ASTNode_t.number (B.atof "5".toList))
                (ASTNode_t.number (B.atof "0".toList))))) :=
      evaluate_of_tokens B (by decide)
        (by decide : tokens "1+5/0".toList
          = [⟨TOKEN_NUMBER, some "1".toList⟩, ⟨TOKEN_PLUS, some "+".toList⟩,
             ⟨TOKEN_NUMBER, some "5".toList⟩, ⟨TOKEN_DIVIDE, some "/".toList⟩,
             ⟨TOKEN_NUMBER, some "0".toList⟩])
        (rfl : tk_expression B 12 _ = _)
    rw [h]
    simp only [eval_returned, ast_eval, hB, if_true, List.nil_append]
  obtain ⟨v1, _, _, _, _, _, _, v0⟩ := atof_exact_values
  have hz : exact_arith.is_zero (exact_arith.atof "0".toList) = true := by
    show decide (atof_exact "0".toList = 0) = true
    rw [v0]
    simp
  refine ⟨hdiv A l r, ?_, hw1 A h0, hw2 A h0, ?_, ?_⟩
  · rw [ast_eval, hdiv]
    split_ifs <;> rfl
  · rw [hw1 exact_arith hz]
    rfl
  · rw [hw2 exact_arith hz]
    simp only [exact_arith, v1]
    norm_num

theorem C7_division_by_zero_witness :
    evaluate exact_arith "5/0".toList = Res.ok (some (exact_arith.zero, [Diag.division_by_zero])) :=
  (C7_division_by_zero exact_arith ASTNode_t.null ASTNode_t.null ASTNode_t.null
    (by simp [exact_arith, atof_exact, decimal_value, digit_value, is_digit])).2.2.1

/-- C8: trailing input is rejected. `parser_parse` returns an AST only with
the lookahead at `TOKEN_EOF`, the AST being the one `parse_expression`
returned; and in every parser state, whenever `parse_expression` returns with
another lookahead, `parser_parse` prints "Unexpected token after expression"
and returns `NULL` in place of the tree. So for every input on which
`parse_expression` stops before a token, `parse` returns `NULL` after that
message, with the token named in it. For an input e (a C string) that the
parser accepts with a tree: "e)" followed by anything fails in this way, and
so does "(e)" followed by anything whose first token is not one of
`+ - * / ^`; for number literals x and y the input "x y" fails in this way;
and so do "3 4", "3 )" and "(1) 2". -/
theorem C8_trailing_input_rejected {F : Type} (A : Arith F) (e rest : List Char)
    (t : ASTNode_t F) (hn : ∀ c ∈ e, c ≠ NUL) (hr : ∀ c ∈ rest, c ≠ NUL)
    (ht : t ≠ ASTNode_t.null) (he : parse_ast A e = Res.ok t) :
    (∀ (fuel : Nat) (parser parser1 : Parser_t) (ast : ASTNode_t F),
        parser_parse A fuel parser = Res.ok (ast, parser1) → ast ≠ ASTNode_t.null →
        parser1.curr_token.type = TOKEN_EOF
          ∧ parse_expression A fuel parser = Res.ok (ast, parser1))
    ∧ (∀ (fuel : Nat) (parser p1 : Parser_t) (tree : ASTNode_t F),
        parse_expression A fuel parser = Res.ok (tree, p1) →
        p1.curr_token.type ≠ TOKEN_EOF →
        parser_parse A fuel parser
          = Res.ok (ASTNode_t.null,
              parser_error p1 ParseMsg.unexpected_token_after_expression))
    ∧ (∀ (input : List Char) (P0 p1 : Parser_t) (tree : ASTNode_t F),
        parser_init (lexer_init input) = Res.ok P0 →
        parse_expression A (parse_fuel input) P0 = Res.ok (tree, p1) →
        p1.curr_token.type ≠ TOKEN_EOF →
        parse_tree A input
            = Res.ok (ASTNode_t.null,
                p1.stderr
                  ++ [Diag.parser_err ParseMsg.unexpected_token_after_expression
                      p1.curr_token])
          ∧ parse_ast A input = Res.ok ASTNode_t.null
          ∧ evaluate A input = Res.ok none)
    ∧ (∀ (input : List Char) (ts more : List Token_t) (tok : Token_t) (n : Nat)
        (tree : ASTNode_t F), (∀ c ∈ input, c ≠ NUL) → print_tokens input = some ts →
        tk_expression A n ts = Res.ok (tree, tok :: more) →
        ∃ log, parse_tree A input
          = Res.ok (ASTNode_t.null,
              log ++ [Diag.parser_err ParseMsg.unexpected_token_after_expression tok]))
    ∧ (∃ log, parse_tree A (e ++ ')' :: rest)
        = Res.ok (ASTNode_t.null,
            log ++ [Diag.parser_err ParseMsg.unexpected_token_after_expression
              ⟨TOKEN_RPAREN, some [')']⟩]))
    ∧ (∀ (tok : Token_t) (more : List Token_t), print_tokens rest = some (tok :: more) →
        tok.type ≠ TOKEN_PLUS → tok.type ≠ TOKEN_MINUS → tok.type ≠ TOKEN_MULTIPLY →
        tok.type ≠ TOKEN_DIVIDE → tok.type ≠ TOKEN_POWER →
        ∃ log, parse_tree A ('(' :: (e ++ ')' :: rest))
          = Res.ok (ASTNode_t.null,
              log ++ [Diag.parser_err ParseMsg.unexpected_token_after_expression tok]))
    ∧ (∀ x y : List Char, is_number_literal x = true → is_number_literal y = true →
        ∃ log, parse_tree A (x ++ " ".toList ++ y)
          = Res.ok (ASTNode_t.null,
              log ++ [Diag.parser_err ParseMsg.unexpected_token_after_expression
                ⟨TOKEN_NUMBER, some y⟩]))
    ∧ parse_tree A "3 4".toList
      = Res.ok (ASTNode_t.null,
          [Diag.parser_err ParseMsg.unexpected_token_after_expression
            ⟨TOKEN_NUMBER, some "4".toList⟩])
    ∧ parse_tree A "3 )".toList
      = Res.ok (ASTNode_t.null,
          [Diag.parser_err ParseMsg.unexpected_token_after_expression
            ⟨TOKEN_RPAREN, some ")".toList⟩])
    ∧ parse_tree A "(1) 2".toList
      = Res.ok (ASTNode_t.null,
          [Diag.parser_err ParseMsg.unexpected_token_after_expression
            ⟨TOKEN_NUMBER, some "2".toList⟩]) := by
  have hrp : ∀ d ∈ e ++ ')' :: rest, d ≠ NUL := by
    intro d hd
    simp only [List.mem_append, List.mem_cons] at hd
    rcases hd with hd | rfl | hd
    · exact hn d hd
    · decide
    · exact hr d hd
  obtain ⟨Pe, hPe⟩ := parse_of_parse_ast A he
  have htk := tk_of_parse A hn hPe ht
  refine ⟨?_, ?_, ?_, ?_, ?_, ?_, ?_, rfl, rfl, rfl⟩
  · intro fuel parser parser1 ast h hne
    unfold parser_parse at h
    cases hex : parse_expression A fuel parser with
    | ok r =>
      rw [hex] at h
      simp only [Res.bind] at h
      split_ifs at h with hc
      · simp only [Res.ok.injEq, Prod.mk.injEq] at h
        exact absurd h.1.symm hne
      · simp only [Res.ok.injEq] at h
        rw [h] at hc
        exact ⟨by simpa using hc, by rw [h]⟩
    | exit x => rw [hex] at h; exact Res.noConfusion h
    | out_of_fuel => rw [hex] at h; exact Res.noConfusion h
  · intro fuel parser p1 tree hex hc
    unfold parser_parse
    rw [hex]
    simp only [Res.bind]
    rw [if_pos hc]
  · intro input P0 p1 tree hi hex hc
    have hp : parse A input
        = Res.ok (ASTNode_t.null,
            parser_error p1 ParseMsg.unexpected_token_after_expression) := by
      unfold parse parser_parse
      rw [hi]
      simp only [Res.bind]
      rw [hex]
      simp only
      rw [if_pos hc]
    refine ⟨?_, ?_, ?_⟩
    · unfold parse_tree
      rw [hp]
      rfl
    · unfold parse_ast
      rw [hp]
      rfl
    · unfold evaluate
      rw [hp]
      rfl
  · intro input ts more tok n tree hin hts hex
    have e1 : ts = tokens input := by
      rw [print_tokens_eq hin] at hts
      exact (Option.some.inj hts).symm
    rw [e1] at hex
    exact parse_tree_of_tk_trailing A hin hex
  · have hext := (tk_extend A ⟨TOKEN_RPAREN, some [')']⟩ (tokens rest) rfl
      (parse_fuel e)).2.2.2.2.2.2 (tokens e) (t, []) htk
    have hext1 : tk_expression A (parse_fuel e) (tokens (e ++ ')' :: rest))
        = Res.ok (t, ⟨TOKEN_RPAREN, some [')']⟩ :: tokens rest) := by
      rw [tokens_then_rparen]
      exact hext
    exact parse_tree_of_tk_trailing A hrp hext1
  · intro tok more hts h1 h2 h3 h4 h5
    have e1 : tokens rest = tok :: more := by
      rw [print_tokens_eq hr] at hts
      exact Option.some.inj hts
    have hall : ∀ d ∈ '(' :: (e ++ ')' :: rest), d ≠ NUL := by
      intro d hd
      rcases List.mem_cons.mp hd with rfl | hd
      · decide
      · exact hrp d hd
    have hy := yields_expression_of_power A _ _ t
      (yields_power_single A _ _ t (yields_primary_group A hn ht he (tokens rest))
        (by rw [e1]; exact h5))
      (by simp [tok_type]) (by simp [tok_type])
      (by rw [e1]; exact h3) (by rw [e1]; exact h4) (by rw [e1]; exact h1)
      (by rw [e1]; exact h2)
    obtain ⟨n, hn1⟩ := hy
    have hn2 : tk_expression A n (tokens ('(' :: (e ++ ')' :: rest)))
        = Res.ok (t, tok :: more) := by
      rw [tokens_paren, ← e1]
      exact hn1
    exact parse_tree_of_tk_trailing A hall hn2
  · intro x y hx hy
    have hnn : ∀ c ∈ x ++ " ".toList ++ y, c ≠ NUL := by
      intro c hc
      simp only [List.mem_append] at hc
      rcases hc with (hc | hc) | hc
      · exact number_literal_no_nul hx c hc
      · exact (by decide : ∀ d ∈ " ".toList, d ≠ NUL) c hc
      · exact number_literal_no_nul hy c hc
    have htok : tokens (x ++ " ".toList ++ y)
        = [⟨TOKEN_NUMBER, some x⟩, ⟨TOKEN_NUMBER, some y⟩] := by
      have e1 : x ++ " ".toList ++ y = x ++ (' ' :: (y ++ [])) := by simp
      rw [e1, tokens_number_literal hx _ (by simp; decide),
        tokens_cons_whitespace _ (by decide), tokens_number_literal hy [] (by simp),
        tokens_nil]
    have hy1 : tk_expression A 10 (tokens (x ++ " ".toList ++ y))
        = Res.ok (ASTNode_t.number (A.atof x), [⟨TOKEN_NUMBER, some y⟩]) := by
      rw [htok]
      rfl
    exact parse_tree_of_tk_trailing A hnn hy1

theorem C8_trailing_input_rejected_witness :
    (∃ log, parse_tree exact_arith ("1+2".toList ++ ')' :: " 7".toList)
        = Res.ok (ASTNode_t.null,
            log ++ [Diag.parser_err ParseMsg.unexpected_token_after_expression
              ⟨TOKEN_RPAREN, some [')']⟩]))
    ∧ (∃ log, parse_tree exact_arith ('(' :: ("1+2".toList ++ ')' :: " 7".toList))
        = Res.ok (ASTNode_t.null,
            log ++ [Diag.parser_err ParseMsg.unexpected_token_after_expression
              ⟨TOKEN_NUMBER, some "7".toList⟩])) :=
  have h := C8_trailing_input_rejected exact_arith "1+2".toList " 7".toList
    (ASTNode_t.binary_op TOKEN_PLUS (ASTNode_t.number (exact_arith.atof "1".toList))
      (ASTNode_t.number (exact_arith.atof "2".toList)))
    (by decide) (by decide) (fun h => ASTNode_t.noConfusion h)
    (parse_ast_of_yields exact_arith (by decide)
      ⟨12, by
        rw [show tokens "1+2".toList
          = [⟨TOKEN_NUMBER, some "1".toList⟩, ⟨TOKEN_PLUS, some "+".toList⟩,
              ⟨TOKEN_NUMBER, some "2".toList⟩] from by decide]
        rfl⟩)
  ⟨h.2.2.2.2.1,
    h.2.2.2.2.2.1 ⟨TOKEN_NUMBER, some "7".toList⟩ [] (by decide) (by decide) (by decide)
      (by decide) (by decide) (by decide)⟩

/-- C9: a lexical error always makes the parse fail. For every input (a C
string) whose tokens contain an `Invalid` token, `parse` returns no AST: it
returns `NULL` after the message "Unexpected token after expression", or the
process exits in `eat`; and `eat` never consumes an `Invalid` token, it exits
when it meets one. The input "." gives the `Invalid` token '.' and then
fails. -/
theorem C9_lexical_error_fails_parse {F : Type} (A : Arith F) (input : List Char)
    (ts : List Token_t) (hn : ∀ c ∈ input, c ≠ NUL) (htok : print_tokens input = some ts)
    (herr : ∃ x ∈ ts, x.type = TOKEN_ERROR) :
    ((∃ log, parse_tree A input = Res.ok (ASTNode_t.null, log)
        ∧ ∃ tok, Diag.parser_err ParseMsg.unexpected_token_after_expression tok ∈ log)
      ∨ (∃ e, parse_tree A input = Res.exit e))
    ∧ (∀ (parser : Parser_t) (expected : TokenType),
        parser.curr_token.type = TOKEN_ERROR → expected ≠ TOKEN_ERROR →
        eat parser expected
          = Res.exit (parser.stderr ++ [Diag.eat_mismatch expected TOKEN_ERROR]))
    ∧ print_tokens ".".toList = some [⟨TOKEN_ERROR, some ".".toList⟩]
    ∧ parse_tree A ".".toList
      = Res.ok (ASTNode_t.null,
          [Diag.lexical 1 LexMsg.unknown_character NUL,
           Diag.parser_err ParseMsg.expected_number_or_lparen
             ⟨TOKEN_ERROR, some ".".toList⟩,
           Diag.parser_err ParseMsg.unexpected_token_after_expression
             ⟨TOKEN_ERROR, some ".".toList⟩]) := by
  refine ⟨?_, ?_, by decide, rfl⟩
  · rw [print_tokens_eq hn] at htok
    have hts : tokens input = ts := by simpa using htok
    have herr' : HasError (tokens input) := by rw [hts]; exact herr
    cases hr : tk_expression A (parse_fuel input) (tokens input) with
    | ok a =>
      have hk := (tk_keeps_error A (parse_fuel input)).2.2.2.2.2.2 _ herr' a hr
      have hne : a.2 ≠ [] := by
        obtain ⟨x, hx, _⟩ := hk
        exact List.ne_nil_of_mem hx
      have hr1 : tk_expression A (parse_fuel input) (tokens input) = Res.ok (a.1, a.2) := hr
      obtain ⟨P, hP, hstream⟩ := parse_of_tk A hn hr1
      rw [if_neg hne] at hP
      left
      rcases parse_ok_cases A hP with hc | ⟨_, tok, htokmem⟩
      · exfalso
        exact hne ((pstream_eq_nil_iff hstream).mp ((pstream_tok_type hstream).symm.trans hc))
      · exact ⟨P.stderr, by unfold parse_tree; rw [hP]; rfl, tok, htokmem⟩
    | exit e =>
      obtain ⟨e', he'⟩ := parse_exit_of_tk A hn hr
      right
      exact ⟨e', by unfold parse_tree; rw [he']; rfl⟩
    | out_of_fuel => exact absurd hr (tk_expression_total A input)
  · intro parser expected hty hex
    unfold eat
    rw [hty, if_neg (fun h => hex h.symm)]

theorem C9_lexical_error_fails_parse_witness :
    (∃ log, parse_tree exact_arith "3 + $".toList = Res.ok (ASTNode_t.null, log)
        ∧ ∃ tok, Diag.parser_err ParseMsg.unexpected_token_after_expression tok ∈ log)
      ∨ (∃ e, parse_tree exact_arith "3 + $".toList = Res.exit e) :=
  (C9_lexical_error_fails_parse exact_arith "3 + $".toList
    [⟨TOKEN_NUMBER, some "3".toList⟩, ⟨TOKEN_PLUS, some "+".toList⟩,
      ⟨TOKEN_ERROR, some "$".toList⟩]
    (by decide) (by decide) (by decide)).1

/-- C10: whitespace only separates tokens. For C strings a and b and a string
w of whitespace characters, if a does not end with a digit or '.', or b does
not begin with a digit or '.', then `a ++ w ++ b` and `a ++ b` give the same
sequence of tokens, and `parse` and `evaluate` give the same result on both
(the same AST and value, or the process exits on both). The inputs
"  3  +  4  " and "3+4" give the same tokens and both evaluate to 3 + 4, which
is 7 in exact arithmetic. -/
theorem C10_whitespace_separates_tokens {F : Type} (A : Arith F) (a w b : List Char)
    (hw : ∀ c ∈ w, is_whitespace c = true) (hs : safe_boundary a b)
    (ha : ∀ c ∈ a, c ≠ NUL) (hb : ∀ c ∈ b, c ≠ NUL) :
    print_tokens (a ++ w ++ b) = print_tokens (a ++ b)
    ∧ Res.Rel (fun x y => x = y) (parse_ast A (a ++ w ++ b)) (parse_ast A (a ++ b))
    ∧ Res.Rel (fun x y => x = y) (evaluate A (a ++ w ++ b)) (evaluate A (a ++ b))
    ∧ print_tokens "  3  +  4  ".toList = print_tokens "3+4".toList
    ∧ evaluate A "  3  +  4  ".toList
      = Res.ok (some (A.add (A.atof "3".toList) (A.atof "4".toList), []))
    ∧ evaluate A "3+4".toList
      = Res.ok (some (A.add (A.atof "3".toList) (A.atof "4".toList), []))
    ∧ evaluate exact_arith "  3  +  4  ".toList = Res.ok (some (7, []))
    ∧ evaluate exact_arith "3+4".toList = Res.ok (some (7, [])) := by
  have hwn : ∀ c ∈ w, c ≠ NUL := fun c hc => is_whitespace_ne_NUL (hw c hc)
  have h1 : ∀ c ∈ a ++ w ++ b, c ≠ NUL := by
    intro c hc
    simp only [List.mem_append] at hc
    rcases hc with (hc | hc) | hc
    · exact ha c hc
    · exact hwn c hc
    · exact hb c hc
  have h2 : ∀ c ∈ a ++ b, c ≠ NUL := by
    intro c hc
    rcases List.mem_append.mp hc with hc | hc
    · exact ha c hc
    · exact hb c hc
  have htok : tokens (a ++ w ++ b) = tokens (a ++ b) := by
    rw [tokens_append hs, List.append_assoc]
    cases w with
    | nil => exact tokens_append hs
    | cons c cs =>
      have hsafe : safe_boundary a (c :: cs ++ b) := by
        right
        intro d hd
        simp only [List.cons_append, List.head?_cons, Option.mem_def, Option.some.injEq] at hd
        rw [← hd]
        have hc := hw c (by simp)
        have hd1 : c = ' ' ∨ c = Char.ofNat 9 ∨ c = Char.ofNat 10 ∨ c = Char.ofNat 13
            ∨ c = Char.ofNat 11 ∨ c = Char.ofNat 12 := by
          simpa [is_whitespace, or_assoc] using hc
        rcases hd1 with h | h | h | h | h | h <;> rw [h] <;> decide
      rw [tokens_append hsafe, tokens_of_whitespace (c :: cs) hw b]
  have hwa : ∀ {G : Type} (B : Arith G), evaluate B "  3  +  4  ".toList
      = Res.ok (some (B.add (B.atof "3".toList) (B.atof "4".toList), [])) := by
    intro G B
    exact evaluate_of_tokens B (by decide)
      (by decide : tokens "  3  +  4  ".toList
        = [⟨TOKEN_NUMBER, some "3".toList⟩, ⟨TOKEN_PLUS, some "+".toList⟩,
           ⟨TOKEN_NUMBER, some "4".toList⟩])
      (rfl : tk_expression B 12 _ = _)
  have hwb : ∀ {G : Type} (B : Arith G), evaluate B "3+4".toList
      = Res.ok (some (B.add (B.atof "3".toList) (B.atof "4".toList), [])) := by
    intro G B
    exact evaluate_of_tokens B (by decide)
      (by decide : tokens "3+4".toList
        = [⟨TOKEN_NUMBER, some "3".toList⟩, ⟨TOKEN_PLUS, some "+".toList⟩,
           ⟨TOKEN_NUMBER, some "4".toList⟩])
      (rfl : tk_expression B 12 _ = _)
  obtain ⟨_, _, v3, v4, _, _, _, _⟩ := atof_exact_values
  refine ⟨?_, parse_ast_congr A h1 h2 htok, evaluate_congr A h1 h2 htok, by decide,
    hwa A, hwb A, ?_, ?_⟩
  · rw [print_tokens_eq h1, print_tokens_eq h2, htok]
  · rw [hwa exact_arith]
    simp only [exact_arith, v3, v4]
    norm_num
  · rw [hwb exact_arith]
    simp only [exact_arith, v3, v4]
    norm_num

theorem C10_whitespace_separates_tokens_witness :
    print_tokens ("3".toList ++ " \t ".toList ++ "+4".toList)
      = print_tokens ("3".toList ++ "+4".toList) :=
  (C10_whitespace_separates_tokens exact_arith "3".toList " \t ".toList "+4".toList
    (by decide) (Or.inr (by decide)) (by decide) (by decide)).1

/-- C11: `lexer_next_token` is idempotent at the tail. From a state of a
NUL-free input with only whitespace, or nothing, ahead, every call returns
`TOKEN_EOF` without a value, and all calls leave the lexer in one state, at
the end of the input. From any state, once a call has returned `TOKEN_EOF`
(it has no value and nothing is printed), every later call returns
`TOKEN_EOF` again and leaves the lexer state unchanged. -/
theorem C11_eof_idempotent (lexer lexer0 lexer1 : Lexer_t) (pre suf : List Char)
    (tok : Token_t) (d : List Diag) (h : LexAt lexer pre suf)
    (hws : ∀ c ∈ suf, is_whitespace c = true)
    (hcall : lexer_next_token lexer0 = some (tok, lexer1, d))
    (heof : tok.type = TOKEN_EOF) :
    (∃ lexer2, (∀ n, lexer_nth_call n lexer = some (⟨TOKEN_EOF, none⟩, lexer2, []))
        ∧ lexer2.pos = lexer2.length ∧ lexer2.curr_char = NUL)
    ∧ tok = ⟨TOKEN_EOF, none⟩ ∧ d = []
    ∧ (∀ n, lexer_nth_call n lexer1 = some (⟨TOKEN_EOF, none⟩, lexer1, [])) := by
  refine ⟨?_, ?_⟩
  · have hd : suf.dropWhile is_whitespace = [] := by
      rw [List.dropWhile_eq_nil_iff]
      exact hws
    obtain ⟨l2, e1, e2⟩ := lexer_next_token_eof h hd
    have hc : l2.curr_char = NUL := by simpa using e2.curr_eq
    refine ⟨l2, ?_, by rw [e2.pos_eq, e2.length_eq]; simp, hc⟩
    intro n
    cases n with
    | zero => exact e1
    | succ n => simp [lexer_nth_call, e1, lexer_nth_call_at_end hc n]
  · obtain ⟨e1, e2, e3⟩ := lexer_next_token_loop_eof _ _ _ _ _ hcall heof
    exact ⟨e1, e2, lexer_nth_call_at_end e3⟩

theorem C11_eof_idempotent_witness :
    lexer_nth_call 3 (lexer_init "3".toList |> advance)
      = some (⟨TOKEN_EOF, none⟩, (lexer_init "3".toList |> advance), []) :=
  (C11_eof_idempotent (lexer_init " \t".toList) (lexer_init "3".toList |> advance)
    (lexer_init "3".toList |> advance) [] " \t".toList ⟨TOKEN_EOF, none⟩ []
    ⟨rfl, rfl, by decide, rfl, by decide⟩ (by decide) (by decide) rfl).2.2.2 3

/-- C12: number tokens are recognised by maximal munch. From a state of a
NUL-free input in which, after the whitespace ahead, a digit comes, or a '.'
with a digit after it, `lexer_next_token` returns a `TOKEN_NUMBER` whose text
is the longest run starting there in which every character is a digit or the
one '.' of the run, and leaves the lexer just after that run. Every
`TOKEN_NUMBER` that `lexer_next_token` returns has a text that is not empty,
holds only digits and at most one '.', and holds a digit. The tokens of ".5",
"1.2.3" and "5." are Number(".5"); Number("1.2"), Number(".3"); and
Number("5."). -/
theorem C12_number_maximal_munch (lexer lexerA lexerB : Lexer_t)
    (pre suf preA sufA : List Char) (tokA : Token_t) (dA : List Diag)
    (h : LexAt lexer pre suf) (hs : starts_number (suf.dropWhile is_whitespace) = true)
    (hA : LexAt lexerA preA sufA)
    (hcall : lexer_next_token lexerA = some (tokA, lexerB, dA))
    (htype : tokA.type = TOKEN_NUMBER) :
    (∃ lexer1, lexer_next_token lexer
        = some (⟨TOKEN_NUMBER, some (num_run false (suf.dropWhile is_whitespace))⟩, lexer1, [])
      ∧ lexer1.pos = lexer.pos + (suf.takeWhile is_whitespace).length
          + (num_run false (suf.dropWhile is_whitespace)).length
      ∧ LexAt lexer1
          (pre ++ suf.takeWhile is_whitespace ++ num_run false (suf.dropWhile is_whitespace))
          ((suf.dropWhile is_whitespace).drop
            (num_run false (suf.dropWhile is_whitespace)).length))
    ∧ num_run false (suf.dropWhile is_whitespace) <+: suf.dropWhile is_whitespace
    ∧ is_number_run (num_run false (suf.dropWhile is_whitespace)) = true
    ∧ (∀ y, y <+: suf.dropWhile is_whitespace → is_number_run y = true →
        y.length ≤ (num_run false (suf.dropWhile is_whitespace)).length)
    ∧ (∃ x, tokA.value = some x ∧ is_number_literal x = true)
    ∧ print_tokens ".5".toList = some [⟨TOKEN_NUMBER, some ".5".toList⟩]
    ∧ print_tokens "1.2.3".toList
      = some [⟨TOKEN_NUMBER, some "1.2".toList⟩, ⟨TOKEN_NUMBER, some ".3".toList⟩]
    ∧ print_tokens "5.".toList = some [⟨TOKEN_NUMBER, some "5.".toList⟩] := by
  obtain ⟨v1, v2⟩ := num_run_valid (suf.dropWhile is_whitespace) false
  refine ⟨?_, ?_, ?_, ?_, ?_, by decide, by decide, by decide⟩
  · obtain ⟨l1, e1, e2⟩ := lexer_next_token_number h hs
    refine ⟨l1, e1, ?_, e2⟩
    rw [e2.pos_eq, h.pos_eq]
    simp only [List.length_append]
  · exact ⟨_, num_run_append_drop _ false⟩
  · simp only [is_number_run, Bool.and_eq_true, decide_eq_true_eq]
    exact ⟨v1, by simpa using v2⟩
  · intro y hy hv
    simp only [is_number_run, Bool.and_eq_true, decide_eq_true_eq] at hv
    exact num_run_longest _ false y hy hv.1 (by simpa using hv.2)
  · cases hd : sufA.dropWhile is_whitespace with
    | nil =>
      obtain ⟨l1, e1, _⟩ := lexer_next_token_eof hA hd
      rw [e1] at hcall
      simp only [Option.some.injEq, Prod.mk.injEq] at hcall
      rw [← hcall.1] at htype
      exact absurd htype (by decide)
    | cons c cs =>
      by_cases hn : starts_number (c :: cs) = true
      · obtain ⟨l1, e1, _⟩ := lexer_next_token_number hA (by rw [hd]; exact hn)
        rw [e1] at hcall
        simp only [Option.some.injEq, Prod.mk.injEq] at hcall
        refine ⟨_, by rw [← hcall.1], ?_⟩
        rw [hd]
        exact num_run_is_literal hn
      · obtain ⟨l1, e1, _⟩ := lexer_next_token_single hA hd (by simpa using hn)
        rw [e1] at hcall
        simp only [Option.some.injEq, Prod.mk.injEq] at hcall
        rw [← hcall.1] at htype
        exact absurd htype (single_char_type_ne_NUMBER c)

theorem C12_number_maximal_munch_witness :
    ∃ lexer1, lexer_next_token (lexer_init " 1.2.3".toList)
        = some (⟨TOKEN_NUMBER, some (num_run false (" 1.2.3".toList.dropWhile is_whitespace))⟩,
            lexer1, [])
      ∧ lexer1.pos = (lexer_init " 1.2.3".toList).pos
          + (" 1.2.3".toList.takeWhile is_whitespace).length
          + (num_run false (" 1.2.3".toList.dropWhile is_whitespace)).length
      ∧ LexAt lexer1
          ([] ++ " 1.2.3".toList.takeWhile is_whitespace
            ++ num_run false (" 1.2.3".toList.dropWhile is_whitespace))
          ((" 1.2.3".toList.dropWhile is_whitespace).drop
            (num_run false (" 1.2.3".toList.dropWhile is_whitespace)).length) :=
  (C12_number_maximal_munch (lexer_init " 1.2.3".toList) (lexer_init "5.".toList)
    ⟨"5.".toList, 2, 2, NUL⟩ [] " 1.2.3".toList [] "5.".toList
    ⟨TOKEN_NUMBER, some "5.".toList⟩ []
    ⟨rfl, rfl, by decide, rfl, by decide⟩ (by decide)
    ⟨rfl, rfl, by decide, rfl, by decide⟩ (by decide) rfl).1

/-- C13 (fails on the code): for the input "." the call of
`lexer_next_token` returns the `Invalid` token '.' and prints a line, but the
offset after the call is 1, not the offset 0 of the '.': nothing is
rewound. -/
theorem C13_lone_point_counterexample :
    lexer_next_token (lexer_init ".".toList)
      = some (⟨TOKEN_ERROR, some ['.']⟩, ⟨".".toList, 1, 1, NUL⟩,
          [Diag.lexical 1 LexMsg.unknown_character NUL])
    ∧ (⟨".".toList, 1, 1, NUL⟩ : Lexer_t).pos ≠ (lexer_init ".".toList).pos := by
  decide

/-- C13 (amended): when, after the whitespace ahead, the lexer meets a '.'
that is not followed by a digit, `lexer_next_token` prints one line
("Unknown character"), returns an `Invalid` token whose value is '.', and
consumes the '.': after the call the offset is the offset of that '.' plus
one. -/
theorem C13_lone_point_consumed (lexer : Lexer_t) (pre suf cs : List Char)
    (h : LexAt lexer pre suf) (hs : suf.dropWhile is_whitespace = '.' :: cs)
    (hd : is_digit (cs.headD NUL) = false) :
    ∃ lexer1 p ch, lexer_next_token lexer
        = some (⟨TOKEN_ERROR, some ['.']⟩, lexer1,
            [Diag.lexical p LexMsg.unknown_character ch])
      ∧ lexer1.pos = lexer.pos + (suf.takeWhile is_whitespace).length + 1
      ∧ LexAt lexer1 (pre ++ suf.takeWhile is_whitespace ++ ['.']) cs := by
  have hn : starts_number ('.' :: cs) = false := by
    have hdd : is_digit '.' = false := by decide
    simp only [starts_number, hdd, hd, Bool.false_or, Bool.and_false]
  obtain ⟨l1, e1, e2⟩ := lexer_next_token_single h hs hn
  have ht : single_char_type '.' = TOKEN_ERROR := rfl
  rw [ht, if_pos rfl] at e1
  refine ⟨l1, _, _, e1, ?_, e2⟩
  rw [e2.pos_eq, h.pos_eq]
  simp only [List.length_append, List.length_singleton]

theorem C13_lone_point_consumed_witness :
    ∃ lexer1 p ch, lexer_next_token (lexer_init " .x".toList)
        = some (⟨TOKEN_ERROR, some ['.']⟩, lexer1,
            [Diag.lexical p LexMsg.unknown_character ch])
      ∧ lexer1.pos = (lexer_init " .x".toList).pos
          + (" .x".toList.takeWhile is_whitespace).length + 1
      ∧ LexAt lexer1 ([] ++ " .x".toList.takeWhile is_whitespace ++ ['.']) "x".toList :=
  C13_lone_point_consumed (lexer_init " .x".toList) [] " .x".toList "x".toList
    ⟨rfl, rfl, by decide, rfl, by decide⟩ (by decide) (by decide)

/-- C14 (fails on the code): on the input "a+b" the character 'a' at offset 0
gives an `Invalid` token, and the line printed for it reports position 1 and
the character '+', the offset and the character after 'a'; on "$" the line
reports position 1 and the NUL at the end. -/
theorem C14_diagnostic_names_next_character :
    lexer_next_token (lexer_init "a+b".toList)
      = some (⟨TOKEN_ERROR, some ['a']⟩, ⟨"a+b".toList, 1, 3, '+'⟩,
          [Diag.lexical 1 LexMsg.unknown_character '+'])
    ∧ lexer_next_token (lexer_init "$".toList)
      = some (⟨TOKEN_ERROR, some ['$']⟩, ⟨"$".toList, 1, 1, NUL⟩,
          [Diag.lexical 1 LexMsg.unknown_character NUL]) := by
  decide

/-- C15: single characters are classified exactly. From a state of a NUL-free
input in which, after the whitespace ahead, comes a character c that is not a
digit and not a '.' followed by a digit, `lexer_next_token` returns the token
whose value is that one character and consumes exactly that character; its
kind is Plus, Minus, Multiply, Divide, Power, LParen, RParen for
`+ - * / ^ ( )` (which are such characters) and `Invalid` for every other
c. -/
theorem C15_single_characters (lexer : Lexer_t) (pre suf cs : List Char) (c : Char)
    (h : LexAt lexer pre suf) (hs : suf.dropWhile is_whitespace = c :: cs)
    (hn : starts_number (c :: cs) = false) :
    (∃ lexer1 d, lexer_next_token lexer = some (⟨single_char_type c, some [c]⟩, lexer1, d)
      ∧ lexer1.pos = lexer.pos + (suf.takeWhile is_whitespace).length + 1
      ∧ LexAt lexer1 (pre ++ suf.takeWhile is_whitespace ++ [c]) cs)
    ∧ ((c = '+' ∧ single_char_type c = TOKEN_PLUS)
      ∨ (c = '-' ∧ single_char_type c = TOKEN_MINUS)
      ∨ (c = '*' ∧ single_char_type c = TOKEN_MULTIPLY)
      ∨ (c = '/' ∧ single_char_type c = TOKEN_DIVIDE)
      ∨ (c = '^' ∧ single_char_type c = TOKEN_POWER)
      ∨ (c = '(' ∧ single_char_type c = TOKEN_LPAREN)
      ∨ (c = ')' ∧ single_char_type c = TOKEN_RPAREN)
      ∨ (c ∉ "+-*/^()".toList ∧ single_char_type c = TOKEN_ERROR))
    ∧ (∀ (x : Char) (xs : List Char), x ∈ "+-*/^()".toList → starts_number (x :: xs) = false)
    ∧ (starts_number (c :: cs) = false
        ↔ is_digit c = false ∧ ¬ (c = '.' ∧ is_digit (cs.headD NUL) = true)) := by
  refine ⟨?_, single_char_type_table c, fun x xs hx => starts_number_of_symbol xs hx, ?_⟩
  · obtain ⟨l1, e1, e2⟩ := lexer_next_token_single h hs hn
    refine ⟨l1, _, e1, ?_, e2⟩
    rw [e2.pos_eq, h.pos_eq]
    simp only [List.length_append, List.length_singleton]
  · simp [starts_number]

theorem C15_single_characters_witness :
    ∃ lexer1 d, lexer_next_token (lexer_init " (1".toList)
        = some (⟨single_char_type '(', some ['(']⟩, lexer1, d)
      ∧ lexer1.pos = (lexer_init " (1".toList).pos
          + (" (1".toList.takeWhile is_whitespace).length + 1
      ∧ LexAt lexer1 ([] ++ " (1".toList.takeWhile is_whitespace ++ ['(']) "1".toList :=
  (C15_single_characters (lexer_init " (1".toList) [] " (1".toList "1".toList '('
    ⟨rfl, rfl, by decide, rfl, by decide⟩ (by decide) (by decide)).1

/-- C16: `parse` followed by `evaluate` terminates on every input (a C
string), in particular on every input made only of digits, '.', whitespace and
`+ - * / ^ ( )`. The lexer's loops and the parser's routines never use up the
fuel that measures the depth of their calls: every fuel from five units for
each token and five more gives one and the same outcome, a returned tree or
the exit of `eat`, and the evaluation of the tree, a structural recursion on
its subtrees, returns. The measure is the number of tokens ahead: a successful
`eat` consumes exactly one token, and none of `parse_primary`, `parser_power`,
`parser_factor`, `parse_term`, `parse_expression` returns with more tokens
ahead than it was called with. -/
theorem C16_parse_then_evaluate_terminates {F : Type} (A : Arith F) (input : List Char)
    (hn : ∀ c ∈ input, c ≠ NUL) :
    parse A input ≠ Res.out_of_fuel
    ∧ evaluate A input ≠ Res.out_of_fuel
    ∧ (∃ ts, print_tokens input = some ts ∧ ts.length ≤ input.length
        ∧ ∀ fuel, 5 * ts.length + 5 ≤ fuel →
          (parser_init (lexer_init input)).bind (parser_parse A fuel) = parse A input)
    ∧ (∀ s : List Char, s.all is_calc_char = true →
        parse A s ≠ Res.out_of_fuel ∧ evaluate A s ≠ Res.out_of_fuel)
    ∧ (∀ (parser parser1 : Parser_t) (ts : List Token_t) (e : TokenType),
        PStream parser ts → e ≠ TOKEN_EOF → eat parser e = Res.ok parser1 →
        ∃ t rest, ts = t :: rest ∧ PStream parser1 rest)
    ∧ (∀ (fuel : Nat) (P : Parser_t) (ts : List Token_t) (r : ASTNode_t F × Parser_t),
        PStream P ts →
        (parse_primary A fuel P = Res.ok r ∨ parser_power A fuel P = Res.ok r
          ∨ parser_factor A fuel P = Res.ok r ∨ parse_term A fuel P = Res.ok r
          ∨ parse_expression A fuel P = Res.ok r) →
        ∃ ts1, PStream r.2 ts1 ∧ ts1.length ≤ ts.length) := by
  refine ⟨parse_total A hn, evaluate_total A hn,
    ⟨tokens input, print_tokens_eq hn, tokens_length_le input,
      fun fuel hf => parser_parse_fuel A hn hf⟩, ?_, ?_, ?_⟩
  · intro s hs
    have hsn : ∀ c ∈ s, c ≠ NUL := fun c hc => calc_char_ne_NUL (List.all_eq_true.mp hs c hc)
    exact ⟨parse_total A hsn, evaluate_total A hsn⟩
  · intro parser parser1 ts e h he heat
    exact eat_consumes h he heat
  · intro fuel P ts r h hr
    have hR := parser_refines A fuel
    have hN := tk_nodes_le A fuel
    rcases hr with hr | hr | hr | hr | hr
    · exact rel_returns_le (hR.1 P ts h) (hN.1 ts) hr
    · exact rel_returns_le (hR.2.1 P ts h) (hN.2.1 ts) hr
    · exact rel_returns_le (hR.2.2.1 P ts h) (hN.2.2.1 ts) hr
    · exact rel_returns_le (hR.2.2.2.2.1 P ts h) (hN.2.2.2.2.1 ts) hr
    · exact rel_returns_le (hR.2.2.2.2.2.2 P ts h) (hN.2.2.2.2.2.2 ts) hr

theorem C16_parse_then_evaluate_terminates_witness :
    parse exact_arith "(1 + 2) * 3 ^ 2 / .5".toList ≠ Res.out_of_fuel
    ∧ evaluate exact_arith "(1 + 2) * 3 ^ 2 / .5".toList ≠ Res.out_of_fuel :=
  have h := C16_parse_then_evaluate_terminates exact_arith "(1 + 2) * 3 ^ 2 / .5".toList
    (by decide)
  ⟨h.1, h.2.1⟩

/-- C17: the lexer state invariant. For every input without NUL, the state
after `lexer_init` and the state after every call of `lexer_next_token`
satisfy `0 <= pos <= length`, with the current character NUL exactly when
`pos == length` and `input[pos]` otherwise; the input and its length are never
changed. The same holds after `skip_whitespace` and `read_number` from any
such state, and after `advance` from any such state that is not at the end
(`advance` is called on no other). -/
theorem C17_lexer_state_invariant (input : List Char) (hn : ∀ c ∈ input, c ≠ NUL) :
    lexer_invariant (lexer_init input)
    ∧ (∀ n, ∃ tok lexer1 d, lexer_nth_call n (lexer_init input) = some (tok, lexer1, d)
        ∧ lexer_invariant lexer1 ∧ lexer1.input = input ∧ lexer1.length = input.length)
    ∧ (∀ (lexer : Lexer_t) (pre suf : List Char), LexAt lexer pre suf →
        lexer_invariant lexer
        ∧ lexer_invariant (skip_whitespace lexer)
        ∧ lexer_invariant (read_number lexer).1
        ∧ (lexer.curr_char ≠ NUL → lexer_invariant (advance lexer))
        ∧ (∀ tok lexer1 d, lexer_next_token lexer = some (tok, lexer1, d) →
            lexer_invariant lexer1 ∧ ∃ pre1 suf1, LexAt lexer1 pre1 suf1)) := by
  refine ⟨lexer_invariant_of_at (lexer_init_at hn), ?_, ?_⟩
  · intro n
    obtain ⟨tok, l1, d, pre1, suf1, e1, e2, e3⟩ := lexer_nth_call_at n _ _ _ (lexer_init_at hn)
    refine ⟨tok, l1, d, e1, lexer_invariant_of_at e2, ?_, ?_⟩
    · rw [e2.input_eq, e3]
      rfl
    · rw [e2.length_eq, ← List.length_append, e3]
      rfl
  · intro lexer pre suf h
    refine ⟨lexer_invariant_of_at h, lexer_invariant_of_at (skip_whitespace_at h), ?_, ?_, ?_⟩
    · obtain ⟨pre1, suf1, e1, _⟩ := read_number_at_any h
      exact lexer_invariant_of_at e1
    · intro hc
      cases suf with
      | nil => exact absurd (by simpa using h.curr_eq) hc
      | cons c cs => exact lexer_invariant_of_at (advance_at h)
    · intro tok l1 d hcall
      obtain ⟨tok', l1', d', pre1, suf1, e1, e2, _⟩ := lexer_nth_call_at 0 _ _ _ h
      have e1' : lexer_next_token lexer = some (tok', l1', d') := e1
      rw [e1'] at hcall
      simp only [Option.some.injEq, Prod.mk.injEq] at hcall
      rw [← hcall.2.1]
      exact ⟨lexer_invariant_of_at e2, pre1, suf1, e2⟩

theorem C17_lexer_state_invariant_witness :
    lexer_invariant (lexer_init "1.5 + x".toList) :=
  (C17_lexer_state_invariant "1.5 + x".toList (by decide)).1

/-- C18: the AST operator invariant. In every tree that `parse` returns,
for every input, each BinaryOp node holds one of Plus, Minus, Multiply,
Divide, Power and each UnaryOp node holds Plus or Minus; so `ast_eval` prints
neither "Unknown binary operator" nor "Unknown unary operator" on it. -/
theorem C18_operator_invariant {F : Type} (A : Arith F) (input : List Char)
    (t : ASTNode_t F) (h : parse_ast A input = Res.ok t) :
    valid_operators t
    ∧ Diag.unknown_binary_operator ∉ (ast_eval A t).2
    ∧ Diag.unknown_unary_operator ∉ (ast_eval A t).2 := by
  have hv : valid_operators t := by
    unfold parse_ast at h
    cases hp : parse A input with
    | ok a =>
      rw [hp] at h
      simp only [Res.bind, Res.ok.injEq] at h
      rw [← h]
      exact parse_valid_operators A input a hp
    | exit e => rw [hp] at h; exact Res.noConfusion h
    | out_of_fuel => rw [hp] at h; exact Res.noConfusion h
  exact ⟨hv, ast_eval_known_operators A t hv⟩

theorem C18_operator_invariant_witness :
    valid_operators
      (ASTNode_t.unary_op TOKEN_MINUS
        (ASTNode_t.binary_op TOKEN_POWER (ASTNode_t.number (exact_arith.atof "2".toList))
          (ASTNode_t.number (exact_arith.atof "2".toList)))) :=
  (C18_operator_invariant exact_arith "-2^2".toList
    (ASTNode_t.unary_op TOKEN_MINUS
      (ASTNode_t.binary_op TOKEN_POWER (ASTNode_t.number (exact_arith.atof "2".toList))
        (ASTNode_t.number (exact_arith.atof "2".toList))))
    (by rfl)).1

/-- C19: the tree is bounded by the input. For every input (a C string) on
which `parse` returns a tree, the depth of the tree is at most its number of
nodes, the number of nodes is at most the number of tokens that
`lexer_next_token` returns before `TOKEN_EOF`, and that number is at most the
length of the input. -/
theorem C19_tree_bounded_by_input {F : Type} (A : Arith F) (input : List Char)
    (hn : ∀ c ∈ input, c ≠ NUL) (t : ASTNode_t F) (ts : List Token_t)
    (hp : parse_ast A input = Res.ok t) (hts : print_tokens input = some ts) :
    ast_depth t ≤ ast_nodes t ∧ ast_nodes t ≤ ts.length ∧ ts.length ≤ input.length := by
  have e : ts = tokens input := by
    rw [print_tokens_eq hn] at hts
    exact (Option.some.inj hts).symm
  rw [e]
  refine ⟨ast_depth_le_nodes t, ?_, tokens_length_le input⟩
  by_cases ht : t = ASTNode_t.null
  · rw [ht]
    exact Nat.zero_le _
  · unfold parse_ast at hp
    cases hq : parse A input with
    | ok a =>
      rw [hq] at hp
      simp only [Res.bind, Res.ok.injEq] at hp
      have hq1 : parse A input = Res.ok (t, a.2) := by rw [hq, ← hp]
      have h1 := tk_of_parse A hn hq1 ht
      have h2 := (tk_nodes_le A (parse_fuel input)).2.2.2.2.2.2 (tokens input) _ h1
      simpa using h2
    | exit e1 => rw [hq] at hp; exact Res.noConfusion hp
    | out_of_fuel => rw [hq] at hp; exact Res.noConfusion hp

theorem C19_tree_bounded_by_input_witness :
    ast_depth (ASTNode_t.binary_op TOKEN_PLUS (ASTNode_t.number (exact_arith.atof "1".toList))
        (ASTNode_t.binary_op TOKEN_MULTIPLY (ASTNode_t.number (exact_arith.atof "2".toList))
          (ASTNode_t.number (exact_arith.atof "3".toList))))
      ≤ ast_nodes (ASTNode_t.binary_op TOKEN_PLUS
          (ASTNode_t.number (exact_arith.atof "1".toList))
          (ASTNode_t.binary_op TOKEN_MULTIPLY (ASTNode_t.number (exact_arith.atof "2".toList))
            (ASTNode_t.number (exact_arith.atof "3".toList))))
    ∧ ast_nodes (ASTNode_t.binary_op TOKEN_PLUS
          (ASTNode_t.number (exact_arith.atof "1".toList))
          (ASTNode_t.binary_op TOKEN_MULTIPLY (ASTNode_t.number (exact_arith.atof "2".toList))
            (ASTNode_t.number (exact_arith.atof "3".toList))))
      ≤ [(⟨TOKEN_NUMBER, some "1".toList⟩ : Token_t), ⟨TOKEN_PLUS, some "+".toList⟩,
          ⟨TOKEN_NUMBER, some "2".toList⟩, ⟨TOKEN_MULTIPLY, some "*".toList⟩,
          ⟨TOKEN_NUMBER, some "3".toList⟩].length
    ∧ [(⟨TOKEN_NUMBER, some "1".toList⟩ : Token_t), ⟨TOKEN_PLUS, some "+".toList⟩,
          ⟨TOKEN_NUMBER, some "2".toList⟩, ⟨TOKEN_MULTIPLY, some "*".toList⟩,
          ⟨TOKEN_NUMBER, some "3".toList⟩].length ≤ "1+2*3".toList.length :=
  C19_tree_bounded_by_input exact_arith "1+2*3".toList (by decide)
    (ASTNode_t.binary_op TOKEN_PLUS (ASTNode_t.number (exact_arith.atof "1".toList))
      (ASTNode_t.binary_op TOKEN_MULTIPLY (ASTNode_t.number (exact_arith.atof "2".toList))
        (ASTNode_t.number (exact_arith.atof "3".toList))))
    [⟨TOKEN_NUMBER, some "1".toList⟩, ⟨TOKEN_PLUS, some "+".toList⟩,
      ⟨TOKEN_NUMBER, some "2".toList⟩, ⟨TOKEN_MULTIPLY, some "*".toList⟩,
      ⟨TOKEN_NUMBER, some "3".toList⟩]
    (parse_ast_of_yields exact_arith (by decide)
      ⟨12, by
        rw [show tokens "1+2*3".toList
          = [⟨TOKEN_NUMBER, some "1".toList⟩, ⟨TOKEN_PLUS, some "+".toList⟩,
              ⟨TOKEN_NUMBER, some "2".toList⟩, ⟨TOKEN_MULTIPLY, some "*".toList⟩,
              ⟨TOKEN_NUMBER, some "3".toList⟩] from by decide]
        rfl⟩)
    (by decide)

/-- C20: a unary sign binds tighter than `*` and `/` but looser than `^`.
For all number literals a and b, every sign s (`+` or `-`) and any whitespace
(or none) at the three gaps, "s a ^ b" parses to UnaryOp(s, BinaryOp(^, a, b))
and, for o one of `*` and `/`, "s a o b" parses to
BinaryOp(o, UnaryOp(s, a), b). The input "-2^2" parses to
UnaryOp(-, BinaryOp(^, 2, 2)) and evaluates to the negation of 2 to the power
2, which is -4 and not 4 in exact arithmetic. -/
theorem C20_sign_between_power_and_product {F : Type} (A : Arith F) (s o : Char)
    (a b w1 w2 w3 : List Char) (hs : s = '+' ∨ s = '-') (ho : o = '*' ∨ o = '/')
    (ha : is_number_literal a = true) (hb : is_number_literal b = true)
    (hw1 : ∀ c ∈ w1, is_whitespace c = true) (hw2 : ∀ c ∈ w2, is_whitespace c = true)
    (hw3 : ∀ c ∈ w3, is_whitespace c = true) :
    parse_ast A (s :: (w1 ++ (a ++ (w2 ++ '^' :: (w3 ++ b)))))
      = Res.ok (ASTNode_t.unary_op (single_char_type s)
          (ASTNode_t.binary_op TOKEN_POWER (ASTNode_t.number (A.atof a))
            (ASTNode_t.number (A.atof b))))
    ∧ parse_ast A (s :: (w1 ++ (a ++ (w2 ++ o :: (w3 ++ b)))))
      = Res.ok (ASTNode_t.binary_op (single_char_type o)
          (ASTNode_t.unary_op (single_char_type s) (ASTNode_t.number (A.atof a)))
          (ASTNode_t.number (A.atof b)))
    ∧ parse_ast A "-2^2".toList
      = Res.ok (ASTNode_t.unary_op TOKEN_MINUS
          (ASTNode_t.binary_op TOKEN_POWER (ASTNode_t.number (A.atof "2".toList))
            (ASTNode_t.number (A.atof "2".toList))))
    ∧ evaluate A "-2^2".toList
      = Res.ok (some (A.neg (A.pow (A.atof "2".toList) (A.atof "2".toList)), []))
    ∧ evaluate exact_arith "-2^2".toList = Res.ok (some (-4, [])) := by
  have hso : is_operator_char s = true := by
    rcases hs with rfl | rfl <;> decide
  have hoo : is_operator_char o = true := by
    rcases ho with rfl | rfl <;> decide
  have hpow : ∀ (B : Type) (C : Arith B) (x : Char) (u v : List Char), x = '+' ∨ x = '-' →
      tk_expression C 12 [⟨single_char_type x, some [x]⟩, ⟨TOKEN_NUMBER, some u⟩,
          ⟨single_char_type '^', some ['^']⟩, ⟨TOKEN_NUMBER, some v⟩]
        = Res.ok (ASTNode_t.unary_op (single_char_type x)
            (ASTNode_t.binary_op TOKEN_POWER (ASTNode_t.number (C.atof u))
              (ASTNode_t.number (C.atof v))), []) := by
    intro B C x u v hx
    rcases hx with rfl | rfl <;> rfl
  have hmul : ∀ (x y : Char), (x = '+' ∨ x = '-') → (y = '*' ∨ y = '/') →
      tk_expression A 12 [⟨single_char_type x, some [x]⟩, ⟨TOKEN_NUMBER, some a⟩,
          ⟨single_char_type y, some [y]⟩, ⟨TOKEN_NUMBER, some b⟩]
        = Res.ok (ASTNode_t.binary_op (single_char_type y)
            (ASTNode_t.unary_op (single_char_type x) (ASTNode_t.number (A.atof a)))
            (ASTNode_t.number (A.atof b)), []) := by
    intro x y hx hy
    rcases hx with rfl | rfl <;> rcases hy with rfl | rfl <;> rfl
  have hlit : is_number_literal "2".toList = true := by decide
  have hwit : ∀ (B : Type) (C : Arith B), parse_ast C "-2^2".toList
      = Res.ok (ASTNode_t.unary_op TOKEN_MINUS
          (ASTNode_t.binary_op TOKEN_POWER (ASTNode_t.number (C.atof "2".toList))
            (ASTNode_t.number (C.atof "2".toList)))) := by
    intro B C
    refine parse_ast_of_yields C (by decide) ⟨12, ?_⟩
    have ht := tokens_sign_binary '-' '^' "2".toList "2".toList [] [] [] (by decide) (by decide)
      hlit hlit (by simp) (by simp) (by simp)
    have ht1 : tokens "-2^2".toList
        = [⟨single_char_type '-', some ['-']⟩, ⟨TOKEN_NUMBER, some "2".toList⟩,
            ⟨single_char_type '^', some ['^']⟩, ⟨TOKEN_NUMBER, some "2".toList⟩] := ht
    rw [ht1]
    exact hpow B C '-' _ _ (Or.inr rfl)
  refine ⟨?_, ?_, hwit F A, ?_, ?_⟩
  · refine parse_ast_of_yields A
      (sign_binary_no_nul s '^' a b w1 w2 w3 hso (by decide) ha hb hw1 hw2 hw3) ⟨12, ?_⟩
    rw [tokens_sign_binary s '^' a b w1 w2 w3 hso (by decide) ha hb hw1 hw2 hw3]
    exact hpow F A s a b hs
  · refine parse_ast_of_yields A
      (sign_binary_no_nul s o a b w1 w2 w3 hso hoo ha hb hw1 hw2 hw3) ⟨12, ?_⟩
    rw [tokens_sign_binary s o a b w1 w2 w3 hso hoo ha hb hw1 hw2 hw3]
    exact hmul s o hs ho
  · rw [evaluate_of_parse_ast A (hwit F A)]
    rfl
  · rw [evaluate_of_parse_ast exact_arith (hwit ℚ exact_arith)]
    have v2 := atof_exact_values.2.1
    simp only [eval_returned, ast_eval, exact_arith, v2]
    norm_num

theorem C20_sign_between_power_and_product_witness :
    parse_ast exact_arith "- 2 ^ 3".toList
      = Res.ok (ASTNode_t.unary_op TOKEN_MINUS
          (ASTNode_t.binary_op TOKEN_POWER (ASTNode_t.number (exact_arith.atof "2".toList))
            (ASTNode_t.number (exact_arith.atof "3".toList))))
    ∧ parse_ast exact_arith "- 2 * 3".toList
      = Res.ok (ASTNode_t.binary_op TOKEN_MULTIPLY
          (ASTNode_t.unary_op TOKEN_MINUS (ASTNode_t.number (exact_arith.atof "2".toList)))
          (ASTNode_t.number (exact_arith.atof "3".toList))) :=
  have h := C20_sign_between_power_and_product exact_arith '-' '*' "2".toList "3".toList
    " ".toList " ".toList " ".toList (Or.inr rfl) (Or.inl rfl) (by decide) (by decide)
    (by decide) (by decide) (by decide)
  ⟨h.1, h.2.1⟩

/-- C21: the fatal branch of `eat` is reached at one call site only, the
`eat` for ')' after a parenthesised expression in `parse_primary`. Whenever
`parse` ends the process, the last line on `stderr` is the message of `eat`
for an expected ')' and a current token of another kind; and, for an input
without NUL, among the tokens of the input a '(' and the expression after it
are not followed by ')'. Every `eat` that is called with the current token of
the expected kind succeeds. The input "(3" ends the process at the end of the
input, and so does "(1 2)" at the 2. -/
theorem C21_eat_exits_only_at_rparen {F : Type} (A : Arith F) (input : List Char)
    (e : List Diag) (hexit : parse A input = Res.exit e) :
    rparen_mismatch e
    ∧ (∀ ts, (∀ c ∈ input, c ≠ NUL) → print_tokens input = some ts → unclosed_paren A ts)
    ∧ (∀ (parser : Parser_t) (expected : TokenType) (e1 : List Diag),
        parser.curr_token.type = expected → eat parser expected ≠ Res.exit e1)
    ∧ (∀ (fuel : Nat) (P : Parser_t) (e1 : List Diag),
        (parse_primary A fuel P = Res.exit e1 ∨ parser_power A fuel P = Res.exit e1
          ∨ parser_factor A fuel P = Res.exit e1 ∨ parse_term A fuel P = Res.exit e1
          ∨ parse_expression A fuel P = Res.exit e1 ∨ parser_parse A fuel P = Res.exit e1) →
        rparen_mismatch e1)
    ∧ parse A "(3".toList = Res.exit [Diag.eat_mismatch TOKEN_RPAREN TOKEN_EOF]
    ∧ parse A "(1 2)".toList = Res.exit [Diag.eat_mismatch TOKEN_RPAREN TOKEN_NUMBER] := by
  refine ⟨parse_exit_rparen A input e hexit, ?_, ?_, ?_, rfl, rfl⟩
  · intro ts hn hts
    have e1 : ts = tokens input := by
      rw [print_tokens_eq hn] at hts
      exact (Option.some.inj hts).symm
    rw [e1]
    exact parse_exit_unclosed A hn hexit
  · intro parser expected e1 h
    exact eat_no_exit h e1
  · intro fuel P e1 h
    have hR := parser_exit_rparen A fuel
    rcases h with h | h | h | h | h | h
    · exact hR.1 P e1 h
    · exact hR.2.1 P e1 h
    · exact hR.2.2.1 P e1 h
    · exact hR.2.2.2.2.1 P e1 h
    · exact hR.2.2.2.2.2.2 P e1 h
    · unfold parser_parse at h
      rcases bind_exit_cases h with h1 | ⟨r, _, h2⟩
      · exact hR.2.2.2.2.2.2 P e1 h1
      · split_ifs at h2

theorem C21_eat_exits_only_at_rparen_witness :
    rparen_mismatch [Diag.eat_mismatch TOKEN_RPAREN TOKEN_EOF]
    ∧ unclosed_paren exact_arith
        [⟨TOKEN_LPAREN, some "(".toList⟩, ⟨TOKEN_NUMBER, some "3".toList⟩] :=
  have h := C21_eat_exits_only_at_rparen exact_arith "(3".toList
    [Diag.eat_mismatch TOKEN_RPAREN TOKEN_EOF] rfl
  ⟨h.1, h.2.1 _ (by decide) (by decide)⟩

/-- C22: the lexer loses nothing. For every input without an embedded NUL
character, the values of all the tokens that `lexer_next_token` returns
before `TOKEN_EOF` (the tokens of `print_tokens`), concatenated in order, are
exactly the input with its whitespace characters removed; every one of these
tokens has a value, which is not empty. -/
theorem C22_lexer_loses_nothing (input : List Char) (hn : ∀ c ∈ input, c ≠ NUL)
    (ts : List Token_t) (hts : print_tokens input = some ts) :
    token_text ts = strip_whitespace input
    ∧ (∀ t ∈ ts, ∃ v, t.value = some v ∧ v ≠ []) := by
  have e : ts = tokens input := by
    rw [print_tokens_eq hn] at hts
    exact (Option.some.inj hts).symm
  rw [e]
  exact ⟨token_text_tokens _ input (Nat.le_refl _), tokens_have_value _ input (Nat.le_refl _)⟩

theorem C22_lexer_loses_nothing_witness :
    token_text [⟨TOKEN_NUMBER, some "1.5".toList⟩, ⟨TOKEN_PLUS, some "+".toList⟩,
        ⟨TOKEN_ERROR, some "x".toList⟩, ⟨TOKEN_ERROR, some ".".toList⟩,
        ⟨TOKEN_RPAREN, some ")".toList⟩]
      = strip_whitespace " 1.5 +\tx .)".toList :=
  (C22_lexer_loses_nothing " 1.5 +\tx .)".toList (by decide)
    [⟨TOKEN_NUMBER, some "1.5".toList⟩, ⟨TOKEN_PLUS, some "+".toList⟩,
      ⟨TOKEN_ERROR, some "x".toList⟩, ⟨TOKEN_ERROR, some ".".toList⟩,
      ⟨TOKEN_RPAREN, some ")".toList⟩]
    (by decide)).1

/-- C23: tokenising always makes progress and ends. For an input without an
embedded NUL character: every call of `lexer_next_token`, from a state that
stands in the input, that returns a token other than `TOKEN_EOF` leaves the
offset strictly greater than it was, and at most the length; so does every
call in the sequence of calls from `lexer_init`, against the call before it.
Whenever `lexer_next_token` calls `read_number` (the current character is a
digit, or a '.' with a digit after it) a string is returned, not `NULL`: the
rewind does not happen. The loop of `print_tokens` ends, with any number of
passes allowed from the number of tokens plus one, after at most as many
tokens as the input has characters. -/
theorem C23_lexer_progress (input : List Char) (hn : ∀ c ∈ input, c ≠ NUL) :
    (∀ (lexer lexer1 : Lexer_t) (pre suf : List Char) (tok : Token_t) (d : List Diag),
        LexAt lexer pre suf → pre ++ suf = input →
        lexer_next_token lexer = some (tok, lexer1, d) → tok.type ≠ TOKEN_EOF →
        lexer.pos < lexer1.pos ∧ lexer1.pos ≤ input.length)
    ∧ (∀ (tok : Token_t) (lexer1 : Lexer_t) (d : List Diag),
        lexer_next_token (lexer_init input) = some (tok, lexer1, d) → tok.type ≠ TOKEN_EOF →
        0 < lexer1.pos)
    ∧ (∀ (n : Nat) (tokA tokB : Token_t) (lexerA lexerB : Lexer_t) (dA dB : List Diag),
        lexer_nth_call n (lexer_init input) = some (tokA, lexerA, dA) →
        lexer_nth_call (n + 1) (lexer_init input) = some (tokB, lexerB, dB) →
        tokB.type ≠ TOKEN_EOF → lexerA.pos < lexerB.pos)
    ∧ (∀ (lexer : Lexer_t) (pre suf : List Char), LexAt lexer pre suf → pre ++ suf = input →
        (is_digit lexer.curr_char = true
          ∨ (lexer.curr_char = '.' ∧ lexer.pos + 1 < lexer.length
              ∧ is_digit (charAt lexer.input (lexer.pos + 1)) = true)) →
        ∃ x, (read_number lexer).2 = some x ∧ lexer.pos < (read_number lexer).1.pos)
    ∧ (∃ ts, print_tokens input = some ts ∧ ts.length ≤ input.length
        ∧ (∀ fuel, ts.length + 1 ≤ fuel → print_tokens_loop fuel (lexer_init input) = some ts)
        ∧ ∃ lexer1, lexer_nth_call ts.length (lexer_init input)
            = some (⟨TOKEN_EOF, none⟩, lexer1, [])) := by
  refine ⟨?_, ?_, ?_, ?_, ?_⟩
  · intro lexer lexer1 pre suf tok d h hin hcall hne
    obtain ⟨h1, h2, pre1, suf1, h3, h4⟩ := lexer_next_token_progress h hcall hne
    refine ⟨h1, ?_⟩
    rw [h3.pos_eq, ← hin, ← h4]
    simp
  · intro tok lexer1 d hcall hne
    exact Nat.lt_of_le_of_lt (Nat.zero_le _)
      (lexer_next_token_progress (lexer_init_at hn) hcall hne).1
  · intro n tokA tokB lexerA lexerB dA dB hA hB hne
    exact lexer_nth_call_progress n _ _ _ (lexer_init_at hn) _ _ _ _ _ _ hA hB hne
  · intro lexer pre suf h _ hg
    have hs := read_number_guard h hg
    obtain ⟨l1, e1, e2⟩ := read_number_at h hs
    rw [e1]
    refine ⟨_, rfl, ?_⟩
    have hlit := num_run_is_literal hs
    have hpos : 0 < (num_run false suf).length := by
      cases hr : num_run false suf with
      | nil => rw [hr] at hlit; exact absurd hlit (by decide)
      | cons x xs => simp
    show lexer.pos < l1.pos
    rw [e2.pos_eq, h.pos_eq]
    simp only [List.length_append]
    omega
  · refine ⟨tokens input, print_tokens_eq hn, tokens_length_le input, ?_, ?_⟩
    · intro fuel hf
      exact print_tokens_loop_at fuel _ [] input (lexer_init_at hn) hf
    · exact lexer_nth_call_tokens _ _ _ (lexer_init_at hn)

theorem C23_lexer_progress_witness :
    ∃ ts, print_tokens "12 + .5 $".toList = some ts ∧ ts.length ≤ "12 + .5 $".toList.length
      ∧ (∀ fuel, ts.length + 1 ≤ fuel →
          print_tokens_loop fuel (lexer_init "12 + .5 $".toList) = some ts)
      ∧ ∃ lexer1, lexer_nth_call ts.length (lexer_init "12 + .5 $".toList)
          = some (⟨TOKEN_EOF, none⟩, lexer1, []) :=
  (C23_lexer_progress "12 + .5 $".toList (by decide)).2.2.2.2

end Calc
